import Mathlib

/-
Verification of the differentiable-robot-model core
(`differentiable_robot_model/robot_model.py` and
`differentiable_robot_model/spatial_vector_algebra.py`).

Shallow embedding conventions:
* torch tensors of scalars become rational numbers (`ℚ`); every tensor
  operation used by the source acts independently on each batch row, so the
  embedding models one batch row.
* 3-vectors are `Fin 3 → ℚ`, 3x3 matrices `Matrix (Fin 3) (Fin 3) ℚ`,
  6-vectors `Fin 6 → ℚ` in the source's `get_vector` order (angular part
  first, then linear part), 6x6 matrices `Matrix (Fin 6) (Fin 6) ℚ`.
* fallible code paths (python `assert`, `int()` on a tensor that does not
  have exactly one element, float division producing Inf/NaN) are modelled
  with `Option`: `none` marks the failure.
* the helper modules `utils.py`, `rigid_body.py` and `urdf_utils.py` are not
  part of the sources; the few facts needed from them are modelled from the
  spec and marked as such in their doc comments.
-/

/-- Rational 3-vectors, indexed like a torch tensor of shape `[3]`. -/
abbrev V3 : Type := Fin 3 → ℚ

/-- Rational 3x3 matrices. -/
abbrev M33 : Type := Matrix (Fin 3) (Fin 3) ℚ

/-- Rational 6-vectors (spatial vectors, angular part first). -/
abbrev V6 : Type := Fin 6 → ℚ

/-- Rational 6x6 matrices. -/
abbrev M66 : Type := Matrix (Fin 6) (Fin 6) ℚ

/-- Modelled from the spec: `utils.cross_product` (module `utils.py` is not
among the sources) is the ordinary 3-d cross product used for the
velocity-dependent bias terms of the spatial algebra. -/
def cross3 (a b : V3) : V3 :=
  ![a 1 * b 2 - a 2 * b 1, a 2 * b 0 - a 0 * b 2, a 0 * b 1 - a 1 * b 0]

/-- Skew-symmetric matrix of a 3-vector.  This is the matrix `t` built
entry by entry in `CoordinateTransform.to_matrix` (spatial_vector_algebra.py
lines 163-170) and is also the model of `utils.vector3_to_skew_symm_matrix`. -/
def skew (v : V3) : M33 :=
  !![0, -v 2, v 1; v 2, 0, -v 0; -v 1, v 0, 0]

/-- Model of `torch.sign` on a scalar. -/
def sgn (x : ℚ) : ℚ := if x < 0 then -1 else if x = 0 then 0 else 1

/-- Standard basis vector of `ℚ^3`. -/
def e3 (k : Fin 3) : V3 := fun i => if i = k then 1 else 0

/-- Build a 6-vector from its angular and linear 3-vector parts; this is the
layout produced by `get_vector` (`torch.cat([self.ang, self.lin], dim=1)`). -/
def v6 (a l : V3) : V6 :=
  Sum.elim a l ∘ ((finSumFinEquiv : Fin 3 ⊕ Fin 3 ≃ Fin (3 + 3)).symm)

/-- Build a 6x6 matrix from four 3x3 blocks (row/column split at 3, matching
the slice assignments `mat[:3,:3]`, `mat[:3,3:]`, `mat[3:,:3]`, `mat[3:,3:]`
used throughout `spatial_vector_algebra.py`). -/
def b66 (A B C D : M33) : M66 :=
  (Matrix.fromBlocks A B C D).submatrix
    ((finSumFinEquiv : Fin 3 ⊕ Fin 3 ≃ Fin (3 + 3)).symm)
    ((finSumFinEquiv : Fin 3 ⊕ Fin 3 ≃ Fin (3 + 3)).symm)

/-- Embedding of `CoordinateTransform`: a rigid rotation plus translation
between two link frames (one batch row of `self._rot`, `self._trans`). -/
structure CoordinateTransform where
  rot : M33
  trans : V3

/-- Embedding of `CoordinateTransform.inverse`. -/
def CoordinateTransform.inverse (T : CoordinateTransform) : CoordinateTransform :=
  ⟨T.rot.transpose, -(T.rot.transpose.mulVec T.trans)⟩

/-- Embedding of `CoordinateTransform.multiply_transform`. -/
def CoordinateTransform.multiply_transform (T U : CoordinateTransform) :
    CoordinateTransform :=
  ⟨T.rot * U.rot, T.rot.mulVec U.trans + T.trans⟩

/-- Embedding of `CoordinateTransform.trans_cross_rot`. -/
def CoordinateTransform.trans_cross_rot (T : CoordinateTransform) : M33 :=
  skew T.trans * T.rot

/-- Embedding of `CoordinateTransform.to_matrix` (spatial 6x6 matrix of the
transform): `mat[:3,:3] = Rᵀ`, `mat[3:,:3] = -Rᵀ·t×`, `mat[3:,3:] = Rᵀ`. -/
def CoordinateTransform.to_matrix (T : CoordinateTransform) : M66 :=
  b66 T.rot.transpose 0 (-(T.rot.transpose * skew T.trans)) T.rot.transpose

/-- The identity transform (a freshly constructed `CoordinateTransform()`:
identity rotation, zero translation). -/
def ctIdentity : CoordinateTransform := ⟨1, 0⟩

/-- Embedding of `SpatialMotionVec` (one batch row). -/
structure SpatialMotionVec where
  lin : V3
  ang : V3

/-- Embedding of `SpatialForceVec` (one batch row). -/
structure SpatialForceVec where
  lin : V3
  ang : V3

/-- Embedding of `SpatialMotionVec.add_motion_vec`. -/
def SpatialMotionVec.add_motion_vec (m s : SpatialMotionVec) : SpatialMotionVec :=
  ⟨m.lin + s.lin, m.ang + s.ang⟩

/-- Embedding of `SpatialMotionVec.cross_motion_vec`. -/
def SpatialMotionVec.cross_motion_vec (m s : SpatialMotionVec) : SpatialMotionVec :=
  ⟨cross3 m.ang s.lin + cross3 m.lin s.ang, cross3 m.ang s.ang⟩

/-- Embedding of `SpatialMotionVec.cross_force_vec`. -/
def SpatialMotionVec.cross_force_vec (m : SpatialMotionVec) (s : SpatialForceVec) :
    SpatialForceVec :=
  ⟨cross3 m.ang s.lin, cross3 m.ang s.ang + cross3 m.lin s.lin⟩

/-- Embedding of `SpatialMotionVec.transform`. -/
def SpatialMotionVec.transform (m : SpatialMotionVec) (T : CoordinateTransform) :
    SpatialMotionVec :=
  ⟨T.trans_cross_rot.mulVec m.ang + T.rot.mulVec m.lin, T.rot.mulVec m.ang⟩

/-- Embedding of `SpatialMotionVec.get_vector`. -/
def SpatialMotionVec.get_vector (m : SpatialMotionVec) : V6 := v6 m.ang m.lin

/-- Embedding of `SpatialMotionVec.multiply`.  The source builds a
`SpatialForceVec(self.lin * v, self.ang * v)`, but every consumer
(`add_motion_vec` in the ABA forward pass) only reads the scaled `lin`/`ang`
fields, so the embedding returns the scaled motion vector directly. -/
def SpatialMotionVec.multiply (m : SpatialMotionVec) (v : ℚ) : SpatialMotionVec :=
  ⟨v • m.lin, v • m.ang⟩

/-- Embedding of `SpatialMotionVec.dot` (also used for force·motion pairs,
which have identical field layout). -/
def SpatialMotionVec.dot (m s : SpatialMotionVec) : ℚ :=
  Matrix.dotProduct m.ang s.ang + Matrix.dotProduct m.lin s.lin

/-- Embedding of `SpatialForceVec.add_force_vec`. -/
def SpatialForceVec.add_force_vec (f s : SpatialForceVec) : SpatialForceVec :=
  ⟨f.lin + s.lin, f.ang + s.ang⟩

/-- Embedding of `SpatialForceVec.transform`. -/
def SpatialForceVec.transform (f : SpatialForceVec) (T : CoordinateTransform) :
    SpatialForceVec :=
  ⟨T.rot.mulVec f.lin, T.trans_cross_rot.mulVec f.lin + T.rot.mulVec f.ang⟩

/-- Embedding of `SpatialForceVec.get_vector`. -/
def SpatialForceVec.get_vector (f : SpatialForceVec) : V6 := v6 f.ang f.lin

/-- Embedding of `SpatialForceVec.multiply`. -/
def SpatialForceVec.multiply (f : SpatialForceVec) (v : ℚ) : SpatialForceVec :=
  ⟨v • f.lin, v • f.ang⟩

/-- Embedding of `SpatialForceVec.dot` (pairing of a force with a motion
vector: `power = force.dot(velocity)`). -/
def SpatialForceVec.dot (f : SpatialForceVec) (s : SpatialMotionVec) : ℚ :=
  Matrix.dotProduct f.ang s.ang + Matrix.dotProduct f.lin s.lin

/-- The zero force vector (`SpatialForceVec(device=...)`, which fills both
parts with zeros). -/
def sfvZero : SpatialForceVec := ⟨0, 0⟩

/-- The zero motion vector. -/
def smvZero : SpatialMotionVec := ⟨0, 0⟩

/-- Embedding of `DifferentiableSpatialRigidBodyInertia`: the constant
physical parameters of one rigid body. -/
structure SpatialRigidBodyInertia where
  mass : ℚ
  com : V3
  inertia_mat : M33

/-- Embedding of `DifferentiableSpatialRigidBodyInertia.multiply_motion_vec`. -/
def SpatialRigidBodyInertia.multiply_motion_vec (I : SpatialRigidBodyInertia)
    (smv : SpatialMotionVec) : SpatialForceVec :=
  ⟨I.mass • smv.lin - cross3 (I.mass • I.com) smv.ang,
   (I.inertia_mat + I.mass • (skew I.com * (skew I.com).transpose)).mulVec smv.ang
     + cross3 (I.mass • I.com) smv.lin⟩

/-- Embedding of `DifferentiableSpatialRigidBodyInertia.get_spatial_mat`:
block layout `[[inertia, mc×], [(mc×)ᵀ, mass·1]]` — exactly the entries
assigned one by one in the source (`mat[3,1] = mcom[0,2]`, etc.). -/
def SpatialRigidBodyInertia.get_spatial_mat (I : SpatialRigidBodyInertia) : M66 :=
  b66 (I.inertia_mat + I.mass • (skew I.com * (skew I.com).transpose))
    (skew (I.mass • I.com)) (skew (I.mass • I.com)).transpose
    (I.mass • (1 : M33))

/-- Embedding of `DifferentiableRobotModel`'s construction-time data
(`robot_model.py` `__init__`).  Bodies are indexed `0 .. nb` with body `0`
the fixed base; names are identified with indices (the URDF loader supplies
a bijection `_name_to_idx_map`).  `parent` models
`get_name_of_parent_body` composed with that bijection, `hparent` is the
spec's topological-ordering invariant (every link's parent has a strictly
smaller index).  `joint_pose` and `joint_axis` model the per-body joint data
held by `DifferentiableRigidBody` (module `rigid_body.py` is not among the
sources): `joint_pose i` is the child-to-parent transform as a function of
the joint variable, as the spec describes for fixed/revolute joints, and is
an arbitrary function here.  `controlled i = true` iff body `i`'s joint is
not fixed (`joint_type != "fixed"`). -/
structure RobotModel where
  nb : ℕ
  parent : Fin (nb + 1) → Fin (nb + 1)
  hparent : ∀ i : Fin (nb + 1), 0 < i.1 → (parent i).1 < i.1
  joint_pose : Fin (nb + 1) → ℚ → CoordinateTransform
  joint_axis : Fin (nb + 1) → V3
  controlled : Fin (nb + 1) → Bool
  hbase : controlled 0 = false
  inertia : Fin (nb + 1) → SpatialRigidBodyInertia
  joint_damping : Fin (nb + 1) → ℚ

/-- Body indices of a robot model. -/
abbrev RobotModel.Idx (M : RobotModel) : Type := Fin (M.nb + 1)

/-- Embedding of `self._controlled_joints`: the body indices with a non-fixed
joint, in increasing order (the construction loop appends them in order). -/
def RobotModel.controlledList (M : RobotModel) : List M.Idx :=
  (List.finRange (M.nb + 1)).filter (fun i => M.controlled i)

/-- Embedding of `self._n_dofs`. -/
def RobotModel.nDofs (M : RobotModel) : ℕ := M.controlledList.length

/-- Body index of the `j`-th controlled joint (`self._controlled_joints[j]`). -/
def RobotModel.cj (M : RobotModel) (j : Fin M.nDofs) : M.Idx :=
  M.controlledList.get ⟨j.1, j.2⟩

/-- Embedding of `self._controlled_joints.index(i)`. -/
def RobotModel.dofIdx (M : RobotModel) (i : M.Idx) : ℕ :=
  M.controlledList.indexOf i

/-- The joint variable seen by body `i` when the batched argument is `q`:
`q[:, j]` for the `j`-th controlled joint, and `0` for fixed joints (which
`update_kinematic_state` zeroes, or whose pose ignores the variable). -/
def RobotModel.jointVal (M : RobotModel) (q : Fin M.nDofs → ℚ) (i : M.Idx) : ℚ :=
  if h : i ∈ M.controlledList then q ⟨M.dofIdx i, List.indexOf_lt_length.mpr h⟩ else 0

/-- The joint pose of body `i` at configuration `q` (the value of
`body.joint_pose` after `update_joint_state`). -/
def RobotModel.X (M : RobotModel) (q : Fin M.nDofs → ℚ) (i : M.Idx) :
    CoordinateTransform :=
  M.joint_pose i (M.jointVal q i)

/-- Modelled from the spec: `body.joint_vel` after `update_joint_state`
(`rigid_body.py` is not among the sources).  The spec's revolute joint
contributes the angular velocity `qd · axis` and no linear velocity. -/
def RobotModel.joint_vel_of (M : RobotModel) (qd : Fin M.nDofs → ℚ) (i : M.Idx) :
    SpatialMotionVec :=
  ⟨0, M.jointVal qd i • M.joint_axis i⟩

/-- Modelled from the spec: `body.joint_acc` after `update_joint_acc`, the
angular acceleration `qdd · axis` of a revolute joint (zero for fixed
joints, which `compute_inverse_dynamics` does not update). -/
def RobotModel.joint_acc_of (M : RobotModel) (qdd : Fin M.nDofs → ℚ) (i : M.Idx) :
    SpatialMotionVec :=
  ⟨0, M.jointVal qdd i • M.joint_axis i⟩

/-- Embedding of the pose sweep of `update_kinematic_state` (lines 176-190):
an ordered pass over bodies `1 .. nb` setting
`body.pose = parent.pose.multiply_transform(body.joint_pose)`, starting from
the construction-time poses (identity; the base stays at the world origin). -/
def RobotModel.sweepPoses (M : RobotModel) (q : Fin M.nDofs → ℚ) :
    M.Idx → CoordinateTransform :=
  ((List.finRange (M.nb + 1)).drop 1).foldl
    (fun P i => Function.update P i ((P (M.parent i)).multiply_transform (M.X q i)))
    (fun _ => ctIdentity)

/-- Embedding of the velocity sweep of `update_kinematic_state`
(lines 168-197): the base is at rest and
`body.vel = body.joint_vel.add_motion_vec(parent.vel.transform(joint_pose.inverse()))`. -/
def RobotModel.sweepVels (M : RobotModel) (q qd : Fin M.nDofs → ℚ) :
    M.Idx → SpatialMotionVec :=
  ((List.finRange (M.nb + 1)).drop 1).foldl
    (fun V i => Function.update V i
      ((M.joint_vel_of qd i).add_motion_vec ((V (M.parent i)).transform (M.X q i).inverse)))
    (fun _ => smvZero)

/-- Embedding of `update_kinematic_state` as a whole: it indexes
`self._controlled_joints[0]` and therefore raises on a robot without
controlled joints; otherwise it (re)computes every body's pose and spatial
velocity. -/
def RobotModel.update_kinematic_state (M : RobotModel) (q qd : Fin M.nDofs → ℚ) :
    Option ((M.Idx → CoordinateTransform) × (M.Idx → SpatialMotionVec)) :=
  if M.nDofs = 0 then none else some (M.sweepPoses q, M.sweepVels q qd)

/-- Pose of body `i` by structural recursion on the parent chain; both
traversal strategies are proved equal to this normal form. -/
def RobotModel.poseOf (M : RobotModel) (q : Fin M.nDofs → ℚ) (i : M.Idx) :
    CoordinateTransform :=
  if h : 0 < i.1 then
    (M.poseOf q (M.parent i)).multiply_transform (M.X q i)
  else ctIdentity
  termination_by i.1
  decreasing_by exact M.hparent i h

/-- Spatial velocity of body `i` by structural recursion on the parent chain. -/
def RobotModel.velOf (M : RobotModel) (q qd : Fin M.nDofs → ℚ) (i : M.Idx) :
    SpatialMotionVec :=
  if h : 0 < i.1 then
    (M.joint_vel_of qd i).add_motion_vec
      ((M.velOf q qd (M.parent i)).transform (M.X q i).inverse)
  else smvZero
  termination_by i.1
  decreasing_by exact M.hparent i h

/-- The children of body `i` (the bodies whose `get_name_of_parent_body`
is `i`; the index bound keeps the recursion well-founded and is implied by
`hparent` for every body other than the base). -/
def RobotModel.childrenL (M : RobotModel) (i : M.Idx) : List M.Idx :=
  (List.finRange (M.nb + 1)).filter (fun c => M.parent c = i ∧ i.1 < c.1)

/-- Modelled from the spec: the name-keyed recursive forward-kinematics
strategy (`self._bodies[0].forward_kinematics(q_dict)`, implemented in the
missing `rigid_body.py`): a structural recursion from the root that composes
the accumulated pose with each child's joint pose and collects every
visited link's pose.  `acc` is the pose of body `i`. -/
def RobotModel.recFKAux (M : RobotModel) (q : Fin M.nDofs → ℚ) (i : M.Idx)
    (acc : CoordinateTransform) : List (M.Idx × CoordinateTransform) :=
  (i, acc) :: (M.childrenL i).attach.bind
    (fun c => M.recFKAux q c.1 (acc.multiply_transform (M.X q c.1)))
  termination_by M.nb + 1 - i.1
  decreasing_by
    have hc := List.of_mem_filter c.2
    have : i.1 < c.1.1 := (of_decide_eq_true hc).2
    omega

/-- The recursive strategy's pose dictionary (`pose_dict` of the
`recursive=True` branch of `compute_forward_kinematics_all_links`). -/
def RobotModel.recPoses (M : RobotModel) (q : Fin M.nDofs → ℚ) (i : M.Idx) :
    Option CoordinateTransform :=
  (M.recFKAux q 0 ctIdentity).lookup i

/-- Embedding of `compute_forward_kinematics_all_links` at the pose level
(the source then returns `(pose.translation(), pose.get_quaternion())` for
each link; `get_quaternion` is a fixed function of the rotation involving
square roots, so the claims are settled on the pose itself). -/
def RobotModel.compute_forward_kinematics_all_links (M : RobotModel)
    (q : Fin M.nDofs → ℚ) (recursive : Bool) : M.Idx → Option CoordinateTransform :=
  if recursive then M.recPoses q
  else fun i => (M.update_kinematic_state q 0).map (fun st => st.1 i)

/-- Embedding of `compute_forward_kinematics` (single link) at the pose
level.  Note the source's `recursive=True` branch delegates to
`compute_forward_kinematics_all_links(q)` with its default
`recursive=False`. -/
def RobotModel.compute_forward_kinematics (M : RobotModel) (q : Fin M.nDofs → ℚ)
    (link : M.Idx) (recursive : Bool) : Option CoordinateTransform :=
  if recursive then M.compute_forward_kinematics_all_links q false link
  else (M.update_kinematic_state q 0).map (fun st => st.1 link)

/-- Angular-part-first reading of a 6-vector as a force vector
(`SpatialForceVec(lin_force=w[:, 3:], ang_force=w[:, :3])`). -/
def sfvOfVec (w : V6) : SpatialForceVec :=
  ⟨fun k => w ⟨k.1 + 3, by omega⟩, fun k => w ⟨k.1, by omega⟩⟩

/-- Sum of a list of spatial force vectors (the net effect of the
`parent_body.force = parent_body.force.add_force_vec(...)` accumulation). -/
def sfvSum (l : List SpatialForceVec) : SpatialForceVec :=
  l.foldr SpatialForceVec.add_force_vec sfvZero

/-- Acceleration of body `i` in the forward sweep of
`iterative_newton_euler` (lines 276-291): the parent's acceleration
transformed into this body's frame, plus the joint acceleration `η i`, plus
the velocity bias `β i` (`body.vel.cross_motion_vec(body.joint_vel)`). -/
def neAcc (M : RobotModel) (X : M.Idx → CoordinateTransform)
    (η β : M.Idx → SpatialMotionVec) (a0 : SpatialMotionVec) (i : M.Idx) :
    SpatialMotionVec :=
  if h : 0 < i.1 then
    (((neAcc M X η β a0 (M.parent i)).transform (X i).inverse).add_motion_vec
      (η i)).add_motion_vec (β i)
  else a0
  termination_by i.1
  decreasing_by exact M.hparent i h

/-- Accumulated force on body `i` after the backward sweep of
`iterative_newton_euler` (lines 294-315): all forces are reset, each body
adds its own Newton-Euler force
`inertia·acc + vel ×* (inertia·vel)`, and each processed body adds its force
(transformed by its joint pose) to its parent; since bodies are processed in
decreasing index order, body `i` ends up with its own force plus the
transformed accumulated forces of its children. -/
def neForce (M : RobotModel) (X : M.Idx → CoordinateTransform)
    (vel acc : M.Idx → SpatialMotionVec) (i : M.Idx) : SpatialForceVec :=
  ((sfvZero.add_force_vec ((M.inertia i).multiply_motion_vec (acc i))).add_force_vec
      ((vel i).cross_force_vec ((M.inertia i).multiply_motion_vec (vel i)))).add_force_vec
    (sfvSum ((M.childrenL i).attach.map
      (fun c => (neForce M X vel acc c.1).transform (X c.1))))
  termination_by M.nb + 1 - i.1
  decreasing_by
    have hc := List.of_mem_filter c.2
    have : i.1 < c.1.1 := (of_decide_eq_true hc).2
    omega

/-- Embedding of `axis_idx = int(torch.where(axis)[0])`
(`compute_inverse_dynamics` lines 370-371): `torch.where` lists the indices
of the nonzero coordinates, and `int()` raises unless that list has exactly
one element. -/
def axis_index (axis : V3) : Option (Fin 3) :=
  match (List.finRange 3).filter (fun k => decide (axis k ≠ 0)) with
  | [k] => some k
  | _ => none

/-- Embedding of the torque extraction for one controlled joint
(lines 369-379): build `rot_axis = sign(axis[axis_idx]) · e_{axis_idx}` and
return `force.ang ⬝ rot_axis`; fails when `axis_index` fails. -/
def jointTorqueProj (axis : V3) (f : SpatialForceVec) : Option ℚ :=
  (axis_index axis).map (fun k => Matrix.dotProduct f.ang (sgn (axis k) • e3 k))

/-- Gravitational base acceleration (lines 358-361): zero, or `9.81` on the
third linear coordinate when gravity is included. -/
def baseAccOf (include_gravity : Bool) : SpatialMotionVec :=
  ⟨if include_gravity then (981 / 100 : ℚ) • e3 2 else 0, 0⟩

/-- Per-dof damping constants of the controlled joints
(`damping_const[:, i] = bodies[controlled_joints[i]].get_joint_damping_const()`). -/
def RobotModel.dampingConst (M : RobotModel) (j : Fin M.nDofs) : ℚ :=
  M.joint_damping (M.cj j)

/-- Embedding of `compute_inverse_dynamics` on one batch row, after the
shape checks (which live in the list-level wrapper below):
`update_kinematic_state`, set the desired accelerations, propagate the base
acceleration with `iterative_newton_euler`, extract each controlled joint's
torque, and optionally add the damping torque `damping · qd`.  `none` marks
a raised exception (no controlled joints, or a joint axis on which the
`int(torch.where(axis)[0])` extraction raises). -/
def RobotModel.compute_inverse_dynamics (M : RobotModel)
    (q qd qdd : Fin M.nDofs → ℚ) (include_gravity use_damping : Bool) :
    Option (Fin M.nDofs → ℚ) :=
  match M.update_kinematic_state q qd with
  | none => none
  | some st =>
    let vel := st.2
    let acc := neAcc M (M.X q) (M.joint_acc_of qdd)
      (fun i => (vel i).cross_motion_vec (M.joint_vel_of qd i)) (baseAccOf include_gravity)
    let force := neForce M (M.X q) vel acc
    if h : ∀ j : Fin M.nDofs,
        (jointTorqueProj (M.joint_axis (M.cj j)) (force (M.cj j))).isSome then
      some (fun j =>
        (jointTorqueProj (M.joint_axis (M.cj j)) (force (M.cj j))).get (h j)
          + (if use_damping then M.dampingConst j * qd j else 0))
    else none

/-- Embedding of `compute_non_linear_effects`: inverse dynamics with zero
desired acceleration. -/
def RobotModel.compute_non_linear_effects (M : RobotModel)
    (q qd : Fin M.nDofs → ℚ) (include_gravity use_damping : Bool) :
    Option (Fin M.nDofs → ℚ) :=
  M.compute_inverse_dynamics q qd 0 include_gravity use_damping

/-- Embedding of `compute_lagrangian_inertia_matrix`: one inverse-dynamics
call per unit-acceleration basis column (`identity_tensor[:, :, j]`), minus
the zero-acceleration baseline (the gravity term, or zero when gravity is
excluded); entry `H i j` is component `i` of column `j`. -/
def RobotModel.compute_lagrangian_inertia_matrix (M : RobotModel)
    (q : Fin M.nDofs → ℚ) (include_gravity use_damping : Bool) :
    Option (Matrix (Fin M.nDofs) (Fin M.nDofs) ℚ) :=
  match (if include_gravity then
      M.compute_inverse_dynamics q 0 0 include_gravity use_damping
    else some 0) with
  | none => none
  | some gravity_term =>
    let col := fun j : Fin M.nDofs =>
      M.compute_inverse_dynamics q 0 (fun k => if k = j then 1 else 0)
        include_gravity use_damping
    if h : ∀ j, (col j).isSome then
      some (Matrix.of (fun i j => ((col j).get (h j)) i - gravity_term i))
    else none

/-- Embedding of the joint motion subspace built in the ABA backward sweep
(lines 810-813): `S = SpatialMotionVec(lin_motion=0, ang_motion=joint_axis)`. -/
def RobotModel.S6 (M : RobotModel) (i : M.Idx) : SpatialMotionVec :=
  ⟨0, M.joint_axis i⟩

/-- The per-call inputs of the ABA sweeps of `compute_forward_dynamics`:
joint poses and body velocities from `update_kinematic_state`, the joint
velocities, the applied generalized force of each body (`f[:, joint_idx]`
for a controlled joint, `0` otherwise, matching `body.u`'s two cases), and
the smoothing epsilon added to the scalar divisor `d` in the backward sweep
(`1e-37` in the source; kept as a parameter so that the exact-arithmetic
round trip can be stated at `eps = 0`). -/
structure AbaCtx (M : RobotModel) where
  X : M.Idx → CoordinateTransform
  vel : M.Idx → SpatialMotionVec
  jv : M.Idx → SpatialMotionVec
  fB : M.Idx → ℚ
  eps : ℚ

/-- Embedding of `body.c = body.vel.cross_motion_vec(body.joint_vel)`
(line 801). -/
def AbaCtx.cb {M : RobotModel} (C : AbaCtx M) (i : M.Idx) : SpatialMotionVec :=
  (C.vel i).cross_motion_vec (C.jv i)

/-- Embedding of `body.pA = body.vel.cross_force_vec(inertia·vel)`
(lines 802-803). -/
def AbaCtx.pA0 {M : RobotModel} (C : AbaCtx M) (i : M.Idx) : SpatialForceVec :=
  (C.vel i).cross_force_vec ((M.inertia i).multiply_motion_vec (C.vel i))

/-- Articulated inertia and articulated bias force of body `i` after the ABA
backward sweep (lines 807-856).  The sweep visits bodies in decreasing index
order; when body `c` is visited, its `IA`/`pA` already contain the
contributions of all of its children, and — unless its parent is the base —
it adds `Xᵀ·(IA - U·Uᵀ/(d+eps))·X` to its parent's `IA` and the transformed
`pA + (IA - U·Uᵀ/(d+eps))·c + U·(u/(d+eps))` to its parent's `pA`.  Body
`i`'s final state is therefore its own initial `IA`/`pA` plus the
contribution of each child.  The two divisions here are the eps-guarded
`U / (d + 1e-37)` and `u / (d + 1e-37)` of lines 829-843; they are embedded
as total rational division, which agrees with the source whenever
`d + eps ≠ 0`.  At `d + eps = 0` exactly (`d = -1e-37`, or a zero-axis
fixed joint at `eps = 0`) the float quotient is Inf/NaN while the rational
quotient is `0`, so no theorem below infers finiteness of the source's
result from this sweep; nonfiniteness results are drawn only from the
forward sweep's unguarded division, made fallible at its site in
`abaQddOpt`. -/
def abaIP (M : RobotModel) (C : AbaCtx M) (i : M.Idx) : M66 × SpatialForceVec :=
  if i.1 = 0 then ((M.inertia i).get_spatial_mat, C.pA0 i)
  else
    let contribs := (M.childrenL i).attach.map (fun c =>
      let IPc := abaIP M C c.1
      let S := M.S6 c.1
      let U6 := IPc.1.mulVec S.get_vector
      let d := Matrix.dotProduct S.get_vector U6
      let u := C.fB c.1 - SpatialForceVec.dot IPc.2 S
      let Ud := (d + C.eps)⁻¹ • U6
      let IA2 := IPc.1 - Matrix.vecMulVec U6 Ud
      let tmp := IA2.mulVec (C.cb c.1).get_vector
      let pa := (IPc.2.add_force_vec (sfvOfVec tmp)).add_force_vec
        ((sfvOfVec U6).multiply (u / (d + C.eps)))
      ((C.X c.1).to_matrix.transpose * IA2 * (C.X c.1).to_matrix,
        pa.transform (C.X c.1)))
    ((M.inertia i).get_spatial_mat + (contribs.map Prod.fst).sum,
      (C.pA0 i).add_force_vec (sfvSum (contribs.map Prod.snd)))
  termination_by M.nb + 1 - i.1
  decreasing_by
    have hc := List.of_mem_filter c.2
    have : i.1 < c.1.1 := (of_decide_eq_true hc).2
    omega

/-- Articulated inertia `body.IA` of body `i` after the backward sweep. -/
def abaIA (M : RobotModel) (C : AbaCtx M) (i : M.Idx) : M66 := (abaIP M C i).1

/-- Articulated bias force `body.pA` of body `i` after the backward sweep. -/
def abaPA (M : RobotModel) (C : AbaCtx M) (i : M.Idx) : SpatialForceVec :=
  (abaIP M C i).2

/-- Embedding of `body.U = IA @ S` (line 815), as a raw 6-vector. -/
def abaU6 (M : RobotModel) (C : AbaCtx M) (i : M.Idx) : V6 :=
  (abaIA M C i).mulVec (M.S6 i).get_vector

/-- Embedding of the effective-inertia scalar `body.d = S.dot(U)` (line 817). -/
def abaD (M : RobotModel) (C : AbaCtx M) (i : M.Idx) : ℚ :=
  Matrix.dotProduct (M.S6 i).get_vector (abaU6 M C i)

/-- Embedding of `body.u` (lines 818-821): the applied generalized force
minus `pA.dot(S)` (zero applied force for an uncontrolled joint). -/
def abaSmallU (M : RobotModel) (C : AbaCtx M) (i : M.Idx) : ℚ :=
  C.fB i - SpatialForceVec.dot (abaPA M C i) (M.S6 i)

/-- Acceleration of body `i` in the ABA forward sweep (lines 863-882): the
parent's acceleration transformed into this body's frame plus the bias
`body.c`; a controlled joint additionally solves
`qdd = (1/d)·(u - U.dot(acc))` — note the unguarded divisor `d` — and folds
`S·qdd` back into the acceleration. -/
def abaAcc (M : RobotModel) (C : AbaCtx M) (a0 : SpatialMotionVec) (i : M.Idx) :
    SpatialMotionVec :=
  if h : 0 < i.1 then
    let pre := ((abaAcc M C a0 (M.parent i)).transform (C.X i).inverse).add_motion_vec
      (C.cb i)
    if M.controlled i then
      pre.add_motion_vec ((M.S6 i).multiply
        ((1 / abaD M C i) * (abaSmallU M C i
          - SpatialForceVec.dot (sfvOfVec (abaU6 M C i)) pre)))
    else pre
  else a0
  termination_by i.1
  decreasing_by exact M.hparent i h

/-- The pre-fold acceleration of body `i` (the value of `body.acc` at
line 874-876, before the joint acceleration is folded in). -/
def abaAccPre (M : RobotModel) (C : AbaCtx M) (a0 : SpatialMotionVec) (i : M.Idx) :
    SpatialMotionVec :=
  ((abaAcc M C a0 (M.parent i)).transform (C.X i).inverse).add_motion_vec (C.cb i)

/-- The joint acceleration solved for body `i` in the ABA forward sweep
(line 881): `qdd = (1/d)·(u - U.dot(acc))`. -/
def abaQdd (M : RobotModel) (C : AbaCtx M) (a0 : SpatialMotionVec) (i : M.Idx) : ℚ :=
  (1 / abaD M C i) * (abaSmallU M C i
    - SpatialForceVec.dot (sfvOfVec (abaU6 M C i)) (abaAccPre M C a0 i))

/-- Acceleration of body `i` in the ABA forward sweep with the per-joint
solve's division made fallible at its site: the source's
`qdd[:, joint_idx] = (1.0 / body.d) * (...)` (line 881) divides by the
unguarded `d`, so a controlled joint with `d = 0` is a float division by
zero there (Inf/NaN), modelled as `none`; the failure contaminates the
accelerations of all of that joint's descendants. -/
def abaAccOpt (M : RobotModel) (C : AbaCtx M) (a0 : SpatialMotionVec) (i : M.Idx) :
    Option SpatialMotionVec :=
  if h : 0 < i.1 then
    match abaAccOpt M C a0 (M.parent i) with
    | none => none
    | some pa =>
      let pre := (pa.transform (C.X i).inverse).add_motion_vec (C.cb i)
      if M.controlled i then
        if abaD M C i = 0 then none
        else some (pre.add_motion_vec ((M.S6 i).multiply
          ((1 / abaD M C i) * (abaSmallU M C i
            - SpatialForceVec.dot (sfvOfVec (abaU6 M C i)) pre))))
      else some pre
  else some a0
  termination_by i.1
  decreasing_by exact M.hparent i h

/-- The joint acceleration solved at line 881 for body `i`: `none` when the
solve's own divisor `d` is zero, or when a nonfinite parent acceleration
(from a zero `d` at a controlled ancestor) reaches it. -/
def abaQddOpt (M : RobotModel) (C : AbaCtx M) (a0 : SpatialMotionVec) (i : M.Idx) :
    Option ℚ :=
  match abaAccOpt M C a0 (M.parent i) with
  | none => none
  | some pa =>
    if abaD M C i = 0 then none
    else some ((1 / abaD M C i) * (abaSmallU M C i
      - SpatialForceVec.dot (sfvOfVec (abaU6 M C i))
          ((pa.transform (C.X i).inverse).add_motion_vec (C.cb i))))

/-- Embedding of `compute_forward_dynamics` (articulated body algorithm) on
one batch row, with the backward-sweep smoothing epsilon as a parameter.
With damping enabled the applied forces are first replaced by
`f - damping·qd` (the source subtracts in place; the caller-visible frame
effect is modelled by `compute_forward_dynamics_list` below).  Entry `j` of
the returned tensor is the joint acceleration of controlled body `cj j`,
solved by the forward sweep through `abaQddOpt`, whose division by the
unguarded scalar `d` fails at its site when `d = 0`; the call returns
`none` when any entry is nonfinite.  (The backward sweep's two eps-guarded
divisions stay total in `abaIP` — see there — so `none` here tracks
exactly the forward sweep's divisions.) -/
def RobotModel.compute_forward_dynamics_eps (M : RobotModel) (eps : ℚ)
    (q qd f : Fin M.nDofs → ℚ) (include_gravity use_damping : Bool) :
    Option (Fin M.nDofs → ℚ) :=
  let fd : Fin M.nDofs → ℚ :=
    if use_damping then fun j => f j - M.dampingConst j * qd j else f
  match M.update_kinematic_state q qd with
  | none => none
  | some st =>
    let C : AbaCtx M := ⟨M.X q, st.2, M.joint_vel_of qd, M.jointVal fd, eps⟩
    if h : ∀ j : Fin M.nDofs,
        (abaQddOpt M C (baseAccOf include_gravity) (M.cj j)).isSome = true
    then some (fun j =>
      (abaQddOpt M C (baseAccOf include_gravity) (M.cj j)).get (h j))
    else none

/-- Embedding of `compute_forward_dynamics` with the source's literal
smoothing constant `1e-37`. -/
def RobotModel.compute_forward_dynamics (M : RobotModel)
    (q qd f : Fin M.nDofs → ℚ) (include_gravity use_damping : Bool) :
    Option (Fin M.nDofs → ℚ) :=
  M.compute_forward_dynamics_eps (1 / 10 ^ 37) q qd f include_gravity use_damping

/-- The ancestors walked by the Jacobian `while link_name != base` loop:
the target link and every ancestor, excluding the base.  The body attribute
`joint_id` read by the loop is the body's own index (modelled from the spec:
`rigid_body.py` is missing; the loop uses it both to index `self._bodies`
and to test membership in `self._controlled_joints`, which holds body
indices). -/
def RobotModel.chain (M : RobotModel) (l : M.Idx) : List M.Idx :=
  if h : 0 < l.1 then l :: M.chain (M.parent l) else []
  termination_by l.1
  decreasing_by exact M.hparent l h

/-- Embedding of `compute_endeffector_jacobian` (lines 886-927): run forward
kinematics, then walk the parent chain of the target link; every controlled
joint `idx` met on the way fills column `i = controlled_joints.index(idx)`
with `ang = z`, `lin = z × (p_e - p_i)` where `z = pose.rotation() @ axis`.
The result maps each dof to its (linear, angular) column.
`jacCol` is one pass of the `while` loop (lines 913-922): a controlled
joint met on the chain fills its column, any other joint leaves the
jacobian pair unchanged. -/
def RobotModel.jacCol (M : RobotModel) (P : M.Idx → CoordinateTransform)
    (pE : V3) (J : (Fin M.nDofs → V3) × (Fin M.nDofs → V3)) (i : M.Idx) :
    (Fin M.nDofs → V3) × (Fin M.nDofs → V3) :=
  if hc : i ∈ M.controlledList then
    let z := (P i).rot.mulVec (M.joint_axis i)
    (Function.update J.1 ⟨M.dofIdx i, List.indexOf_lt_length.mpr hc⟩
        (cross3 z (pE - (P i).trans)),
     Function.update J.2 ⟨M.dofIdx i, List.indexOf_lt_length.mpr hc⟩ z)
  else J

def RobotModel.compute_endeffector_jacobian (M : RobotModel)
    (q : Fin M.nDofs → ℚ) (link : M.Idx) :
    Option ((Fin M.nDofs → V3) × (Fin M.nDofs → V3)) :=
  match M.update_kinematic_state q 0 with
  | none => none
  | some st =>
    some ((M.chain link).foldl (M.jacCol st.1 ((st.1 link).trans))
      (fun _ => 0, fun _ => 0))

/-- Embedding of `compute_endeffector_jacobian_all_links` (lines 929-976):
one walk up the parent chain of the **last** link
(`link_names[-1]`); a controlled joint `idx` met on the way assigns
`ang_jac[:, idx:, :, i] = z` and
`lin_jac[:, idx+1:, :, i] = z × (p_es[:, idx:] - p_i)`, where row `ℓ` of
the jacobian stack corresponds to link `ℓ` (`p_es[:, r]` is the translation
of link `r+1`).  The result maps `(link, dof)` to the (linear, angular)
column. -/
def RobotModel.jacAllCol (M : RobotModel) (P : M.Idx → CoordinateTransform)
    (J : (M.Idx → Fin M.nDofs → V3) × (M.Idx → Fin M.nDofs → V3)) (i : M.Idx) :
    (M.Idx → Fin M.nDofs → V3) × (M.Idx → Fin M.nDofs → V3) :=
  if hc : i ∈ M.controlledList then
    let j0 : Fin M.nDofs := ⟨M.dofIdx i, List.indexOf_lt_length.mpr hc⟩
    let z := (P i).rot.mulVec (M.joint_axis i)
    (fun l j => if j = j0 ∧ i.1 + 1 ≤ l.1
        then cross3 z ((P l).trans - (P i).trans) else J.1 l j,
     fun l j => if j = j0 ∧ i.1 ≤ l.1 then z else J.2 l j)
  else J

/-- The loop of `compute_endeffector_jacobian_all_links`, folded over the
parent chain of the **last** link. -/
def RobotModel.compute_endeffector_jacobian_all_links (M : RobotModel)
    (q : Fin M.nDofs → ℚ) :
    Option ((M.Idx → Fin M.nDofs → V3) × (M.Idx → Fin M.nDofs → V3)) :=
  match M.update_kinematic_state q 0 with
  | none => none
  | some st =>
    some ((M.chain (Fin.last M.nb)).foldl (M.jacAllCol st.1)
      (fun _ _ => 0, fun _ _ => 0))

/-- Embedding of the iteration of `compute_inverse_kinematics_jac` for one
batch row (lines 487-534).  The pose-error norm `errN`, the damped
least-squares update direction `updV` and the vector norm `vnorm` involve
forward kinematics, `__euler_from_quaternion` and a linear solve — real
square-root/trigonometric quantities — so they are parameters here; the
loop logic (best-seen tracking with strict improvement against an initial
`torch.inf`, the three stopping conditions in source order, and the
`q ← q + α·Δq` update) is translated literally.  `minErr = none` models
`min_error = torch.inf`. -/
def ikLoop (n : ℕ) (errN : (Fin n → ℚ) → ℚ) (updV : (Fin n → ℚ) → Fin n → ℚ)
    (vnorm : (Fin n → ℚ) → ℚ) (prec minupd lr : ℚ) (cap : ℕ) (i : ℕ)
    (conf best : Fin n → ℚ) (minErr : Option ℚ) : Fin n → ℚ :=
  let e := errN conf
  let b2 : (Fin n → ℚ) × Option ℚ :=
    if minErr.all (fun m => decide (e < m)) then (conf, some e) else (best, minErr)
  if e < prec then b2.1
  else if hcap : cap ≤ i then b2.1
  else if vnorm (updV conf) < minupd then b2.1
  else ikLoop n errN updV vnorm prec minupd lr cap (i + 1)
    (fun k => conf k + lr * updV conf k) b2.1 b2.2
  termination_by cap - i
  decreasing_by omega

/-- The configurations whose pose error the loop evaluates (the iterates at
the top of each `while True` pass), for the same stopping conditions as
`ikLoop`. -/
def ikEvals (n : ℕ) (errN : (Fin n → ℚ) → ℚ) (updV : (Fin n → ℚ) → Fin n → ℚ)
    (vnorm : (Fin n → ℚ) → ℚ) (prec minupd lr : ℚ) (cap : ℕ) (i : ℕ)
    (conf : Fin n → ℚ) : List (Fin n → ℚ) :=
  conf ::
    (if errN conf < prec then []
     else if hcap : cap ≤ i then []
     else if vnorm (updV conf) < minupd then []
     else ikEvals n errN updV vnorm prec minupd lr cap (i + 1)
       (fun k => conf k + lr * updV conf k))
  termination_by cap - i
  decreasing_by omega

/-- Embedding of the batch-row loop of `compute_inverse_kinematics_jac`
(lines 465-469): row `0` starts at `init_conf`, every later row starts at
the previous row's returned configuration; each row's goal pose selects its
own error and update functions. -/
def ikJacBatch (n : ℕ) {G : Type} (errNg : G → (Fin n → ℚ) → ℚ)
    (updVg : G → (Fin n → ℚ) → Fin n → ℚ) (vnorm : (Fin n → ℚ) → ℚ)
    (prec minupd lr : ℚ) (cap : ℕ) (goals : List G) (init : Fin n → ℚ) :
    List (Fin n → ℚ) :=
  match goals with
  | [] => []
  | g :: rest =>
    let r := ikLoop n (errNg g) (updVg g) vnorm prec minupd lr cap 0 init init none
    r :: ikJacBatch n errNg updVg vnorm prec minupd lr cap rest r

/-- Model of a torch tensor argument of a public entry point: a single
unbatched row (`ndim == 1`) or a batch of rows (`ndim == 2`). -/
inductive Tens where
  | d1 (v : List ℚ)
  | d2 (rows : List (List ℚ))

/-- Embedding of `arg.shape[:-1]`, the batch shape recorded by
`tensor_check`'s `BatchInfo`. -/
def tshape (t : Tens) : List ℕ :=
  match t with
  | .d1 _ => []
  | .d2 r => [r.length]

/-- Embedding of the `unsqueeze(0)` normalisation of `tensor_check`'s
`preprocess`: a 1-dim tensor becomes a batch of one row. -/
def unbatch1 (t : Tens) : List (List ℚ) :=
  match t with
  | .d1 v => [v]
  | .d2 r => r

/-- Embedding of the `tensor_check` decorator around a batched entry point
`g` (lines 22-81): every tensor argument's batch shape must agree with the
first one's (`Batch size mismatch between input tensors.`), 1-dim arguments
are unsqueezed, and if the first argument was unbatched the tensor result is
returned with the batch dimension removed (`arg[0, ...]`). -/
def tensor_check_call (g : List (List (List ℚ)) → Option (List (List ℚ)))
    (args : List Tens) : Option Tens :=
  match args with
  | [] => (g []).map .d2
  | a :: rest =>
    if rest.all (fun b => tshape b = tshape a) then
      match g ((a :: rest).map unbatch1) with
      | none => none
      | some out =>
        match a with
        | .d1 _ => match out with | r :: _ => some (.d1 r) | [] => none
        | .d2 _ => some (.d2 out)
    else none

/-- Embedding of `compute_inverse_dynamics`'s own shape asserts
(lines 339-344) on one batch row: the per-row dimensionality of `q`, `qd`
and `qdd_des` must all equal `n_dofs` before anything is computed. -/
def RobotModel.compute_inverse_dynamics_list (M : RobotModel)
    (q qd qdd : List ℚ) (include_gravity use_damping : Bool) :
    Option (List ℚ) :=
  if q.length = M.nDofs ∧ qd.length = M.nDofs ∧ qdd.length = M.nDofs then
    (M.compute_inverse_dynamics (fun j => q.getD j 0) (fun j => qd.getD j 0)
      (fun j => qdd.getD j 0) include_gravity use_damping).map List.ofFn
  else none

/-- Embedding of `compute_forward_dynamics` on one batch row at the list
level, with its caller-visible frame effect on `f`.  The asserts
(lines 768-771) check only `q` and `qd` against `n_dofs` — `f` is never
checked.  With `use_damping` the source then executes `f -= damping·qd` in
place on the caller's tensor: the right-hand side has row width `n_dofs`,
so the in-place subtraction broadcasts — it succeeds when `f`'s row width
equals `n_dofs` (entrywise subtraction) and also, for any width, when
`n_dofs = 1` (the single damping value `damping·qd[0]` is subtracted from
every entry of the row); any other width mismatch raises with `f`
unwritten.  The backward sweep then reads `f[:, joint_idx]` for every
controlled `joint_idx < n_dofs` (line 819), so a row narrower than
`n_dofs` raises IndexError mid-sweep — after the damping write — while
entries beyond `n_dofs` are ignored.  The second component of the result
is the caller's tensor content after the call. -/
def RobotModel.compute_forward_dynamics_list (M : RobotModel)
    (q qd f : List ℚ) (include_gravity use_damping : Bool) :
    Option (List ℚ) × List ℚ :=
  if q.length = M.nDofs ∧ qd.length = M.nDofs then
    let dq := List.zipWith (fun c e => c * e) (List.ofFn M.dampingConst) qd
    let f2 := if use_damping then
        (if f.length = M.nDofs then List.zipWith (fun a b => a - b) f dq
         else if M.nDofs = 1 then f.map (fun a => a - dq.headD 0)
         else f)
      else f
    if use_damping ∧ ¬(f.length = M.nDofs ∨ M.nDofs = 1) then (none, f)
    else if M.nDofs ≤ f.length then
      ((M.compute_forward_dynamics (fun j => q.getD j 0) (fun j => qd.getD j 0)
        (fun j => f.getD j 0) include_gravity use_damping).map List.ofFn, f2)
    else (none, f2)
  else (none, f)

/-- Embedding of the entry asserts of `compute_inverse_kinematics_jac`
(lines 455-458).  The method is **not** decorated with `tensor_check`, so a
1-dim `trans` reaches `assert trans.ndim == 2` unchanged and the call
raises; a 1-dim `rot` raises at `rot.shape[1]`. -/
def ikJacEntryCheck (nDofs : ℕ) (trans rot : Tens) (init_conf : List ℚ) : Bool :=
  match trans with
  | .d1 _ => false
  | .d2 tr =>
    match rot with
    | .d1 _ => false
    | .d2 ro =>
      decide (tr.length = ro.length) && decide ((tr.headD []).length = 3)
        && decide ((ro.headD []).length = 4) && decide (init_conf.length = nDofs)

/-- The `AbaCtx` that `compute_forward_dynamics_eps` runs on (its joint
poses and velocities come from `update_kinematic_state`, its per-body
applied force from the possibly damped `f`). -/
def RobotModel.abaCtxOf (M : RobotModel) (eps : ℚ) (q qd f : Fin M.nDofs → ℚ)
    (use_damping : Bool) : AbaCtx M :=
  ⟨M.X q, M.sweepVels q qd, M.joint_vel_of qd,
   M.jointVal (if use_damping then fun j => f j - M.dampingConst j * qd j else f),
   eps⟩

/-- Acceleration of body `i` inside `compute_inverse_dynamics q qd qdd`:
the `iterative_newton_euler` forward sweep on the state set by
`update_kinematic_state`. -/
def RobotModel.neAccOf (M : RobotModel) (q qd qdd : Fin M.nDofs → ℚ)
    (include_gravity : Bool) (i : M.Idx) : SpatialMotionVec :=
  neAcc M (M.X q) (M.joint_acc_of qdd)
    (fun k => (M.sweepVels q qd k).cross_motion_vec (M.joint_vel_of qd k))
    (baseAccOf include_gravity) i

/-- Accumulated spatial force on body `i` after the backward sweep of
`iterative_newton_euler` inside `compute_inverse_dynamics q qd qdd`. -/
def RobotModel.neForceOf (M : RobotModel) (q qd qdd : Fin M.nDofs → ℚ)
    (include_gravity : Bool) (i : M.Idx) : SpatialForceVec :=
  neForce M (M.X q) (M.sweepVels q qd) (M.neAccOf q qd qdd include_gravity) i

/-- A one-revolute-joint robot with unit mass, identity rotational inertia,
`z` joint axis and a unit `x` joint offset: the generic well-behaved
witness robot. -/
def robotW : RobotModel where
  nb := 1
  parent := fun _ => 0
  hparent := fun _ h => h
  joint_pose := fun _ _ => ⟨1, e3 0⟩
  joint_axis := fun i => if i.1 = 0 then 0 else e3 2
  controlled := fun i => decide (i.1 = 1)
  hbase := by decide
  inertia := fun _ => ⟨1, 0, 1⟩
  joint_damping := fun _ => 1 / 2

/-- The witness robot with the joint axis replaced by the unit vector
`(3/5, 4/5, 0)`, which is not aligned with any coordinate axis. -/
def robotDiag : RobotModel where
  nb := 1
  parent := fun _ => 0
  hparent := fun _ h => h
  joint_pose := fun _ _ => ⟨1, e3 0⟩
  joint_axis := fun i => if i.1 = 0 then 0 else ![3 / 5, 4 / 5, 0]
  controlled := fun i => decide (i.1 = 1)
  hbase := by decide
  inertia := fun _ => ⟨1, 0, 1⟩
  joint_damping := fun _ => 1 / 2

/-- A zero-mass, zero-inertia "virtual" link driven by a controlled
revolute joint: its ABA effective inertia `d` is exactly zero. -/
def robotVirtual : RobotModel where
  nb := 1
  parent := fun _ => 0
  hparent := fun _ h => h
  joint_pose := fun _ _ => ⟨1, e3 0⟩
  joint_axis := fun i => if i.1 = 0 then 0 else e3 2
  controlled := fun i => decide (i.1 = 1)
  hbase := by decide
  inertia := fun _ => ⟨0, 0, 0⟩
  joint_damping := fun _ => 0

/-- A branched tree: two controlled revolute links, both children of the
base (link 1 offset along `x`, link 2 offset along `y`). -/
def robotY : RobotModel where
  nb := 2
  parent := fun _ => 0
  hparent := fun _ h => h
  joint_pose := fun i _ => if i.1 = 1 then ⟨1, e3 0⟩ else ⟨1, e3 1⟩
  joint_axis := fun i => if i.1 = 0 then 0 else e3 2
  controlled := fun i => decide (0 < i.1)
  hbase := by decide
  inertia := fun _ => ⟨1, 0, 1⟩
  joint_damping := fun _ => 0

/-- A serial two-revolute-joint chain (each link's parent is its
predecessor). -/
def robotSerial2 : RobotModel where
  nb := 2
  parent := fun i => ⟨i.1 - 1, by omega⟩
  hparent := fun _ h => by simpa using Nat.sub_lt h one_pos
  joint_pose := fun i _ => if i.1 = 1 then ⟨1, e3 0⟩ else ⟨1, e3 1⟩
  joint_axis := fun i => if i.1 = 0 then 0 else e3 2
  controlled := fun i => decide (0 < i.1)
  hbase := by decide
  inertia := fun _ => ⟨1, 0, 1⟩
  joint_damping := fun _ => 0

/-- The joint-acceleration-only part of the Newton-Euler forward sweep
(zero base acceleration, zero velocity bias): the difference between two
`iterative_newton_euler` acceleration sweeps that share the same kinematic
state.  `qddB` is the body-indexed joint acceleration. -/
def pureAcc (M : RobotModel) (X : M.Idx → CoordinateTransform)
    (qddB : M.Idx → ℚ) : M.Idx → SpatialMotionVec :=
  neAcc M X (fun i => (M.S6 i).multiply (qddB i)) (fun _ => smvZero) smvZero

/-- The force backward sweep driven by `pureAcc` alone (zero body
velocities): the difference between two `iterative_newton_euler` force
sweeps that share the same kinematic state. -/
def pureForce (M : RobotModel) (X : M.Idx → CoordinateTransform)
    (qddB : M.Idx → ℚ) : M.Idx → SpatialForceVec :=
  neForce M X (fun _ => smvZero) (pureAcc M X qddB)

/-- The 6x6 matrix of `SpatialMotionVec.transform` (acting on `get_vector`
layout): angular part is rotated, linear part gets `trans_cross_rot · ang +
rot · lin`. -/
def motionMat (T : CoordinateTransform) : M66 :=
  b66 T.rot 0 T.trans_cross_rot T.rot

/-- The 6x6 matrix of `SpatialForceVec.transform` (acting on `get_vector`
layout). -/
def forceMat (T : CoordinateTransform) : M66 :=
  b66 T.rot T.trans_cross_rot 0 T.rot

/-- A proper rotation: orthogonal with determinant one.  The spec's rigid
transforms have such rotation blocks; the lemmas that identify the source's
`to_matrix` with the inverse motion transform need this. -/
def IsRot (R : M33) : Prop := R.transpose * R = 1 ∧ R.det = 1

/-- `anc i j`: `i` lies on `j`'s parent chain (ancestor or self).  The
links the recursive forward-kinematics traversal visits below `i` are
exactly those with `anc i j = true`. -/
def RobotModel.anc (M : RobotModel) (i j : M.Idx) : Bool :=
  if i = j then true
  else if h : 0 < j.1 then M.anc i (M.parent j) else false
  termination_by j.1
  decreasing_by exact M.hparent j h

/-- The `AbaCtx` of the round trip `forward_dynamics(q, qd,
inverse_dynamics(q, qd, qdd, g, d), g, d)`, at smoothing `eps = 0`: the
damping torque added by inverse dynamics is subtracted again in place by
forward dynamics, so the per-body applied generalized force is the
projection of the Newton-Euler backward force onto the joint axis. -/
def RobotModel.idCtx (M : RobotModel) (q qd qdd : Fin M.nDofs → ℚ) (g : Bool) :
    AbaCtx M :=
  ⟨M.X q, M.sweepVels q qd, M.joint_vel_of qd,
   M.jointVal (fun j => (M.neForceOf q qd qdd g (M.cj j)).dot (M.S6 (M.cj j))), 0⟩

/-! ### Block and vector algebra lemmas -/

theorem skew_mulVec (v w : V3) : (skew v).mulVec w = cross3 v w := by
  funext k
  fin_cases k <;>
    simp [skew, cross3, Matrix.mulVec, Matrix.dotProduct, Fin.sum_univ_three] <;> ring

theorem skew_transpose (v : V3) : (skew v).transpose = -skew v := by
  funext i j
  fin_cases i <;> fin_cases j <;> simp [skew, Matrix.transpose]

theorem v6_app (a l : V3) (s : Fin 3 ⊕ Fin 3) :
    v6 a l ((finSumFinEquiv : Fin 3 ⊕ Fin 3 ≃ Fin (3 + 3)) s) = Sum.elim a l s := by
  simp [v6]

theorem v6_dotProduct (a b c d : V3) :
    Matrix.dotProduct (v6 a b) (v6 c d) =
      Matrix.dotProduct a c + Matrix.dotProduct b d := by
  unfold Matrix.dotProduct v6
  rw [← Equiv.sum_comp (finSumFinEquiv : Fin 3 ⊕ Fin 3 ≃ Fin (3 + 3))
    (fun i => (Sum.elim a b ∘ (finSumFinEquiv : Fin 3 ⊕ Fin 3 ≃ Fin (3 + 3)).symm) i *
      (Sum.elim c d ∘ (finSumFinEquiv : Fin 3 ⊕ Fin 3 ≃ Fin (3 + 3)).symm) i)]
  simp [Fintype.sum_sum_type]

theorem v6_add (a b c d : V3) : v6 (a + c) (b + d) = v6 a b + v6 c d := by
  funext i
  rcases h : (finSumFinEquiv : Fin 3 ⊕ Fin 3 ≃ Fin (3 + 3)).symm i with s | s <;>
    simp [v6, h]

theorem v6_smul (c : ℚ) (a b : V3) : v6 (c • a) (c • b) = c • v6 a b := by
  funext i
  rcases h : (finSumFinEquiv : Fin 3 ⊕ Fin 3 ≃ Fin (3 + 3)).symm i with s | s <;>
    simp [v6, h]

theorem v6_zero : v6 0 0 = (0 : V6) := by
  funext i
  rcases h : (finSumFinEquiv : Fin 3 ⊕ Fin 3 ≃ Fin (3 + 3)).symm i with s | s <;>
    simp [v6, h]

theorem b66_mulVec (A B C D : M33) (x y : V3) :
    (b66 A B C D).mulVec (v6 x y) = v6 (A.mulVec x + B.mulVec y) (C.mulVec x + D.mulVec y) := by
  unfold b66 v6
  rw [show (Sum.elim x y ∘ (finSumFinEquiv : Fin 3 ⊕ Fin 3 ≃ Fin (3 + 3)).symm) =
      Sum.elim x y ∘ ((finSumFinEquiv : Fin 3 ⊕ Fin 3 ≃ Fin (3 + 3)).symm :
        Fin (3 + 3) ≃ Fin 3 ⊕ Fin 3) from rfl]
  rw [show ((Matrix.fromBlocks A B C D).submatrix
      ((finSumFinEquiv : Fin 3 ⊕ Fin 3 ≃ Fin (3 + 3)).symm)
      ((finSumFinEquiv : Fin 3 ⊕ Fin 3 ≃ Fin (3 + 3)).symm)) =
      (Matrix.fromBlocks A B C D).submatrix
        (((finSumFinEquiv : Fin 3 ⊕ Fin 3 ≃ Fin (3 + 3)).symm :
          Fin (3 + 3) ≃ Fin 3 ⊕ Fin 3) : Fin (3 + 3) → Fin 3 ⊕ Fin 3)
        (((finSumFinEquiv : Fin 3 ⊕ Fin 3 ≃ Fin (3 + 3)).symm :
          Fin (3 + 3) ≃ Fin 3 ⊕ Fin 3) : Fin (3 + 3) → Fin 3 ⊕ Fin 3) from rfl]
  rw [Matrix.submatrix_mulVec_equiv]
  rw [show (Sum.elim x y ∘ ((finSumFinEquiv : Fin 3 ⊕ Fin 3 ≃ Fin (3 + 3)).symm :
      Fin (3 + 3) ≃ Fin 3 ⊕ Fin 3)) ∘
      (((finSumFinEquiv : Fin 3 ⊕ Fin 3 ≃ Fin (3 + 3)).symm :
        Fin (3 + 3) ≃ Fin 3 ⊕ Fin 3)).symm = Sum.elim x y from by
    funext s; simp]
  rw [Matrix.fromBlocks_mulVec]
  rfl

theorem b66_mul (A B C D A' B' C' D' : M33) :
    b66 A B C D * b66 A' B' C' D' =
      b66 (A * A' + B * C') (A * B' + B * D') (C * A' + D * C') (C * B' + D * D') := by
  simp only [b66, Matrix.submatrix_mul_equiv, Matrix.fromBlocks_multiply]

theorem b66_transpose (A B C D : M33) :
    (b66 A B C D).transpose = b66 A.transpose C.transpose B.transpose D.transpose := by
  simp only [b66, Matrix.transpose_submatrix, Matrix.fromBlocks_transpose]

theorem b66_add (A B C D A' B' C' D' : M33) :
    b66 A B C D + b66 A' B' C' D' = b66 (A + A') (B + B') (C + C') (D + D') := by
  funext i j
  simp only [b66, Matrix.submatrix_apply, Matrix.add_apply, ← Matrix.fromBlocks_add]

theorem b66_sub (A B C D A' B' C' D' : M33) :
    b66 A B C D - b66 A' B' C' D' = b66 (A - A') (B - B') (C - C') (D - D') := by
  funext i j
  rcases hs : (finSumFinEquiv : Fin 3 ⊕ Fin 3 ≃ Fin (3 + 3)).symm i with s | s <;>
    rcases ht : (finSumFinEquiv : Fin 3 ⊕ Fin 3 ≃ Fin (3 + 3)).symm j with t | t <;>
    simp [b66, Matrix.fromBlocks, hs, ht]

theorem b66_zero : b66 0 0 0 0 = (0 : M66) := by
  funext i j
  rcases hs : (finSumFinEquiv : Fin 3 ⊕ Fin 3 ≃ Fin (3 + 3)).symm i with s | s <;>
    rcases ht : (finSumFinEquiv : Fin 3 ⊕ Fin 3 ≃ Fin (3 + 3)).symm j with t | t <;>
    simp [b66, Matrix.fromBlocks, hs, ht]

theorem smv_get_vector (m : SpatialMotionVec) : m.get_vector = v6 m.ang m.lin := rfl

theorem sfv_get_vector (f : SpatialForceVec) : f.get_vector = v6 f.ang f.lin := rfl

theorem sfvOfVec_v6 (a l : V3) : sfvOfVec (v6 a l) = ⟨l, a⟩ := by
  unfold sfvOfVec
  congr 1 <;> funext k <;> fin_cases k <;> rfl

theorem sfvOfVec_get_vector (w : V6) : (sfvOfVec w).get_vector = w := by
  funext i
  fin_cases i <;> rfl

theorem smv_transform_vec (m : SpatialMotionVec) (T : CoordinateTransform) :
    (m.transform T).get_vector = (motionMat T).mulVec m.get_vector := by
  unfold SpatialMotionVec.transform motionMat
  rw [smv_get_vector, smv_get_vector, b66_mulVec]
  simp [Matrix.zero_mulVec]

theorem sfv_transform_vec (f : SpatialForceVec) (T : CoordinateTransform) :
    (f.transform T).get_vector = (forceMat T).mulVec f.get_vector := by
  unfold SpatialForceVec.transform forceMat
  rw [sfv_get_vector, sfv_get_vector, b66_mulVec]
  simp [Matrix.zero_mulVec]
  rw [add_comm (Matrix.mulVec T.trans_cross_rot f.lin) (Matrix.mulVec T.rot f.ang)]

theorem sfv_dot_vec (f : SpatialForceVec) (m : SpatialMotionVec) :
    f.dot m = Matrix.dotProduct f.get_vector m.get_vector := by
  rw [sfv_get_vector, smv_get_vector, v6_dotProduct]
  rfl

theorem smv_dot_vec (m s : SpatialMotionVec) :
    m.dot s = Matrix.dotProduct m.get_vector s.get_vector := by
  rw [smv_get_vector, smv_get_vector, v6_dotProduct]
  rfl

theorem smv_add_vec (a b : SpatialMotionVec) :
    (a.add_motion_vec b).get_vector = a.get_vector + b.get_vector := by
  unfold SpatialMotionVec.add_motion_vec
  rw [smv_get_vector, smv_get_vector, smv_get_vector, v6_add]

theorem sfv_add_vec (a b : SpatialForceVec) :
    (a.add_force_vec b).get_vector = a.get_vector + b.get_vector := by
  unfold SpatialForceVec.add_force_vec
  rw [sfv_get_vector, sfv_get_vector, sfv_get_vector, v6_add]

theorem smv_multiply_vec (a : SpatialMotionVec) (c : ℚ) :
    (a.multiply c).get_vector = c • a.get_vector := by
  unfold SpatialMotionVec.multiply
  rw [smv_get_vector, smv_get_vector, v6_smul]

theorem sfv_multiply_vec (a : SpatialForceVec) (c : ℚ) :
    (a.multiply c).get_vector = c • a.get_vector := by
  unfold SpatialForceVec.multiply
  rw [sfv_get_vector, sfv_get_vector, v6_smul]

theorem sfvZero_vec : sfvZero.get_vector = 0 := by
  rw [sfv_get_vector]
  exact v6_zero

theorem smvZero_vec : smvZero.get_vector = 0 := by
  rw [smv_get_vector]
  exact v6_zero

theorem inertia_mmv_vec (I : SpatialRigidBodyInertia) (m : SpatialMotionVec) :
    (I.multiply_motion_vec m).get_vector = I.get_spatial_mat.mulVec m.get_vector := by
  unfold SpatialRigidBodyInertia.multiply_motion_vec SpatialRigidBodyInertia.get_spatial_mat
  rw [sfv_get_vector, smv_get_vector, b66_mulVec]
  have hang : (I.inertia_mat + I.mass • (skew I.com * (skew I.com).transpose)).mulVec m.ang
      + (skew (I.mass • I.com)).mulVec m.lin =
      (I.inertia_mat + I.mass • (skew I.com * (skew I.com).transpose)).mulVec m.ang
      + cross3 (I.mass • I.com) m.lin := by
    rw [skew_mulVec]
  have hlin : (skew (I.mass • I.com)).transpose.mulVec m.ang
      + (I.mass • (1 : M33)).mulVec m.lin =
      I.mass • m.lin - cross3 (I.mass • I.com) m.ang := by
    rw [skew_transpose, Matrix.neg_mulVec, skew_mulVec, Matrix.smul_mulVec_assoc,
      Matrix.one_mulVec, sub_eq_add_neg, add_comm]
  rw [hang, hlin]

/-! ### Rotation lemmas -/

theorem skew_neg (v : V3) : skew (-v) = -skew v := by
  funext i j
  fin_cases i <;> fin_cases j <;> simp [skew]

theorem cross3_adj (A : M33) (v w : V3) :
    cross3 (A.mulVec v) (A.mulVec w) = (Matrix.adjugate A).transpose.mulVec (cross3 v w) := by
  funext k
  fin_cases k <;>
    simp [cross3, Matrix.mulVec, Matrix.dotProduct, Fin.sum_univ_three,
      Matrix.adjugate_fin_three, Matrix.transpose] <;> ring

theorem isRot_mul_self {R : M33} (h : IsRot R) : R * R.transpose = 1 :=
  Matrix.mul_eq_one_comm.mp h.1

theorem isRot_transpose {R : M33} (h : IsRot R) : IsRot R.transpose := by
  refine ⟨?_, ?_⟩
  · rw [Matrix.transpose_transpose]
    exact isRot_mul_self h
  · rw [Matrix.det_transpose]
    exact h.2

theorem adjugate_of_rot {R : M33} (h : IsRot R) : Matrix.adjugate R = R.transpose := by
  have h1 : R * Matrix.adjugate R = 1 := by
    rw [Matrix.mul_adjugate, h.2, one_smul]
  calc Matrix.adjugate R = 1 * Matrix.adjugate R := by rw [one_mul]
    _ = (R.transpose * R) * Matrix.adjugate R := by rw [h.1]
    _ = R.transpose * (R * Matrix.adjugate R) := by rw [mul_assoc]
    _ = R.transpose := by rw [h1, mul_one]

theorem cross3_rot {R : M33} (h : IsRot R) (v w : V3) :
    cross3 (R.mulVec v) (R.mulVec w) = R.mulVec (cross3 v w) := by
  rw [cross3_adj, adjugate_of_rot h, Matrix.transpose_transpose]

theorem mat_ext_mulVec {n : Type} [Fintype n] [DecidableEq n] {A B : Matrix n n ℚ}
    (h : ∀ v : n → ℚ, A.mulVec v = B.mulVec v) : A = B := by
  funext i j
  have := congrFun (h (Pi.single j 1)) i
  simpa [Matrix.mulVec_single] using this

theorem skew_rot {R : M33} (h : IsRot R) (t : V3) :
    skew (R.transpose.mulVec t) = R.transpose * skew t * R := by
  apply mat_ext_mulVec
  intro v
  have h1 : (R.transpose * skew t * R).mulVec v
      = R.transpose.mulVec ((skew t).mulVec (R.mulVec v)) := by
    rw [Matrix.mulVec_mulVec, Matrix.mulVec_mulVec]
  rw [skew_mulVec, h1, skew_mulVec]
  have hT := isRot_transpose h
  have h2 := cross3_rot hT t (R.mulVec v)
  rw [Matrix.mulVec_mulVec, h.1, Matrix.one_mulVec] at h2
  exact h2

theorem skew_rot_right {R : M33} (h : IsRot R) (t : V3) :
    skew (R.transpose.mulVec t) * R.transpose = R.transpose * skew t := by
  rw [skew_rot h, mul_assoc, isRot_mul_self h, mul_one]

theorem motionMat_inverse {T : CoordinateTransform} (h : IsRot T.rot) :
    motionMat T.inverse =
      b66 T.rot.transpose 0 (-(T.rot.transpose * skew T.trans)) T.rot.transpose := by
  unfold motionMat CoordinateTransform.inverse CoordinateTransform.trans_cross_rot
  have : skew (-(T.rot.transpose.mulVec T.trans)) * T.rot.transpose
      = -(T.rot.transpose * skew T.trans) := by
    rw [skew_neg, Matrix.neg_mul, skew_rot_right h]
  simp only [this]

theorem to_matrix_eq_motionMat_inverse {T : CoordinateTransform} (h : IsRot T.rot) :
    T.to_matrix = motionMat T.inverse := by
  rw [motionMat_inverse h]
  rfl

theorem forceMat_transpose_eq {T : CoordinateTransform} (h : IsRot T.rot) :
    (forceMat T).transpose = motionMat T.inverse := by
  rw [motionMat_inverse h]
  unfold forceMat CoordinateTransform.trans_cross_rot
  rw [b66_transpose]
  rw [Matrix.transpose_mul, skew_transpose]
  rw [show T.rot.transpose * -skew T.trans = -(T.rot.transpose * skew T.trans) from by
    rw [Matrix.mul_neg]]
  rfl

theorem dot_mulVec_left {n : Type} [Fintype n] (A : Matrix n n ℚ) (x y : n → ℚ) :
    Matrix.dotProduct (A.mulVec x) y = Matrix.dotProduct x (A.transpose.mulVec y) := by
  rw [Matrix.dotProduct_mulVec, Matrix.vecMul_transpose, Matrix.dotProduct_comm]

theorem dual_pair {T : CoordinateTransform} (h : IsRot T.rot)
    (f : SpatialForceVec) (m : SpatialMotionVec) :
    (f.transform T).dot m = f.dot (m.transform T.inverse) := by
  rw [sfv_dot_vec, sfv_dot_vec, sfv_transform_vec, smv_transform_vec]
  rw [dot_mulVec_left, forceMat_transpose_eq h]

/-! ### Controlled-joint bookkeeping -/

theorem controlledList_nodup (M : RobotModel) : M.controlledList.Nodup :=
  (List.nodup_finRange _).filter _

theorem mem_controlledList (M : RobotModel) (i : M.Idx) :
    i ∈ M.controlledList ↔ M.controlled i = true := by
  unfold RobotModel.controlledList
  rw [List.mem_filter]
  simp [List.mem_finRange]

theorem cj_mem (M : RobotModel) (j : Fin M.nDofs) : M.cj j ∈ M.controlledList :=
  List.get_mem M.controlledList j.1 j.2

theorem controlled_cj (M : RobotModel) (j : Fin M.nDofs) :
    M.controlled (M.cj j) = true :=
  (mem_controlledList M _).mp (cj_mem M j)

theorem dofIdx_cj (M : RobotModel) (j : Fin M.nDofs) : M.dofIdx (M.cj j) = j.1 :=
  List.get_indexOf (controlledList_nodup M) _

theorem jointVal_cj (M : RobotModel) (q : Fin M.nDofs → ℚ) (j : Fin M.nDofs) :
    M.jointVal q (M.cj j) = q j := by
  unfold RobotModel.jointVal
  rw [dif_pos (cj_mem M j)]
  congr 1
  exact Fin.ext (dofIdx_cj M j)

theorem jointVal_uncontrolled (M : RobotModel) (q : Fin M.nDofs → ℚ) (i : M.Idx)
    (h : M.controlled i = false) : M.jointVal q i = 0 := by
  unfold RobotModel.jointVal
  rw [dif_neg]
  rw [mem_controlledList]
  simp [h]

theorem cj_dofIdx (M : RobotModel) (i : M.Idx) (h : i ∈ M.controlledList) :
    M.cj ⟨M.dofIdx i, List.indexOf_lt_length.mpr h⟩ = i :=
  List.indexOf_get _

theorem sum_dofs_eq (M : RobotModel) (F : M.Idx → ℚ) :
    ∑ j : Fin M.nDofs, F (M.cj j)
      = ∑ i ∈ Finset.univ.filter (fun i : M.Idx => M.controlled i = true), F i := by
  have h1 : ∑ j : Fin M.nDofs, F (M.cj j)
      = (M.controlledList.map F).sum := by
    rw [show M.controlledList.map F
        = List.ofFn (fun j : Fin M.nDofs => F (M.cj j)) from ?_]
    · rw [List.sum_ofFn]
    · conv_lhs => rw [← List.ofFn_get M.controlledList]
      rw [List.map_ofFn]
      rfl
  rw [h1, ← List.sum_toFinset _ (controlledList_nodup M)]
  congr 1
  unfold RobotModel.controlledList
  rw [List.toFinset_filter, List.toFinset_finRange]

theorem mem_childrenL (M : RobotModel) (i c : M.Idx) :
    c ∈ M.childrenL i ↔ (M.parent c = i ∧ i.1 < c.1) := by
  unfold RobotModel.childrenL
  rw [List.mem_filter]
  simp [List.mem_finRange]

theorem childrenL_nodup (M : RobotModel) (i : M.Idx) : (M.childrenL i).Nodup :=
  (List.nodup_finRange _).filter _

theorem attach_map_eq {α β : Type} (l : List α) (F : α → β) :
    l.attach.map (fun c => F c.1) = l.map F := by
  simp

theorem childrenL_sum (M : RobotModel) (i : M.Idx) (F : M.Idx → ℚ) :
    ((M.childrenL i).map F).sum
      = ∑ c ∈ Finset.univ.filter (fun c : M.Idx => M.parent c = i ∧ i.1 < c.1), F c := by
  rw [← List.sum_toFinset _ (childrenL_nodup M i)]
  congr 1
  unfold RobotModel.childrenL
  rw [List.toFinset_filter, List.toFinset_finRange]
  ext c
  simp

theorem sfv_add_dot (a b : SpatialForceVec) (m : SpatialMotionVec) :
    (a.add_force_vec b).dot m = a.dot m + b.dot m := by
  unfold SpatialForceVec.add_force_vec SpatialForceVec.dot
  rw [Matrix.add_dotProduct, Matrix.add_dotProduct]
  ring

theorem sfvZero_dot (m : SpatialMotionVec) : sfvZero.dot m = 0 := by
  unfold sfvZero SpatialForceVec.dot
  rw [Matrix.zero_dotProduct, Matrix.zero_dotProduct, add_zero]

theorem sfvSum_dot (l : List SpatialForceVec) (m : SpatialMotionVec) :
    (sfvSum l).dot m = (l.map (fun f => f.dot m)).sum := by
  induction l with
  | nil => exact sfvZero_dot m
  | cons f t ih =>
    show (f.add_force_vec (sfvSum t)).dot m = _
    rw [sfv_add_dot, ih]
    rfl

theorem sum_over_children (M : RobotModel) (g : M.Idx → ℚ) :
    ∑ c ∈ Finset.univ.filter (fun c : M.Idx => 0 < c.1), g c
      = ∑ k : M.Idx, ∑ c ∈ Finset.univ.filter
          (fun c : M.Idx => M.parent c = k ∧ k.1 < c.1), g c := by
  rw [← Finset.sum_fiberwise_of_maps_to
    (fun c _ => Finset.mem_univ (M.parent c)) g]
  apply Finset.sum_congr rfl
  intro k _
  congr 1
  rw [Finset.filter_filter]
  ext c
  simp only [Finset.mem_filter, Finset.mem_univ, true_and]
  constructor
  · rintro ⟨h0, hp⟩
    exact ⟨hp, by rw [← hp]; exact M.hparent c h0⟩
  · rintro ⟨hp, hlt⟩
    exact ⟨by omega, hp⟩

theorem neForce_eq (M : RobotModel) (X : M.Idx → CoordinateTransform)
    (vel acc : M.Idx → SpatialMotionVec) (i : M.Idx) :
    neForce M X vel acc i =
      ((sfvZero.add_force_vec ((M.inertia i).multiply_motion_vec (acc i))).add_force_vec
        ((vel i).cross_force_vec ((M.inertia i).multiply_motion_vec (vel i)))).add_force_vec
      (sfvSum ((M.childrenL i).map
        (fun c => (neForce M X vel acc c).transform (X c)))) := by
  rw [neForce]
  congr 1
  congr 1
  exact attach_map_eq (M.childrenL i) (fun c => (neForce M X vel acc c).transform (X c))

theorem neForce_dot (M : RobotModel) (X : M.Idx → CoordinateTransform)
    (vel acc : M.Idx → SpatialMotionVec) (i : M.Idx) (m : SpatialMotionVec) :
    (neForce M X vel acc i).dot m =
      ((M.inertia i).multiply_motion_vec (acc i)).dot m
      + ((vel i).cross_force_vec ((M.inertia i).multiply_motion_vec (vel i))).dot m
      + ∑ c ∈ Finset.univ.filter (fun c : M.Idx => M.parent c = i ∧ i.1 < c.1),
          ((neForce M X vel acc c).transform (X c)).dot m := by
  rw [neForce_eq, sfv_add_dot, sfv_add_dot, sfv_add_dot, sfvZero_dot, sfvSum_dot]
  have hl : List.map (fun f => SpatialForceVec.dot f m)
      (List.map (fun c => (neForce M X vel acc c).transform (X c)) (M.childrenL i))
      = List.map (fun c => ((neForce M X vel acc c).transform (X c)).dot m)
        (M.childrenL i) := by
    rw [List.map_map]
    rfl
  rw [hl, childrenL_sum M i (fun c => ((neForce M X vel acc c).transform (X c)).dot m)]
  ring

/-! ### Pointwise algebra of spatial vectors -/

theorem smv_ext {a b : SpatialMotionVec} (h1 : a.lin = b.lin) (h2 : a.ang = b.ang) :
    a = b := by
  cases a; cases b; cases h1; cases h2; rfl

theorem sfv_ext {a b : SpatialForceVec} (h1 : a.lin = b.lin) (h2 : a.ang = b.ang) :
    a = b := by
  cases a; cases b; cases h1; cases h2; rfl

theorem cross3_add_right (v a b : V3) : cross3 v (a + b) = cross3 v a + cross3 v b := by
  funext k
  fin_cases k <;> simp [cross3] <;> ring

theorem cross3_add_left (a b w : V3) : cross3 (a + b) w = cross3 a w + cross3 b w := by
  funext k
  fin_cases k <;> simp [cross3] <;> ring

theorem cross3_smul_right (c : ℚ) (v a : V3) : cross3 v (c • a) = c • cross3 v a := by
  funext k
  fin_cases k <;> simp [cross3] <;> ring

theorem cross3_zero_right (v : V3) : cross3 v 0 = 0 := by
  funext k
  fin_cases k <;> simp [cross3]

theorem cross3_zero_left (v : V3) : cross3 0 v = 0 := by
  funext k
  fin_cases k <;> simp [cross3]

theorem smv_add_zero (a : SpatialMotionVec) : a.add_motion_vec smvZero = a := by
  apply smv_ext <;> simp [SpatialMotionVec.add_motion_vec, smvZero]

theorem smv_add_comm (a b : SpatialMotionVec) :
    a.add_motion_vec b = b.add_motion_vec a := by
  apply smv_ext <;> simp [SpatialMotionVec.add_motion_vec] <;> abel

theorem smv_add_assoc (a b c : SpatialMotionVec) :
    (a.add_motion_vec b).add_motion_vec c = a.add_motion_vec (b.add_motion_vec c) := by
  apply smv_ext <;> simp [SpatialMotionVec.add_motion_vec] <;> abel

theorem sfv_add_comm (a b : SpatialForceVec) :
    a.add_force_vec b = b.add_force_vec a := by
  apply sfv_ext <;> simp [SpatialForceVec.add_force_vec] <;> abel

theorem sfv_add_assoc (a b c : SpatialForceVec) :
    (a.add_force_vec b).add_force_vec c = a.add_force_vec (b.add_force_vec c) := by
  apply sfv_ext <;> simp [SpatialForceVec.add_force_vec] <;> abel

theorem sfv_add_zero (a : SpatialForceVec) : a.add_force_vec sfvZero = a := by
  apply sfv_ext <;> simp [SpatialForceVec.add_force_vec, sfvZero]

theorem smv_transform_add (a b : SpatialMotionVec) (T : CoordinateTransform) :
    (a.add_motion_vec b).transform T = (a.transform T).add_motion_vec (b.transform T) := by
  apply smv_ext <;>
    simp [SpatialMotionVec.transform, SpatialMotionVec.add_motion_vec,
      Matrix.mulVec_add] <;> abel

theorem smv_transform_zero (T : CoordinateTransform) :
    smvZero.transform T = smvZero := by
  apply smv_ext <;> simp [SpatialMotionVec.transform, smvZero, Matrix.mulVec_zero]

theorem smv_transform_multiply (a : SpatialMotionVec) (c : ℚ) (T : CoordinateTransform) :
    (a.multiply c).transform T = (a.transform T).multiply c := by
  apply smv_ext <;>
    simp [SpatialMotionVec.transform, SpatialMotionVec.multiply,
      Matrix.mulVec_smul] <;> abel

theorem smv_multiply_add (a b : SpatialMotionVec) (c : ℚ) :
    (a.add_motion_vec b).multiply c = (a.multiply c).add_motion_vec (b.multiply c) := by
  apply smv_ext <;> simp [SpatialMotionVec.add_motion_vec, SpatialMotionVec.multiply] <;>
    module

theorem smv_multiply_zero (c : ℚ) : smvZero.multiply c = smvZero := by
  apply smv_ext <;> simp [SpatialMotionVec.multiply, smvZero]

theorem sfv_transform_add (a b : SpatialForceVec) (T : CoordinateTransform) :
    (a.add_force_vec b).transform T = (a.transform T).add_force_vec (b.transform T) := by
  apply sfv_ext <;>
    simp [SpatialForceVec.transform, SpatialForceVec.add_force_vec,
      Matrix.mulVec_add] <;> abel

theorem sfv_transform_multiply (a : SpatialForceVec) (c : ℚ) (T : CoordinateTransform) :
    (a.multiply c).transform T = (a.transform T).multiply c := by
  apply sfv_ext <;>
    simp [SpatialForceVec.transform, SpatialForceVec.multiply,
      Matrix.mulVec_smul] <;> abel

theorem mmv_add (I : SpatialRigidBodyInertia) (a b : SpatialMotionVec) :
    I.multiply_motion_vec (a.add_motion_vec b)
      = (I.multiply_motion_vec a).add_force_vec (I.multiply_motion_vec b) := by
  apply sfv_ext <;>
    simp [SpatialRigidBodyInertia.multiply_motion_vec, SpatialMotionVec.add_motion_vec,
      SpatialForceVec.add_force_vec, Matrix.mulVec_add, cross3_add_right] <;> abel

theorem mmv_multiply (I : SpatialRigidBodyInertia) (a : SpatialMotionVec) (c : ℚ) :
    I.multiply_motion_vec (a.multiply c) = (I.multiply_motion_vec a).multiply c := by
  apply sfv_ext <;>
    simp [SpatialRigidBodyInertia.multiply_motion_vec, SpatialMotionVec.multiply,
      SpatialForceVec.multiply, Matrix.mulVec_smul, cross3_smul_right] <;> module

theorem mmv_zero (I : SpatialRigidBodyInertia) :
    I.multiply_motion_vec smvZero = sfvZero := by
  apply sfv_ext <;>
    simp [SpatialRigidBodyInertia.multiply_motion_vec, smvZero, sfvZero,
      Matrix.mulVec_zero, cross3_zero_right]

theorem zero_cross_force (f : SpatialForceVec) :
    smvZero.cross_force_vec f = sfvZero := by
  apply sfv_ext <;>
    simp [SpatialMotionVec.cross_force_vec, smvZero, sfvZero, cross3_zero_left]

theorem sfv_dot_add_right (f : SpatialForceVec) (a b : SpatialMotionVec) :
    f.dot (a.add_motion_vec b) = f.dot a + f.dot b := by
  unfold SpatialForceVec.dot SpatialMotionVec.add_motion_vec
  rw [Matrix.dotProduct_add, Matrix.dotProduct_add]
  ring

theorem sfv_dot_zero_right (f : SpatialForceVec) : f.dot smvZero = 0 := by
  unfold SpatialForceVec.dot smvZero
  rw [Matrix.dotProduct_zero, Matrix.dotProduct_zero, add_zero]

theorem sfv_dot_multiply_right (f : SpatialForceVec) (a : SpatialMotionVec) (c : ℚ) :
    f.dot (a.multiply c) = c * f.dot a := by
  unfold SpatialForceVec.dot SpatialMotionVec.multiply
  rw [Matrix.dotProduct_smul, Matrix.dotProduct_smul]
  simp [smul_eq_mul]
  ring

theorem sfv_multiply_dot (f : SpatialForceVec) (c : ℚ) (a : SpatialMotionVec) :
    (f.multiply c).dot a = c * f.dot a := by
  unfold SpatialForceVec.dot SpatialForceVec.multiply
  rw [Matrix.smul_dotProduct, Matrix.smul_dotProduct]
  simp [smul_eq_mul]
  ring

/-! ### Strong induction over the topologically ordered tree -/

theorem idx_strong_induction {M : RobotModel} (P : M.Idx → Prop)
    (h : ∀ i : M.Idx, (∀ j : M.Idx, j.1 < i.1 → P j) → P i) : ∀ i, P i := by
  have key : ∀ n : ℕ, ∀ i : M.Idx, i.1 ≤ n → P i := by
    intro n
    induction n with
    | zero =>
      intro i hi
      exact h i (fun j hj => absurd (Nat.lt_of_lt_of_le hj hi) (Nat.not_lt_zero _))
    | succ n ih =>
      intro i hi
      exact h i (fun j hj => ih j (by omega))
  exact fun i => key i.1 i le_rfl

theorem neAcc_pos (M : RobotModel) (X : M.Idx → CoordinateTransform)
    (η β : M.Idx → SpatialMotionVec) (a0 : SpatialMotionVec) (i : M.Idx)
    (h : 0 < i.1) :
    neAcc M X η β a0 i =
      (((neAcc M X η β a0 (M.parent i)).transform (X i).inverse).add_motion_vec
        (η i)).add_motion_vec (β i) := by
  rw [neAcc, dif_pos h]

theorem neAcc_base (M : RobotModel) (X : M.Idx → CoordinateTransform)
    (η β : M.Idx → SpatialMotionVec) (a0 : SpatialMotionVec) (i : M.Idx)
    (h : ¬ 0 < i.1) : neAcc M X η β a0 i = a0 := by
  rw [neAcc, dif_neg h]

theorem neAcc_split (M : RobotModel) (X : M.Idx → CoordinateTransform)
    (η₁ η₂ β : M.Idx → SpatialMotionVec) (a0 : SpatialMotionVec) :
    ∀ i, neAcc M X (fun k => (η₁ k).add_motion_vec (η₂ k)) β a0 i
      = (neAcc M X η₁ β a0 i).add_motion_vec
        (neAcc M X η₂ (fun _ => smvZero) smvZero i) := by
  apply idx_strong_induction
  intro i IH
  by_cases h : 0 < i.1
  · rw [neAcc_pos M X _ β a0 i h, neAcc_pos M X η₁ β a0 i h,
      neAcc_pos M X η₂ _ smvZero i h, IH (M.parent i) (M.hparent i h)]
    rw [smv_transform_add]
    apply smv_ext <;>
      simp [SpatialMotionVec.add_motion_vec, smvZero] <;> abel
  · rw [neAcc_base M X _ β a0 i h, neAcc_base M X η₁ β a0 i h,
      neAcc_base M X η₂ _ smvZero i h, smv_add_zero]

theorem neAcc_smul (M : RobotModel) (X : M.Idx → CoordinateTransform)
    (η : M.Idx → SpatialMotionVec) (c : ℚ) :
    ∀ i, neAcc M X (fun k => (η k).multiply c) (fun _ => smvZero) smvZero i
      = (neAcc M X η (fun _ => smvZero) smvZero i).multiply c := by
  apply idx_strong_induction
  intro i IH
  by_cases h : 0 < i.1
  · rw [neAcc_pos M X _ _ smvZero i h, neAcc_pos M X η _ smvZero i h,
      IH (M.parent i) (M.hparent i h)]
    rw [smv_transform_multiply]
    apply smv_ext <;>
      simp [SpatialMotionVec.add_motion_vec, SpatialMotionVec.multiply, smvZero] <;>
      module
  · rw [neAcc_base M X _ _ smvZero i h, neAcc_base M X η _ smvZero i h]
    exact (smv_multiply_zero c).symm

theorem sfvSum_cons (f : SpatialForceVec) (t : List SpatialForceVec) :
    sfvSum (f :: t) = f.add_force_vec (sfvSum t) := rfl

theorem idx_strong_induction_rev {M : RobotModel} (P : M.Idx → Prop)
    (h : ∀ i : M.Idx, (∀ j : M.Idx, i.1 < j.1 → P j) → P i) : ∀ i, P i := by
  have key : ∀ n : ℕ, ∀ i : M.Idx, M.nb + 1 - i.1 ≤ n → P i := by
    intro n
    induction n with
    | zero =>
      intro i hi
      have hlt := i.2
      omega
    | succ n ih =>
      intro i hi
      refine h i (fun j hj => ih j ?_)
      have hlt := j.2
      omega
  exact fun i => key (M.nb + 1 - i.1) i le_rfl

theorem sfvSum_map_add {α : Type} (l : List α) (F G : α → SpatialForceVec) :
    sfvSum (l.map (fun c => (F c).add_force_vec (G c)))
      = (sfvSum (l.map F)).add_force_vec (sfvSum (l.map G)) := by
  induction l with
  | nil => exact (sfv_add_zero _).symm
  | cons a t ih =>
    rw [List.map_cons, List.map_cons, List.map_cons, sfvSum_cons, sfvSum_cons,
      sfvSum_cons, ih]
    apply sfv_ext <;> simp [SpatialForceVec.add_force_vec] <;> abel

theorem sfv_multiply_zero (c : ℚ) : sfvZero.multiply c = sfvZero := by
  apply sfv_ext <;> simp [SpatialForceVec.multiply, sfvZero]

theorem sfvSum_map_multiply {α : Type} (l : List α) (F : α → SpatialForceVec) (c : ℚ) :
    sfvSum (l.map (fun x => (F x).multiply c)) = (sfvSum (l.map F)).multiply c := by
  induction l with
  | nil => exact (sfv_multiply_zero c).symm
  | cons a t ih =>
    rw [List.map_cons, List.map_cons, sfvSum_cons, sfvSum_cons, ih]
    apply sfv_ext <;>
      simp [SpatialForceVec.add_force_vec, SpatialForceVec.multiply] <;> module

theorem neForce_split (M : RobotModel) (X : M.Idx → CoordinateTransform)
    (vel acc a2 : M.Idx → SpatialMotionVec) :
    ∀ i, neForce M X vel (fun k => (acc k).add_motion_vec (a2 k)) i
      = (neForce M X vel acc i).add_force_vec
        (neForce M X (fun _ => smvZero) a2 i) := by
  apply idx_strong_induction_rev
  intro i IH
  rw [neForce_eq M X vel _ i, neForce_eq M X vel acc i,
    neForce_eq M X (fun _ => smvZero) a2 i]
  rw [mmv_add]
  have hmap : (M.childrenL i).map
      (fun c => (neForce M X vel (fun k => (acc k).add_motion_vec (a2 k)) c).transform (X c))
      = (M.childrenL i).map (fun c =>
          ((neForce M X vel acc c).transform (X c)).add_force_vec
            ((neForce M X (fun _ => smvZero) a2 c).transform (X c))) := by
    apply List.map_congr_left
    intro c hc
    rw [IH c ((mem_childrenL M i c).mp hc).2, sfv_transform_add]
  rw [hmap, sfvSum_map_add]
  apply sfv_ext <;>
    simp [SpatialForceVec.add_force_vec, zero_cross_force, sfvZero] <;> abel

theorem neForce_smul (M : RobotModel) (X : M.Idx → CoordinateTransform)
    (a : M.Idx → SpatialMotionVec) (c : ℚ) :
    ∀ i, neForce M X (fun _ => smvZero) (fun k => (a k).multiply c) i
      = (neForce M X (fun _ => smvZero) a i).multiply c := by
  apply idx_strong_induction_rev
  intro i IH
  rw [neForce_eq M X _ _ i, neForce_eq M X (fun _ => smvZero) a i]
  rw [mmv_multiply]
  have hmap : (M.childrenL i).map
      (fun d => (neForce M X (fun _ => smvZero) (fun k => (a k).multiply c) d).transform (X d))
      = (M.childrenL i).map (fun d =>
          (((neForce M X (fun _ => smvZero) a d).transform (X d)).multiply c)) := by
    apply List.map_congr_left
    intro d hd
    rw [IH d ((mem_childrenL M i d).mp hd).2, sfv_transform_multiply]
  rw [hmap, sfvSum_map_multiply]
  apply sfv_ext <;>
    simp [SpatialForceVec.add_force_vec, SpatialForceVec.multiply, zero_cross_force,
      sfvZero] <;> module

theorem pureAcc_pos (M : RobotModel) (X : M.Idx → CoordinateTransform)
    (qddB : M.Idx → ℚ) (i : M.Idx) (h : 0 < i.1) :
    pureAcc M X qddB i =
      ((pureAcc M X qddB (M.parent i)).transform (X i).inverse).add_motion_vec
        ((M.S6 i).multiply (qddB i)) := by
  unfold pureAcc
  rw [neAcc_pos _ _ _ _ _ _ h, smv_add_zero]

theorem pureAcc_base (M : RobotModel) (X : M.Idx → CoordinateTransform)
    (qddB : M.Idx → ℚ) : pureAcc M X qddB 0 = smvZero := by
  unfold pureAcc
  rw [neAcc_base]
  simp

theorem filter_not_pos_eq (M : RobotModel) :
    Finset.univ.filter (fun i : M.Idx => ¬ 0 < i.1) = {(0 : M.Idx)} := by
  ext c
  simp [Fin.ext_iff]

theorem virtual_work (M : RobotModel) (X : M.Idx → CoordinateTransform)
    (hX : ∀ i : M.Idx, IsRot (X i).rot) (x y : M.Idx → ℚ) :
    ∑ i ∈ Finset.univ.filter (fun i : M.Idx => 0 < i.1),
        (pureForce M X x i).dot ((M.S6 i).multiply (y i))
      = ∑ k : M.Idx,
          ((M.inertia k).multiply_motion_vec (pureAcc M X x k)).dot (pureAcc M X y k) := by
  have hstep : ∀ i ∈ Finset.univ.filter (fun i : M.Idx => 0 < i.1),
      (pureForce M X x i).dot ((M.S6 i).multiply (y i))
        = (pureForce M X x i).dot (pureAcc M X y i)
          - ((pureForce M X x i).transform (X i)).dot (pureAcc M X y (M.parent i)) := by
    intro i hi
    have hpos : 0 < i.1 := (Finset.mem_filter.mp hi).2
    rw [pureAcc_pos M X y i hpos, sfv_dot_add_right, dual_pair (hX i)]
    ring
  rw [Finset.sum_congr rfl hstep, Finset.sum_sub_distrib]
  have hB : ∑ i ∈ Finset.univ.filter (fun i : M.Idx => 0 < i.1),
      ((pureForce M X x i).transform (X i)).dot (pureAcc M X y (M.parent i))
      = ∑ k : M.Idx, ((pureForce M X x k).dot (pureAcc M X y k)
          - ((M.inertia k).multiply_motion_vec (pureAcc M X x k)).dot (pureAcc M X y k)) := by
    rw [sum_over_children M
      (fun c => ((pureForce M X x c).transform (X c)).dot (pureAcc M X y (M.parent c)))]
    apply Finset.sum_congr rfl
    intro k _
    have hinner : ∑ c ∈ Finset.univ.filter
        (fun c : M.Idx => M.parent c = k ∧ k.1 < c.1),
        ((pureForce M X x c).transform (X c)).dot (pureAcc M X y (M.parent c))
        = ∑ c ∈ Finset.univ.filter
          (fun c : M.Idx => M.parent c = k ∧ k.1 < c.1),
          ((neForce M X (fun _ => smvZero) (pureAcc M X x) c).transform (X c)).dot
            (pureAcc M X y k) := by
      apply Finset.sum_congr rfl
      intro c hc
      rw [(Finset.mem_filter.mp hc).2.1]
      rfl
    rw [hinner]
    have hforce := neForce_dot M X (fun _ => smvZero) (pureAcc M X x) k (pureAcc M X y k)
    rw [zero_cross_force, sfvZero_dot] at hforce
    have : ∑ c ∈ Finset.univ.filter (fun c : M.Idx => M.parent c = k ∧ k.1 < c.1),
        ((neForce M X (fun _ => smvZero) (pureAcc M X x) c).transform (X c)).dot
          (pureAcc M X y k)
        = (pureForce M X x k).dot (pureAcc M X y k)
          - ((M.inertia k).multiply_motion_vec (pureAcc M X x k)).dot (pureAcc M X y k) := by
      unfold pureForce
      rw [hforce]
      ring
    rw [this]
  rw [hB, Finset.sum_sub_distrib]
  have hsplit : ∑ k : M.Idx, (pureForce M X x k).dot (pureAcc M X y k)
      = (pureForce M X x 0).dot (pureAcc M X y 0)
        + ∑ k ∈ Finset.univ.filter (fun i : M.Idx => 0 < i.1),
            (pureForce M X x k).dot (pureAcc M X y k) := by
    rw [← Finset.sum_filter_add_sum_filter_not Finset.univ (fun i : M.Idx => 0 < i.1)
      (fun k => (pureForce M X x k).dot (pureAcc M X y k))]
    rw [filter_not_pos_eq M, Finset.sum_singleton]
    ring
  rw [hsplit, pureAcc_base, sfv_dot_zero_right]
  ring

/-! ### The ordered sweeps compute the parent-recursion normal forms -/

theorem fold_parent_update (M : RobotModel) {A : Type} (g : A → M.Idx → A)
    (spec : M.Idx → A)
    (hspec : ∀ i : M.Idx, 0 < i.1 → spec i = g (spec (M.parent i)) i) :
    ∀ d k : ℕ, 1 ≤ k → k + d = M.nb + 1 → ∀ P : M.Idx → A,
      (∀ j : M.Idx, j.1 < k → P j = spec j) →
      ∀ j : M.Idx,
        (((List.finRange (M.nb + 1)).drop k).foldl
          (fun P i => Function.update P i (g (P (M.parent i)) i)) P) j = spec j := by
  intro d
  induction d with
  | zero =>
    intro k hk1 hk P hP j
    rw [List.drop_eq_nil_of_le (by rw [List.length_finRange]; omega)]
    exact hP j (by have := j.2; omega)
  | succ d ih =>
    intro k hk1 hk P hP j
    have hkn : k < (List.finRange (M.nb + 1)).length := by
      rw [List.length_finRange]; omega
    obtain ⟨ik, hik⟩ : ∃ ik : M.Idx, ik.1 = k := ⟨⟨k, by omega⟩, rfl⟩
    have hget : (List.finRange (M.nb + 1))[k] = ik := by
      apply Fin.ext
      simp [hik]
    rw [List.drop_eq_getElem_cons hkn, List.foldl_cons, hget]
    apply ih (k + 1) (by omega) (by omega)
    intro j' hj'
    rw [Function.update_apply]
    by_cases hj : j' = ik
    · rw [if_pos hj, hj]
      have hpos : 0 < ik.1 := by omega
      have hpar := M.hparent ik hpos
      rw [hP (M.parent ik) (by omega)]
      exact (hspec ik hpos).symm
    · rw [if_neg hj]
      refine hP j' ?_
      have : j'.1 ≠ k := fun hc => hj (Fin.ext (by rw [hc, hik]))
      omega

theorem poseOf_pos (M : RobotModel) (q : Fin M.nDofs → ℚ) (i : M.Idx) (h : 0 < i.1) :
    M.poseOf q i = (M.poseOf q (M.parent i)).multiply_transform (M.X q i) := by
  rw [RobotModel.poseOf, dif_pos h]

theorem poseOf_base (M : RobotModel) (q : Fin M.nDofs → ℚ) :
    M.poseOf q 0 = ctIdentity := by
  rw [RobotModel.poseOf]
  simp

theorem velOf_pos (M : RobotModel) (q qd : Fin M.nDofs → ℚ) (i : M.Idx) (h : 0 < i.1) :
    M.velOf q qd i = (M.joint_vel_of qd i).add_motion_vec
      ((M.velOf q qd (M.parent i)).transform (M.X q i).inverse) := by
  rw [RobotModel.velOf, dif_pos h]

theorem velOf_base (M : RobotModel) (q qd : Fin M.nDofs → ℚ) :
    M.velOf q qd 0 = smvZero := by
  rw [RobotModel.velOf]
  simp

theorem sweepPoses_eq (M : RobotModel) (q : Fin M.nDofs → ℚ) (i : M.Idx) :
    M.sweepPoses q i = M.poseOf q i := by
  unfold RobotModel.sweepPoses
  refine fold_parent_update M (fun a i => a.multiply_transform (M.X q i)) (M.poseOf q)
    (fun i h => poseOf_pos M q i h) M.nb 1 le_rfl (by omega) (fun _ => ctIdentity)
    (fun j hj => ?_) i
  have hj0 : j = 0 := by
    apply Fin.ext
    simp only [Fin.val_zero]
    omega
  rw [hj0, poseOf_base]

theorem sweepVels_eq (M : RobotModel) (q qd : Fin M.nDofs → ℚ) (i : M.Idx) :
    M.sweepVels q qd i = M.velOf q qd i := by
  unfold RobotModel.sweepVels
  refine fold_parent_update M
    (fun a i => (M.joint_vel_of qd i).add_motion_vec (a.transform (M.X q i).inverse))
    (M.velOf q qd) (fun i h => velOf_pos M q qd i h) M.nb 1 le_rfl (by omega)
    (fun _ => smvZero) (fun j hj => ?_) i
  have hj0 : j = 0 := by
    apply Fin.ext
    simp only [Fin.val_zero]
    omega
  rw [hj0, velOf_base]

theorem joint_vel_of_zero (M : RobotModel) (i : M.Idx) :
    M.joint_vel_of 0 i = smvZero := by
  apply smv_ext <;> simp [RobotModel.joint_vel_of, smvZero, RobotModel.jointVal]

theorem velOf_zero_qd (M : RobotModel) (q : Fin M.nDofs → ℚ) :
    ∀ i : M.Idx, M.velOf q 0 i = smvZero := by
  apply idx_strong_induction
  intro i IH
  by_cases h : 0 < i.1
  · rw [velOf_pos M q 0 i h, IH (M.parent i) (M.hparent i h), joint_vel_of_zero,
      smv_transform_zero, smv_add_zero]
  · rw [RobotModel.velOf, dif_neg h]

/-! ### Symmetry and positivity of the spatial inertia -/

theorem spatialMat_transpose (I : SpatialRigidBodyInertia)
    (hsym : I.inertia_mat.transpose = I.inertia_mat) :
    I.get_spatial_mat.transpose = I.get_spatial_mat := by
  unfold SpatialRigidBodyInertia.get_spatial_mat
  rw [b66_transpose]
  have h1 : (I.inertia_mat + I.mass • (skew I.com * (skew I.com).transpose)).transpose
      = I.inertia_mat + I.mass • (skew I.com * (skew I.com).transpose) := by
    rw [Matrix.transpose_add, hsym, Matrix.transpose_smul, Matrix.transpose_mul,
      Matrix.transpose_transpose]
  have h2 : (I.mass • (1 : M33)).transpose = I.mass • (1 : M33) := by
    rw [Matrix.transpose_smul, Matrix.transpose_one]
  rw [h1, h2, Matrix.transpose_transpose]

theorem mmv_dot_symm (I : SpatialRigidBodyInertia)
    (hsym : I.inertia_mat.transpose = I.inertia_mat) (a b : SpatialMotionVec) :
    (I.multiply_motion_vec a).dot b = (I.multiply_motion_vec b).dot a := by
  rw [sfv_dot_vec, sfv_dot_vec, inertia_mmv_vec, inertia_mmv_vec, dot_mulVec_left,
    spatialMat_transpose I hsym, Matrix.dotProduct_comm]

theorem mmv_dot_self_eq (I : SpatialRigidBodyInertia) (a : SpatialMotionVec) :
    (I.multiply_motion_vec a).dot a =
      Matrix.dotProduct a.ang (I.inertia_mat.mulVec a.ang)
      + I.mass * Matrix.dotProduct (a.lin - cross3 I.com a.ang)
          (a.lin - cross3 I.com a.ang) := by
  simp only [SpatialRigidBodyInertia.multiply_motion_vec, SpatialForceVec.dot,
    Matrix.dotProduct, Matrix.mulVec, Fin.sum_univ_three, cross3, skew,
    Matrix.transpose_apply, Matrix.mul_apply, Matrix.add_apply, Matrix.smul_apply,
    Pi.add_apply, Pi.sub_apply, Pi.smul_apply, smul_eq_mul, Matrix.cons_val_zero,
    Matrix.cons_val_one, Matrix.head_cons, Matrix.cons_val_two, Matrix.tail_cons,
    Matrix.head_fin_const, Matrix.of_apply, Matrix.cons_val', Matrix.empty_val',
    Matrix.cons_val_fin_one]
  ring

theorem dotProduct_self_nonneg3 (v : V3) : 0 ≤ Matrix.dotProduct v v := by
  unfold Matrix.dotProduct
  exact Finset.sum_nonneg (fun i _ => mul_self_nonneg (v i))

theorem mmv_dot_self_nonneg (I : SpatialRigidBodyInertia) (hm : 0 ≤ I.mass)
    (hpsd : ∀ v : V3, 0 ≤ Matrix.dotProduct v (I.inertia_mat.mulVec v))
    (a : SpatialMotionVec) : 0 ≤ (I.multiply_motion_vec a).dot a := by
  rw [mmv_dot_self_eq]
  exact add_nonneg (hpsd a.ang)
    (mul_nonneg hm (dotProduct_self_nonneg3 _))

/-! ### Torque extraction for axis-aligned joints -/

theorem axis_index_e3 (k : Fin 3) : axis_index (e3 k) = some k := by
  fin_cases k <;> decide

theorem axis_index_neg_e3 (k : Fin 3) : axis_index (-e3 k) = some k := by
  fin_cases k <;> decide

theorem e3_self (k : Fin 3) : e3 k k = 1 := by
  simp [e3]

theorem sgn_one : sgn 1 = 1 := by decide

theorem sgn_neg_one : sgn (-1) = -1 := by decide

theorem jointTorqueProj_unit (axis : V3)
    (hk : ∃ k : Fin 3, axis = e3 k ∨ axis = -e3 k) (f : SpatialForceVec) :
    jointTorqueProj axis f = some (f.dot ⟨0, axis⟩) := by
  obtain ⟨k, hax | hax⟩ := hk
  · rw [hax]
    unfold jointTorqueProj
    rw [axis_index_e3, Option.map_some']
    congr 1
    rw [e3_self, sgn_one, one_smul]
    unfold SpatialForceVec.dot
    rw [Matrix.dotProduct_zero, add_zero]
  · rw [hax]
    unfold jointTorqueProj
    rw [axis_index_neg_e3, Option.map_some']
    congr 1
    have hval : (-e3 k) k = -1 := by
      simp [e3]
    rw [hval, sgn_neg_one]
    unfold SpatialForceVec.dot
    rw [Matrix.dotProduct_zero, add_zero]
    congr 1
    funext i
    simp only [e3, Pi.neg_apply]
    split <;> simp_all [e3]

theorem jointVal_zero_fn (M : RobotModel) (i : M.Idx) : M.jointVal 0 i = 0 := by
  unfold RobotModel.jointVal
  split <;> rfl

theorem smv_multiply_zero_scalar (a : SpatialMotionVec) : a.multiply 0 = smvZero := by
  apply smv_ext <;> simp [SpatialMotionVec.multiply, smvZero]

theorem smv_zero_add (a : SpatialMotionVec) : smvZero.add_motion_vec a = a := by
  rw [smv_add_comm]
  exact smv_add_zero a

theorem joint_acc_of_eq (M : RobotModel) (qdd : Fin M.nDofs → ℚ) (i : M.Idx) :
    M.joint_acc_of qdd i = (M.S6 i).multiply (M.jointVal qdd i) := by
  apply smv_ext <;>
    simp [RobotModel.joint_acc_of, RobotModel.S6, SpatialMotionVec.multiply]

theorem joint_acc_of_zero (M : RobotModel) (i : M.Idx) :
    M.joint_acc_of 0 i = smvZero := by
  rw [joint_acc_of_eq, jointVal_zero_fn, smv_multiply_zero_scalar]

theorem neAccOf_split (M : RobotModel) (q qd qdd : Fin M.nDofs → ℚ)
    (g : Bool) (i : M.Idx) :
    M.neAccOf q qd qdd g i = (M.neAccOf q qd 0 g i).add_motion_vec
      (pureAcc M (M.X q) (M.jointVal qdd) i) := by
  unfold RobotModel.neAccOf pureAcc
  rw [show M.joint_acc_of qdd = fun k => (M.joint_acc_of 0 k).add_motion_vec
      ((M.S6 k).multiply (M.jointVal qdd k)) from ?_]
  · exact neAcc_split M (M.X q) (M.joint_acc_of 0)
      (fun k => (M.S6 k).multiply (M.jointVal qdd k)) _ _ i
  · funext k
    rw [joint_acc_of_zero, smv_zero_add, joint_acc_of_eq]

theorem neForceOf_split (M : RobotModel) (q qd qdd : Fin M.nDofs → ℚ)
    (g : Bool) (i : M.Idx) :
    M.neForceOf q qd qdd g i = (M.neForceOf q qd 0 g i).add_force_vec
      (pureForce M (M.X q) (M.jointVal qdd) i) := by
  unfold RobotModel.neForceOf pureForce
  rw [show M.neAccOf q qd qdd g = fun k => (M.neAccOf q qd 0 g k).add_motion_vec
      (pureAcc M (M.X q) (M.jointVal qdd) k) from funext (neAccOf_split M q qd qdd g)]
  exact neForce_split M (M.X q) (M.sweepVels q qd) (M.neAccOf q qd 0 g)
    (pureAcc M (M.X q) (M.jointVal qdd)) i

theorem ID_eq (M : RobotModel) (q qd qdd : Fin M.nDofs → ℚ) (g d : Bool)
    (hnd : 0 < M.nDofs)
    (haxis : ∀ i : M.Idx, M.controlled i = true →
      ∃ k : Fin 3, M.joint_axis i = e3 k ∨ M.joint_axis i = -e3 k) :
    M.compute_inverse_dynamics q qd qdd g d
      = some (fun j => (M.neForceOf q qd qdd g (M.cj j)).dot (M.S6 (M.cj j))
          + (if d then M.dampingConst j * qd j else 0)) := by
  have hup : M.update_kinematic_state q qd
      = some (M.sweepPoses q, M.sweepVels q qd) := by
    unfold RobotModel.update_kinematic_state
    rw [if_neg (by omega)]
  have hall : ∀ j : Fin M.nDofs,
      (jointTorqueProj (M.joint_axis (M.cj j))
        (M.neForceOf q qd qdd g (M.cj j))).isSome := by
    intro j
    rw [jointTorqueProj_unit _ (haxis _ (controlled_cj M j)) _]
    rfl
  simp only [RobotModel.compute_inverse_dynamics, hup]
  rw [show (neForce M (M.X q) (M.sweepVels q qd)
      (neAcc M (M.X q) (M.joint_acc_of qdd)
        (fun i => (M.sweepVels q qd i).cross_motion_vec (M.joint_vel_of qd i))
        (baseAccOf g))) = M.neForceOf q qd qdd g from rfl]
  rw [dif_pos hall]
  congr 1
  funext j
  congr 1
  have hsome := jointTorqueProj_unit (M.joint_axis (M.cj j))
    (haxis _ (controlled_cj M j)) (M.neForceOf q qd qdd g (M.cj j))
  simp only [hsome, Option.get_some]
  rfl

/-! ### Linearity in the desired acceleration -/

theorem cross_motion_zero_right (m : SpatialMotionVec) :
    m.cross_motion_vec smvZero = smvZero := by
  apply smv_ext <;>
    simp [SpatialMotionVec.cross_motion_vec, smvZero, cross3_zero_right]

theorem sfv_transform_zero (T : CoordinateTransform) :
    sfvZero.transform T = sfvZero := by
  apply sfv_ext <;> simp [SpatialForceVec.transform, sfvZero, Matrix.mulVec_zero]

theorem sfv_multiply_zero_scalar (f : SpatialForceVec) : f.multiply 0 = sfvZero := by
  apply sfv_ext <;> simp [SpatialForceVec.multiply, sfvZero]

theorem smv_multiply_add_scalar (a : SpatialMotionVec) (c e : ℚ) :
    a.multiply (c + e) = (a.multiply c).add_motion_vec (a.multiply e) := by
  apply smv_ext <;>
    simp [SpatialMotionVec.multiply, SpatialMotionVec.add_motion_vec] <;> module

theorem smv_multiply_mul (a : SpatialMotionVec) (c e : ℚ) :
    a.multiply (c * e) = (a.multiply e).multiply c := by
  apply smv_ext <;> simp [SpatialMotionVec.multiply] <;> module

theorem jointVal_add (M : RobotModel) (x y : Fin M.nDofs → ℚ) (i : M.Idx) :
    M.jointVal (fun j => x j + y j) i = M.jointVal x i + M.jointVal y i := by
  unfold RobotModel.jointVal
  split <;> simp

theorem jointVal_smul (M : RobotModel) (c : ℚ) (x : Fin M.nDofs → ℚ) (i : M.Idx) :
    M.jointVal (fun j => c * x j) i = c * M.jointVal x i := by
  unfold RobotModel.jointVal
  split <;> simp

theorem pureAcc_add (M : RobotModel) (X : M.Idx → CoordinateTransform)
    (q1 q2 : M.Idx → ℚ) (i : M.Idx) :
    pureAcc M X (fun k => q1 k + q2 k) i
      = (pureAcc M X q1 i).add_motion_vec (pureAcc M X q2 i) := by
  unfold pureAcc
  rw [show (fun k => (M.S6 k).multiply (q1 k + q2 k))
      = fun k => ((M.S6 k).multiply (q1 k)).add_motion_vec ((M.S6 k).multiply (q2 k))
    from funext (fun k => smv_multiply_add_scalar _ _ _)]
  exact neAcc_split M X _ _ _ _ i

theorem pureAcc_smul (M : RobotModel) (X : M.Idx → CoordinateTransform)
    (c : ℚ) (q1 : M.Idx → ℚ) (i : M.Idx) :
    pureAcc M X (fun k => c * q1 k) i = (pureAcc M X q1 i).multiply c := by
  unfold pureAcc
  rw [show (fun k => (M.S6 k).multiply (c * q1 k))
      = fun k => ((M.S6 k).multiply (q1 k)).multiply c
    from funext (fun k => smv_multiply_mul _ _ _)]
  exact neAcc_smul M X _ c i

theorem pureForce_add (M : RobotModel) (X : M.Idx → CoordinateTransform)
    (q1 q2 : M.Idx → ℚ) (i : M.Idx) :
    pureForce M X (fun k => q1 k + q2 k) i
      = (pureForce M X q1 i).add_force_vec (pureForce M X q2 i) := by
  unfold pureForce
  rw [show pureAcc M X (fun k => q1 k + q2 k)
      = fun k => (pureAcc M X q1 k).add_motion_vec (pureAcc M X q2 k)
    from funext (pureAcc_add M X q1 q2)]
  exact neForce_split M X _ _ _ i

theorem pureForce_smul (M : RobotModel) (X : M.Idx → CoordinateTransform)
    (c : ℚ) (q1 : M.Idx → ℚ) (i : M.Idx) :
    pureForce M X (fun k => c * q1 k) i = (pureForce M X q1 i).multiply c := by
  unfold pureForce
  rw [show pureAcc M X (fun k => c * q1 k)
      = fun k => (pureAcc M X q1 k).multiply c
    from funext (pureAcc_smul M X c q1)]
  exact neForce_smul M X _ c i

theorem linear_sum_apply {n : ℕ} (F : (Fin n → ℚ) → ℚ)
    (hadd : ∀ a b, F (fun t => a t + b t) = F a + F b)
    (hsmul : ∀ c a, F (fun t => c * a t) = c * F a) (w : Fin n → ℚ) :
    F w = ∑ k : Fin n, w k * F (fun t => if t = k then 1 else 0) := by
  have hF0 : F (fun _ => 0) = 0 := by
    have := hsmul 0 (fun _ => 0)
    simpa using this
  have key : ∀ s : Finset (Fin n),
      F (fun t => ∑ k ∈ s, w k * (if t = k then 1 else 0))
        = ∑ k ∈ s, w k * F (fun t => if t = k then 1 else 0) := by
    intro s
    induction s using Finset.induction_on with
    | empty => simpa using hF0
    | insert hnot ih =>
      rename_i a s
      rw [Finset.sum_insert hnot]
      rw [show (fun t => ∑ k ∈ insert a s, w k * (if t = k then 1 else 0))
          = fun t => (w a * (if t = a then 1 else 0))
              + ∑ k ∈ s, w k * (if t = k then 1 else 0)
        from funext (fun t => Finset.sum_insert hnot)]
      rw [hadd, ih, hsmul]
  have hw : w = fun t => ∑ k ∈ Finset.univ, w k * (if t = k then 1 else 0) := by
    funext t
    rw [Finset.sum_eq_single t]
    · simp
    · intro b _ hb
      simp [Ne.symm hb]
    · intro hb
      exact absurd (Finset.mem_univ t) hb
  conv_lhs => rw [hw]
  exact key Finset.univ

theorem neForce_zero_all (M : RobotModel) (X : M.Idx → CoordinateTransform)
    (i : M.Idx) :
    neForce M X (fun _ => smvZero) (fun _ => smvZero) i = sfvZero := by
  have h := neForce_smul M X (fun _ : M.Idx => smvZero) 0 i
  rw [show (fun k : M.Idx => ((fun _ : M.Idx => smvZero) k).multiply 0)
      = (fun _ : M.Idx => smvZero)
    from funext (fun k => smv_multiply_zero_scalar smvZero)] at h
  rw [h, sfv_multiply_zero_scalar]

theorem neAcc_zero_all (M : RobotModel) (X : M.Idx → CoordinateTransform)
    (i : M.Idx) :
    neAcc M X (fun _ => smvZero) (fun _ => smvZero) smvZero i = smvZero := by
  have h := neAcc_smul M X (fun _ : M.Idx => smvZero) 0 i
  rw [show (fun k : M.Idx => ((fun _ : M.Idx => smvZero) k).multiply 0)
      = (fun _ : M.Idx => smvZero)
    from funext (fun k => smv_multiply_zero_scalar smvZero)] at h
  rw [h, smv_multiply_zero_scalar]

theorem baseAccOf_false : baseAccOf false = smvZero := by
  apply smv_ext <;> simp [baseAccOf, smvZero]

theorem neAccOf_zero_false (M : RobotModel) (q : Fin M.nDofs → ℚ) (i : M.Idx) :
    M.neAccOf q 0 0 false i = smvZero := by
  unfold RobotModel.neAccOf
  rw [show M.joint_acc_of (0 : Fin M.nDofs → ℚ) = (fun _ : M.Idx => smvZero)
      from funext (joint_acc_of_zero M)]
  rw [show (fun k : M.Idx => (M.sweepVels q 0 k).cross_motion_vec (M.joint_vel_of 0 k))
      = (fun _ : M.Idx => smvZero)
    from funext (fun k => by rw [joint_vel_of_zero, cross_motion_zero_right])]
  rw [baseAccOf_false]
  exact neAcc_zero_all M (M.X q) i

theorem neForceOf_zero_false (M : RobotModel) (q : Fin M.nDofs → ℚ) (i : M.Idx) :
    M.neForceOf q 0 0 false i = sfvZero := by
  unfold RobotModel.neForceOf
  rw [show M.sweepVels q (0 : Fin M.nDofs → ℚ) = (fun _ : M.Idx => smvZero)
      from funext (fun k => by rw [sweepVels_eq, velOf_zero_qd])]
  rw [show M.neAccOf q (0 : Fin M.nDofs → ℚ) 0 false = (fun _ : M.Idx => smvZero)
      from funext (neAccOf_zero_false M q)]
  exact neForce_zero_all M (M.X q) i

theorem controlled_subset_pos (M : RobotModel) :
    Finset.univ.filter (fun i : M.Idx => M.controlled i = true)
      ⊆ Finset.univ.filter (fun i : M.Idx => 0 < i.1) := by
  intro i hi
  rw [Finset.mem_filter] at hi ⊢
  refine ⟨hi.1, ?_⟩
  by_contra h0
  have hi0 : i = 0 := by
    apply Fin.ext
    simp only [Fin.val_zero]
    omega
  rw [hi0, M.hbase] at hi
  exact Bool.false_ne_true hi.2

theorem dof_virtual_work (M : RobotModel) (q : Fin M.nDofs → ℚ)
    (hrot : ∀ i : M.Idx, IsRot (M.X q i).rot) (x y : Fin M.nDofs → ℚ) :
    ∑ j : Fin M.nDofs,
        y j * ((pureForce M (M.X q) (M.jointVal x) (M.cj j)).dot (M.S6 (M.cj j)))
      = ∑ k : M.Idx,
          ((M.inertia k).multiply_motion_vec (pureAcc M (M.X q) (M.jointVal x) k)).dot
            (pureAcc M (M.X q) (M.jointVal y) k) := by
  have hvw := virtual_work M (M.X q) hrot (M.jointVal x) (M.jointVal y)
  rw [Finset.sum_congr rfl (fun i _ => sfv_dot_multiply_right
    (pureForce M (M.X q) (M.jointVal x) i) (M.S6 i) (M.jointVal y i))] at hvw
  rw [← hvw]
  have hstep : ∑ j : Fin M.nDofs,
      y j * ((pureForce M (M.X q) (M.jointVal x) (M.cj j)).dot (M.S6 (M.cj j)))
      = ∑ j : Fin M.nDofs, M.jointVal y (M.cj j)
          * ((pureForce M (M.X q) (M.jointVal x) (M.cj j)).dot (M.S6 (M.cj j))) := by
    apply Finset.sum_congr rfl
    intro j _
    rw [jointVal_cj]
  rw [hstep, sum_dofs_eq M (fun i => M.jointVal y i
    * ((pureForce M (M.X q) (M.jointVal x) i).dot (M.S6 i)))]
  apply Finset.sum_subset (controlled_subset_pos M)
  intro i hi hnc
  rw [Finset.mem_filter] at hnc
  push_neg at hnc
  have hc : M.controlled i = false := by
    rcases Bool.eq_false_or_eq_true (M.controlled i) with h | h
    · exact absurd h (hnc (Finset.mem_univ i))
    · exact h
  rw [jointVal_uncontrolled M y i hc, zero_mul]

theorem lagrangian_eq (M : RobotModel) (q : Fin M.nDofs → ℚ) (g d : Bool)
    (hnd : 0 < M.nDofs)
    (haxis : ∀ i : M.Idx, M.controlled i = true →
      ∃ k : Fin 3, M.joint_axis i = e3 k ∨ M.joint_axis i = -e3 k) :
    M.compute_lagrangian_inertia_matrix q g d
      = some (Matrix.of (fun i j : Fin M.nDofs =>
          (pureForce M (M.X q) (M.jointVal (fun t => if t = j then 1 else 0))
            (M.cj i)).dot (M.S6 (M.cj i)))) := by
  have hID : ∀ qdd : Fin M.nDofs → ℚ, M.compute_inverse_dynamics q 0 qdd g d
      = some (fun j => (M.neForceOf q 0 qdd g (M.cj j)).dot (M.S6 (M.cj j))
          + (if d then M.dampingConst j * (0 : Fin M.nDofs → ℚ) j else 0)) :=
    fun qdd => ID_eq M q 0 qdd g d hnd haxis
  have hD : ∀ j : Fin M.nDofs,
      (if d then M.dampingConst j * (0 : Fin M.nDofs → ℚ) j else 0) = 0 := by
    intro j
    simp
  simp only [RobotModel.compute_lagrangian_inertia_matrix]
  split
  · rename_i heq
    cases g
    · simp at heq
    · rw [hID 0] at heq
      simp at heq
  · rename_i gravity_term heq
    have hall : ∀ j : Fin M.nDofs,
        (M.compute_inverse_dynamics q 0 (fun k => if k = j then 1 else 0) g d).isSome := by
      intro j
      rw [hID]
      rfl
    rw [dif_pos hall]
    congr 1
    funext i j
    simp only [Matrix.of_apply]
    have hcol : (M.compute_inverse_dynamics q 0 (fun k => if k = j then 1 else 0) g d).get
        (hall j) = (fun t => (M.neForceOf q 0 (fun k => if k = j then 1 else 0) g (M.cj t)).dot
          (M.S6 (M.cj t)) + (if d then M.dampingConst t * (0 : Fin M.nDofs → ℚ) t else 0)) := by
      have h1 := hID (fun k => if k = j then 1 else 0)
      rw [Option.get_of_mem (hall j) h1]
    rw [hcol]
    have hsplit := neForceOf_split M q 0 (fun k => if k = j then 1 else 0) g (M.cj i)
    cases g
    · have hgt : gravity_term = 0 := by
        simp at heq
        exact heq.symm
      rw [hgt]
      simp only []
      rw [hsplit, sfv_add_dot, neForceOf_zero_false, sfvZero_dot, hD]
      simp
    · rw [if_pos rfl, hID 0] at heq
      have hgt := (Option.some.inj heq).symm
      rw [hgt]
      simp only []
      rw [hsplit, sfv_add_dot]
      simp only [hD]
      ring

/-- C6: for every configuration `q` and both flag settings, the matrix
assembled by `compute_lagrangian_inertia_matrix` — one inverse-dynamics call
per unit-acceleration basis column minus the zero-acceleration baseline — is
symmetric and positive-semidefinite, for a robot with at least one
controlled joint, coordinate-axis-aligned unit joint axes (the only axes the
torque extraction of `compute_inverse_dynamics` accepts), proper-rotation
joint poses, and per-body physical parameters that are genuine rigid-body
parameters (symmetric PSD rotational inertia, nonnegative mass). -/
theorem claim_C6_mass_matrix_symmetric_psd (M : RobotModel)
    (q : Fin M.nDofs → ℚ) (g d : Bool) (hnd : 0 < M.nDofs)
    (haxis : ∀ i : M.Idx, M.controlled i = true →
      ∃ k : Fin 3, M.joint_axis i = e3 k ∨ M.joint_axis i = -e3 k)
    (hrot : ∀ i : M.Idx, IsRot (M.X q i).rot)
    (hsym : ∀ i : M.Idx, (M.inertia i).inertia_mat.transpose = (M.inertia i).inertia_mat)
    (hmass : ∀ i : M.Idx, 0 ≤ (M.inertia i).mass)
    (hpsd : ∀ i : M.Idx, ∀ v : V3,
      0 ≤ Matrix.dotProduct v ((M.inertia i).inertia_mat.mulVec v)) :
    ∃ H : Matrix (Fin M.nDofs) (Fin M.nDofs) ℚ,
      M.compute_lagrangian_inertia_matrix q g d = some H
        ∧ H.transpose = H
        ∧ ∀ w : Fin M.nDofs → ℚ, 0 ≤ Matrix.dotProduct w (H.mulVec w) := by
  have hsymB : ∀ x y : Fin M.nDofs → ℚ,
      ∑ t : Fin M.nDofs, y t *
        ((pureForce M (M.X q) (M.jointVal x) (M.cj t)).dot (M.S6 (M.cj t)))
      = ∑ t : Fin M.nDofs, x t *
        ((pureForce M (M.X q) (M.jointVal y) (M.cj t)).dot (M.S6 (M.cj t))) := by
    intro x y
    rw [dof_virtual_work M q hrot x y, dof_virtual_work M q hrot y x]
    apply Finset.sum_congr rfl
    intro k _
    exact mmv_dot_symm (M.inertia k) (hsym k) _ _
  have hcollapse : ∀ (v : Fin M.nDofs → ℚ) (i : Fin M.nDofs),
      ∑ t : Fin M.nDofs, (if t = i then 1 else 0) * v t = v i := by
    intro v i
    rw [Finset.sum_eq_single i]
    · simp
    · intro b _ hb
      simp [hb]
    · intro hb
      exact absurd (Finset.mem_univ i) hb
  have hadd : ∀ (i : Fin M.nDofs) (a b : Fin M.nDofs → ℚ),
      (pureForce M (M.X q) (M.jointVal (fun t => a t + b t)) (M.cj i)).dot (M.S6 (M.cj i))
        = (pureForce M (M.X q) (M.jointVal a) (M.cj i)).dot (M.S6 (M.cj i))
          + (pureForce M (M.X q) (M.jointVal b) (M.cj i)).dot (M.S6 (M.cj i)) := by
    intro i a b
    rw [show M.jointVal (fun t => a t + b t)
        = fun k => M.jointVal a k + M.jointVal b k from funext (jointVal_add M a b)]
    rw [pureForce_add, sfv_add_dot]
  have hsmul : ∀ (i : Fin M.nDofs) (c : ℚ) (a : Fin M.nDofs → ℚ),
      (pureForce M (M.X q) (M.jointVal (fun t => c * a t)) (M.cj i)).dot (M.S6 (M.cj i))
        = c * (pureForce M (M.X q) (M.jointVal a) (M.cj i)).dot (M.S6 (M.cj i)) := by
    intro i c a
    rw [show M.jointVal (fun t => c * a t)
        = fun k => c * M.jointVal a k from funext (jointVal_smul M c a)]
    rw [pureForce_smul, sfv_multiply_dot]
  have hlin : ∀ (i : Fin M.nDofs) (w : Fin M.nDofs → ℚ),
      (pureForce M (M.X q) (M.jointVal w) (M.cj i)).dot (M.S6 (M.cj i))
        = ∑ j : Fin M.nDofs, w j *
            (pureForce M (M.X q) (M.jointVal (fun t => if t = j then 1 else 0))
              (M.cj i)).dot (M.S6 (M.cj i)) := by
    intro i w
    exact linear_sum_apply
      (fun x => (pureForce M (M.X q) (M.jointVal x) (M.cj i)).dot (M.S6 (M.cj i)))
      (hadd i) (hsmul i) w
  refine ⟨_, lagrangian_eq M q g d hnd haxis, ?_, ?_⟩
  · ext i j
    rw [Matrix.transpose_apply, Matrix.of_apply, Matrix.of_apply]
    have h1 := hsymB (fun t => if t = i then 1 else 0) (fun t => if t = j then 1 else 0)
    rw [hcollapse, hcollapse] at h1
    exact h1
  · intro w
    have hmv : ∀ i : Fin M.nDofs,
        ((Matrix.of (fun i j : Fin M.nDofs =>
          (pureForce M (M.X q) (M.jointVal (fun t => if t = j then 1 else 0))
            (M.cj i)).dot (M.S6 (M.cj i)))).mulVec w) i
        = (pureForce M (M.X q) (M.jointVal w) (M.cj i)).dot (M.S6 (M.cj i)) := by
      intro i
      unfold Matrix.mulVec Matrix.dotProduct
      rw [hlin i w]
      apply Finset.sum_congr rfl
      intro j _
      simp only [Matrix.of_apply]
      ring
    unfold Matrix.dotProduct
    rw [Finset.sum_congr rfl (fun i _ => by rw [hmv i])]
    rw [dof_virtual_work M q hrot w w]
    apply Finset.sum_nonneg
    intro k _
    exact mmv_dot_self_nonneg (M.inertia k) (hmass k) (hpsd k) _

/-- Witness for C6: the single-revolute-joint robot `robotW` at `q = 0` with
gravity and damping enabled. -/
theorem claim_C6_mass_matrix_symmetric_psd_witness :
    ∃ H : Matrix (Fin robotW.nDofs) (Fin robotW.nDofs) ℚ,
      robotW.compute_lagrangian_inertia_matrix 0 true true = some H
        ∧ H.transpose = H
        ∧ ∀ w : Fin robotW.nDofs → ℚ, 0 ≤ Matrix.dotProduct w (H.mulVec w) :=
  claim_C6_mass_matrix_symmetric_psd robotW 0 true true (by decide) (by decide)
    (fun i => ⟨by rw [show (robotW.X 0 i).rot = 1 from rfl, Matrix.transpose_one,
        Matrix.one_mul], by rw [show (robotW.X 0 i).rot = 1 from rfl, Matrix.det_one]⟩)
    (by decide) (by decide)
    (fun i v => by
      rw [show (robotW.inertia i).inertia_mat = 1 from rfl, Matrix.one_mulVec]
      exact dotProduct_self_nonneg3 v)

/-! ### Forward dynamics: the unguarded divisor -/

theorem abaAcc_base (M : RobotModel) (C : AbaCtx M) (a0 : SpatialMotionVec)
    (i : M.Idx) (h : ¬ 0 < i.1) : abaAcc M C a0 i = a0 := by
  rw [abaAcc, dif_neg h]

theorem abaAcc_pos_controlled (M : RobotModel) (C : AbaCtx M)
    (a0 : SpatialMotionVec) (i : M.Idx) (h : 0 < i.1)
    (hc : M.controlled i = true) :
    abaAcc M C a0 i =
      (((abaAcc M C a0 (M.parent i)).transform (C.X i).inverse).add_motion_vec
          (C.cb i)).add_motion_vec
        ((M.S6 i).multiply ((1 / abaD M C i) * (abaSmallU M C i
          - SpatialForceVec.dot (sfvOfVec (abaU6 M C i))
              (((abaAcc M C a0 (M.parent i)).transform
                  (C.X i).inverse).add_motion_vec (C.cb i))))) := by
  rw [abaAcc, dif_pos h]
  simp only []
  rw [if_pos hc]

theorem abaAcc_pos_fixed (M : RobotModel) (C : AbaCtx M)
    (a0 : SpatialMotionVec) (i : M.Idx) (h : 0 < i.1)
    (hc : M.controlled i = false) :
    abaAcc M C a0 i =
      ((abaAcc M C a0 (M.parent i)).transform (C.X i).inverse).add_motion_vec
        (C.cb i) := by
  rw [abaAcc, dif_pos h]
  simp only []
  rw [if_neg (by rw [hc]; exact Bool.false_ne_true)]

/-- When every controlled joint's divisor is nonzero, no forward-sweep
division fails and the fallible sweep computes the total one. -/
theorem abaAccOpt_all (M : RobotModel) (C : AbaCtx M) (a0 : SpatialMotionVec)
    (hall : ∀ k : M.Idx, M.controlled k = true → abaD M C k ≠ 0) :
    ∀ i : M.Idx, abaAccOpt M C a0 i = some (abaAcc M C a0 i) := by
  apply idx_strong_induction
  intro i IH
  by_cases h0 : 0 < i.1
  · rw [abaAccOpt, dif_pos h0, IH (M.parent i) (M.hparent i h0)]
    simp only []
    by_cases hc : M.controlled i = true
    · rw [if_pos hc, if_neg (hall i hc), abaAcc_pos_controlled M C a0 i h0 hc]
    · rw [if_neg hc, abaAcc_pos_fixed M C a0 i h0 (Bool.eq_false_iff.mpr hc)]
  · rw [abaAccOpt, dif_neg h0, abaAcc_base M C a0 i h0]

theorem abaQddOpt_all (M : RobotModel) (C : AbaCtx M) (a0 : SpatialMotionVec)
    (hall : ∀ k : M.Idx, M.controlled k = true → abaD M C k ≠ 0)
    (i : M.Idx) (hci : M.controlled i = true) :
    abaQddOpt M C a0 i = some (abaQdd M C a0 i) := by
  unfold abaQddOpt
  rw [abaAccOpt_all M C a0 hall (M.parent i)]
  simp only []
  rw [if_neg (hall i hci)]
  rfl

/-- The forward solve of a joint whose own divisor `d` is zero fails at
that division, whatever happened upstream. -/
theorem abaQddOpt_none_self (M : RobotModel) (C : AbaCtx M)
    (a0 : SpatialMotionVec) (i : M.Idx) (h0 : abaD M C i = 0) :
    abaQddOpt M C a0 i = none := by
  unfold abaQddOpt
  cases habs : abaAccOpt M C a0 (M.parent i) with
  | none => rfl
  | some pa =>
    simp only []
    rw [if_pos h0]

theorem fd_eps_characterization (M : RobotModel) (eps : ℚ)
    (q qd f : Fin M.nDofs → ℚ) (g d : Bool) :
    M.compute_forward_dynamics_eps eps q qd f g d
      = if 0 < M.nDofs ∧ (∀ i : M.Idx, M.controlled i = true →
            abaD M (M.abaCtxOf eps q qd f d) i ≠ 0)
        then some (fun j => abaQdd M (M.abaCtxOf eps q qd f d) (baseAccOf g) (M.cj j))
        else none := by
  by_cases hnd : M.nDofs = 0
  · have hup : M.update_kinematic_state q qd = none := by
      unfold RobotModel.update_kinematic_state
      rw [if_pos hnd]
    have hneg : ¬(0 < M.nDofs ∧ (∀ i : M.Idx, M.controlled i = true →
        abaD M (M.abaCtxOf eps q qd f d) i ≠ 0)) := by
      intro hc
      exact absurd hc.1 (by omega)
    rw [if_neg hneg]
    unfold RobotModel.compute_forward_dynamics_eps
    rw [hup]
  · have hup : M.update_kinematic_state q qd
        = some (M.sweepPoses q, M.sweepVels q qd) := by
      unfold RobotModel.update_kinematic_state
      rw [if_neg hnd]
    cases d
    · simp only [RobotModel.compute_forward_dynamics_eps, hup, RobotModel.abaCtxOf,
        Bool.false_eq_true, if_false]
      by_cases hd : ∀ i : M.Idx, M.controlled i = true →
          abaD M ⟨M.X q, M.sweepVels q qd, M.joint_vel_of qd, M.jointVal f, eps⟩ i ≠ 0
      · rw [dif_pos (fun j => by
            rw [abaQddOpt_all M _ _ hd (M.cj j) (controlled_cj M j)]; rfl),
          if_pos (And.intro (Nat.pos_of_ne_zero hnd) hd)]
        congr 1
        funext j
        exact Option.some_injective _ (by
          rw [Option.some_get, abaQddOpt_all M _ _ hd (M.cj j) (controlled_cj M j)])
      · have hns : ¬ ∀ j : Fin M.nDofs, (abaQddOpt M ⟨M.X q, M.sweepVels q qd,
            M.joint_vel_of qd, M.jointVal f, eps⟩ (baseAccOf g) (M.cj j)).isSome
              = true := by
          intro hsome
          push_neg at hd
          obtain ⟨i, hci, hdi⟩ := hd
          have hmem : i ∈ M.controlledList := (mem_controlledList M i).mpr hci
          have hj := hsome ⟨M.dofIdx i, List.indexOf_lt_length.mpr hmem⟩
          rw [cj_dofIdx M i hmem, abaQddOpt_none_self M _ _ i hdi] at hj
          exact Bool.false_ne_true hj
        rw [dif_neg hns, if_neg (fun hc => hd hc.2)]
    · simp only [RobotModel.compute_forward_dynamics_eps, hup, RobotModel.abaCtxOf,
        if_true]
      by_cases hd : ∀ i : M.Idx, M.controlled i = true →
          abaD M ⟨M.X q, M.sweepVels q qd, M.joint_vel_of qd,
            M.jointVal (fun j => f j - M.dampingConst j * qd j), eps⟩ i ≠ 0
      · rw [dif_pos (fun j => by
            rw [abaQddOpt_all M _ _ hd (M.cj j) (controlled_cj M j)]; rfl),
          if_pos (And.intro (Nat.pos_of_ne_zero hnd) hd)]
        congr 1
        funext j
        exact Option.some_injective _ (by
          rw [Option.some_get, abaQddOpt_all M _ _ hd (M.cj j) (controlled_cj M j)])
      · have hns : ¬ ∀ j : Fin M.nDofs, (abaQddOpt M ⟨M.X q, M.sweepVels q qd,
            M.joint_vel_of qd, M.jointVal (fun j => f j - M.dampingConst j * qd j),
              eps⟩ (baseAccOf g) (M.cj j)).isSome = true := by
          intro hsome
          push_neg at hd
          obtain ⟨i, hci, hdi⟩ := hd
          have hmem : i ∈ M.controlledList := (mem_controlledList M i).mpr hci
          have hj := hsome ⟨M.dofIdx i, List.indexOf_lt_length.mpr hmem⟩
          rw [cj_dofIdx M i hmem, abaQddOpt_none_self M _ _ i hdi] at hj
          exact Bool.false_ne_true hj
        rw [dif_neg hns, if_neg (fun hc => hd hc.2)]

theorem skew_zero : skew 0 = 0 := by
  funext i j
  fin_cases i <;> fin_cases j <;>
    simp [skew, Matrix.vecHead, Matrix.vecTail, Pi.zero_apply]

theorem abaIP_leaf (M : RobotModel) (C : AbaCtx M) (i : M.Idx) (h0 : ¬ i.1 = 0)
    (hch : M.childrenL i = []) :
    abaIP M C i = ((M.inertia i).get_spatial_mat, C.pA0 i) := by
  rw [abaIP, if_neg h0, hch]
  simp only [List.attach_nil, List.map_nil, List.sum_nil, add_zero]
  rw [show sfvSum [] = sfvZero from rfl, sfv_add_zero]

theorem spatialMat_zero_inertia :
    SpatialRigidBodyInertia.get_spatial_mat ⟨0, 0, 0⟩ = 0 := by
  unfold SpatialRigidBodyInertia.get_spatial_mat
  simp only [zero_smul, smul_zero, skew_zero, Matrix.transpose_zero, add_zero, zero_add,
    Matrix.mul_zero]
  exact b66_zero

theorem abaD_robotVirtual (C : AbaCtx robotVirtual) : abaD robotVirtual C 1 = 0 := by
  unfold abaD abaU6 abaIA
  rw [abaIP_leaf robotVirtual C 1 (by decide) (by decide)]
  rw [show robotVirtual.inertia 1 = ⟨0, 0, 0⟩ from rfl, spatialMat_zero_inertia]
  rw [Matrix.zero_mulVec, Matrix.dotProduct_zero]

/-- C2 counterexample: `compute_forward_dynamics` applied to a robot whose
single controlled link is a zero-mass, zero-inertia "virtual" link reaches
the unguarded division `(1.0 / body.d)` of the ABA forward sweep with
`d = 0`, i.e. a float division by zero (Inf/NaN): the embedding marks the
nonfinite result as `none`, on the all-zeroes finite input. -/
theorem claim_C2_counterexample :
    robotVirtual.compute_forward_dynamics 0 0 0 false false = none := by
  unfold RobotModel.compute_forward_dynamics
  rw [fd_eps_characterization, if_neg]
  intro hc
  exact absurd (abaD_robotVirtual _) (hc.2 1 (by decide))

/-- C2 amended: the two divisions of the ABA backward sweep are guarded by
the additive `1e-37`, but the per-joint acceleration solve of the forward
sweep (line 881) divides by the unguarded effective inertia `d`: whenever
any controlled joint's articulated effective inertia is exactly zero, that
joint's solve divides by zero (`abaQddOpt` fails at the division site), so
the returned accelerations are nonfinite — on every finite input and for
every backward-sweep epsilon. -/
theorem claim_C2_amended_unguarded_solve (M : RobotModel) (eps : ℚ)
    (q qd f : Fin M.nDofs → ℚ) (g d : Bool) (i : M.Idx)
    (hc : M.controlled i = true)
    (h0 : abaD M (M.abaCtxOf eps q qd f d) i = 0) :
    M.compute_forward_dynamics_eps eps q qd f g d = none := by
  rw [fd_eps_characterization, if_neg]
  intro hcon
  exact hcon.2 i hc h0

/-- Witness for the amended C2: the virtual-link robot at the source's own
epsilon — the backward sweep is eps-guarded, but the forward solve's
divisor is `d = 0` and the call fails. -/
theorem claim_C2_amended_unguarded_solve_witness :
    robotVirtual.compute_forward_dynamics_eps (1 / 10 ^ 37) 0 0 0 false false
      = none :=
  claim_C2_amended_unguarded_solve robotVirtual (1 / 10 ^ 37) 0 0 0 false false 1
    (by decide) (abaD_robotVirtual _)

/-! ### Torque extraction rejects non-aligned axes -/

theorem axis_index_diag : axis_index ![3 / 5, 4 / 5, 0] = none := by
  unfold axis_index
  rw [show (List.finRange 3) = [0, 1, 2] from rfl]
  have hfil : List.filter (fun k => decide (![3 / 5, 4 / 5, 0] k ≠ (0 : ℚ))) [0, 1, 2]
      = [0, 1] := by
    simp only [List.filter_cons, List.filter_nil, decide_eq_true_eq]
    norm_num
  rw [hfil]

/-- C3 counterexample: a controlled revolute joint with the unit axis
`(3/5, 4/5, 0)` — not aligned with any coordinate axis — makes
`compute_inverse_dynamics` raise at `int(torch.where(axis)[0])` (modelled as
`none`), so no torque, let alone the claimed projection, is returned. -/
theorem claim_C3_counterexample :
    robotDiag.compute_inverse_dynamics 0 0 0 true false = none := by
  have hup : robotDiag.update_kinematic_state 0 0
      = some (robotDiag.sweepPoses 0, robotDiag.sweepVels 0 0) := by
    unfold RobotModel.update_kinematic_state
    rw [if_neg (by decide)]
  simp only [RobotModel.compute_inverse_dynamics, hup]
  rw [dif_neg]
  intro hall
  have h0 := hall ⟨0, by decide⟩
  rw [show robotDiag.joint_axis (robotDiag.cj ⟨0, by decide⟩) = ![3 / 5, 4 / 5, 0]
    from rfl] at h0
  unfold jointTorqueProj at h0
  rw [axis_index_diag] at h0
  exact Bool.false_ne_true h0

/-- C3 amended: for controlled joints whose unit axis is aligned with a
coordinate axis — the only axes `int(torch.where(axis)[0])` accepts — and
with `use_damping = False`, the torque returned by
`compute_inverse_dynamics` for each controlled joint equals the projection
of the link's accumulated spatial force (after the backward sweep of
`iterative_newton_euler`) onto the joint's rotational axis,
`force.ang ⬝ axis`.  Non-aligned axes raise, and prismatic joints would
also be projected through the angular component only. -/
theorem claim_C3_amended_torque_projection (M : RobotModel)
    (q qd qdd : Fin M.nDofs → ℚ) (g : Bool) (hnd : 0 < M.nDofs)
    (haxis : ∀ i : M.Idx, M.controlled i = true →
      ∃ k : Fin 3, M.joint_axis i = e3 k ∨ M.joint_axis i = -e3 k) :
    ∃ τ : Fin M.nDofs → ℚ,
      M.compute_inverse_dynamics q qd qdd g false = some τ
        ∧ ∀ j : Fin M.nDofs,
            τ j = (M.neForceOf q qd qdd g (M.cj j)).dot (M.S6 (M.cj j)) := by
  refine ⟨_, ID_eq M q qd qdd g false hnd haxis, ?_⟩
  intro j
  simp

/-- Witness for the amended C3 on the one-joint robot `robotW`. -/
theorem claim_C3_amended_torque_projection_witness :
    ∃ τ : Fin robotW.nDofs → ℚ,
      robotW.compute_inverse_dynamics 0 0 0 false false = some τ
        ∧ ∀ j : Fin robotW.nDofs,
            τ j = (robotW.neForceOf 0 0 0 false (robotW.cj j)).dot
              (robotW.S6 (robotW.cj j)) :=
  claim_C3_amended_torque_projection robotW 0 0 0 false (by decide) (by decide)

/-! ### The damped-least-squares IK loop returns the best-seen iterate -/

theorem ikLoop_unfold (n : ℕ) (errN : (Fin n → ℚ) → ℚ)
    (updV : (Fin n → ℚ) → Fin n → ℚ) (vnorm : (Fin n → ℚ) → ℚ)
    (prec minupd lr : ℚ) (cap i : ℕ) (conf best : Fin n → ℚ) (minErr : Option ℚ) :
    ikLoop n errN updV vnorm prec minupd lr cap i conf best minErr =
      (let e := errN conf
       let b2 : (Fin n → ℚ) × Option ℚ :=
         if minErr.all (fun m => decide (e < m)) then (conf, some e) else (best, minErr)
       if e < prec then b2.1
       else if cap ≤ i then b2.1
       else if vnorm (updV conf) < minupd then b2.1
       else ikLoop n errN updV vnorm prec minupd lr cap (i + 1)
         (fun k => conf k + lr * updV conf k) b2.1 b2.2) := by
  rw [ikLoop]
  simp only [dite_eq_ite]

theorem ikEvals_unfold (n : ℕ) (errN : (Fin n → ℚ) → ℚ)
    (updV : (Fin n → ℚ) → Fin n → ℚ) (vnorm : (Fin n → ℚ) → ℚ)
    (prec minupd lr : ℚ) (cap i : ℕ) (conf : Fin n → ℚ) :
    ikEvals n errN updV vnorm prec minupd lr cap i conf =
      conf ::
        (if errN conf < prec then []
         else if cap ≤ i then []
         else if vnorm (updV conf) < minupd then []
         else ikEvals n errN updV vnorm prec minupd lr cap (i + 1)
           (fun k => conf k + lr * updV conf k)) := by
  rw [ikEvals]
  simp only [dite_eq_ite]

theorem ikLoop_some_spec (n : ℕ) (errN : (Fin n → ℚ) → ℚ)
    (updV : (Fin n → ℚ) → Fin n → ℚ) (vnorm : (Fin n → ℚ) → ℚ)
    (prec minupd lr : ℚ) (cap : ℕ) :
    ∀ k i : ℕ, ∀ conf best : Fin n → ℚ, ∀ m : ℚ, cap - i ≤ k →
      ((ikLoop n errN updV vnorm prec minupd lr cap i conf best (some m)
          ∈ ikEvals n errN updV vnorm prec minupd lr cap i conf
        ∧ errN (ikLoop n errN updV vnorm prec minupd lr cap i conf best (some m)) ≤ m
        ∧ ∀ c ∈ ikEvals n errN updV vnorm prec minupd lr cap i conf,
            errN (ikLoop n errN updV vnorm prec minupd lr cap i conf best (some m))
              ≤ errN c)
      ∨ (ikLoop n errN updV vnorm prec minupd lr cap i conf best (some m) = best
        ∧ ∀ c ∈ ikEvals n errN updV vnorm prec minupd lr cap i conf, m ≤ errN c)) := by
  intro k
  induction k with
  | zero =>
    intro i conf best m hk
    have hcap : cap ≤ i := by omega
    rw [ikLoop_unfold, ikEvals_unfold]
    simp only [Option.all_some, decide_eq_true_eq]
    by_cases hem : errN conf < m
    · rw [if_pos hem]
      by_cases hprec : errN conf < prec
      · rw [if_pos hprec, if_pos hprec]
        refine Or.inl ⟨List.mem_cons_self _ _, le_of_lt hem, ?_⟩
        intro c hc
        rcases List.mem_cons.mp hc with hc | hc
        · rw [hc]
        · exact absurd hc (List.not_mem_nil c)
      · rw [if_neg hprec, if_pos hcap, if_neg hprec, if_pos hcap]
        refine Or.inl ⟨List.mem_cons_self _ _, le_of_lt hem, ?_⟩
        intro c hc
        rcases List.mem_cons.mp hc with hc | hc
        · rw [hc]
        · exact absurd hc (List.not_mem_nil c)
    · rw [if_neg hem]
      have hme : m ≤ errN conf := le_of_not_lt hem
      by_cases hprec : errN conf < prec
      · rw [if_pos hprec, if_pos hprec]
        refine Or.inr ⟨rfl, ?_⟩
        intro c hc
        rcases List.mem_cons.mp hc with hc | hc
        · rw [hc]; exact hme
        · exact absurd hc (List.not_mem_nil c)
      · rw [if_neg hprec, if_pos hcap, if_neg hprec, if_pos hcap]
        refine Or.inr ⟨rfl, ?_⟩
        intro c hc
        rcases List.mem_cons.mp hc with hc | hc
        · rw [hc]; exact hme
        · exact absurd hc (List.not_mem_nil c)
  | succ k ih =>
    intro i conf best m hk
    rw [ikLoop_unfold, ikEvals_unfold]
    simp only [Option.all_some, decide_eq_true_eq]
    by_cases hstop : errN conf < prec ∨ cap ≤ i ∨ vnorm (updV conf) < minupd
    · have htail : (if errN conf < prec then ([] : List (Fin n → ℚ))
          else if cap ≤ i then []
          else if vnorm (updV conf) < minupd then []
          else ikEvals n errN updV vnorm prec minupd lr cap (i + 1)
            (fun k => conf k + lr * updV conf k)) = []
          ∧ ∀ b2v : Fin n → ℚ,
            (if errN conf < prec then b2v
             else if cap ≤ i then b2v
             else if vnorm (updV conf) < minupd then b2v
             else ikLoop n errN updV vnorm prec minupd lr cap (i + 1)
               (fun k => conf k + lr * updV conf k) b2v
                 (if errN conf < m then some (errN conf) else some m)) = b2v := by
        rcases hstop with h | h | h
        · constructor
          · rw [if_pos h]
          · intro b2v; rw [if_pos h]
        · constructor
          · by_cases h1 : errN conf < prec
            · rw [if_pos h1]
            · rw [if_neg h1, if_pos h]
          · intro b2v
            by_cases h1 : errN conf < prec
            · rw [if_pos h1]
            · rw [if_neg h1, if_pos h]
        · constructor
          · by_cases h1 : errN conf < prec
            · rw [if_pos h1]
            · by_cases h2 : cap ≤ i
              · rw [if_neg h1, if_pos h2]
              · rw [if_neg h1, if_neg h2, if_pos h]
          · intro b2v
            by_cases h1 : errN conf < prec
            · rw [if_pos h1]
            · by_cases h2 : cap ≤ i
              · rw [if_neg h1, if_pos h2]
              · rw [if_neg h1, if_neg h2, if_pos h]
      by_cases hem : errN conf < m
      · rw [if_pos hem]
        simp only []
        rw [show (if errN conf < prec then conf
            else if cap ≤ i then conf
            else if vnorm (updV conf) < minupd then conf
            else ikLoop n errN updV vnorm prec minupd lr cap (i + 1)
              (fun k => conf k + lr * updV conf k) conf (some (errN conf))) = conf from by
          have h2 := htail.2 conf
          rw [if_pos hem] at h2
          exact h2]
        rw [htail.1]
        refine Or.inl ⟨List.mem_cons_self _ _, le_of_lt hem, ?_⟩
        intro c hc
        rcases List.mem_cons.mp hc with hc | hc
        · rw [hc]
        · exact absurd hc (List.not_mem_nil c)
      · rw [if_neg hem]
        simp only []
        rw [show (if errN conf < prec then best
            else if cap ≤ i then best
            else if vnorm (updV conf) < minupd then best
            else ikLoop n errN updV vnorm prec minupd lr cap (i + 1)
              (fun k => conf k + lr * updV conf k) best (some m)) = best from by
          have h2 := htail.2 best
          rw [if_neg hem] at h2
          exact h2]
        rw [htail.1]
        refine Or.inr ⟨rfl, ?_⟩
        intro c hc
        rcases List.mem_cons.mp hc with hc | hc
        · rw [hc]; exact le_of_not_lt hem
        · exact absurd hc (List.not_mem_nil c)
    · push_neg at hstop
      obtain ⟨hprec, hcap, hupd⟩ := hstop
      rw [if_neg (not_lt.mpr hprec), if_neg (not_le.mpr hcap),
        if_neg (not_lt.mpr hupd), if_neg (not_lt.mpr hprec),
        if_neg (not_le.mpr hcap), if_neg (not_lt.mpr hupd)]
      have hk2 : cap - (i + 1) ≤ k := by omega
      by_cases hem : errN conf < m
      · rw [if_pos hem]
        simp only []
        have hrec := ih (i + 1) (fun k => conf k + lr * updV conf k) conf
          (errN conf) hk2
        rcases hrec with ⟨hmem, hle, hmin⟩ | ⟨heq, hge⟩
        · refine Or.inl ⟨List.mem_cons_of_mem _ hmem, le_trans hle (le_of_lt hem), ?_⟩
          intro c hc
          rcases List.mem_cons.mp hc with hc | hc
          · rw [hc]; exact hle
          · exact hmin c hc
        · rw [heq]
          refine Or.inl ⟨List.mem_cons_self _ _, le_of_lt hem, ?_⟩
          intro c hc
          rcases List.mem_cons.mp hc with hc | hc
          · rw [hc]
          · exact hge c hc
      · rw [if_neg hem]
        simp only []
        have hme : m ≤ errN conf := le_of_not_lt hem
        have hrec := ih (i + 1) (fun k => conf k + lr * updV conf k) best m hk2
        rcases hrec with ⟨hmem, hle, hmin⟩ | ⟨heq, hge⟩
        · refine Or.inl ⟨List.mem_cons_of_mem _ hmem, hle, ?_⟩
          intro c hc
          rcases List.mem_cons.mp hc with hc | hc
          · rw [hc]; exact le_trans hle hme
          · exact hmin c hc
        · rw [heq]
          refine Or.inr ⟨rfl, ?_⟩
          intro c hc
          rcases List.mem_cons.mp hc with hc | hc
          · rw [hc]; exact hme
          · exact hge c hc

theorem ikLoop_entry_best (n : ℕ) (errN : (Fin n → ℚ) → ℚ)
    (updV : (Fin n → ℚ) → Fin n → ℚ) (vnorm : (Fin n → ℚ) → ℚ)
    (prec minupd lr : ℚ) (cap i : ℕ) (conf : Fin n → ℚ) :
    ikLoop n errN updV vnorm prec minupd lr cap i conf conf none
      ∈ ikEvals n errN updV vnorm prec minupd lr cap i conf
    ∧ ∀ c ∈ ikEvals n errN updV vnorm prec minupd lr cap i conf,
        errN (ikLoop n errN updV vnorm prec minupd lr cap i conf conf none) ≤ errN c := by
  rw [ikLoop_unfold, ikEvals_unfold]
  simp only [Option.all_none, if_true]
  by_cases hprec : errN conf < prec
  · rw [if_pos hprec, if_pos hprec]
    refine ⟨List.mem_cons_self _ _, ?_⟩
    intro c hc
    rcases List.mem_cons.mp hc with hc | hc
    · rw [hc]
    · exact absurd hc (List.not_mem_nil c)
  · rw [if_neg hprec, if_neg hprec]
    by_cases hcap : cap ≤ i
    · rw [if_pos hcap, if_pos hcap]
      refine ⟨List.mem_cons_self _ _, ?_⟩
      intro c hc
      rcases List.mem_cons.mp hc with hc | hc
      · rw [hc]
      · exact absurd hc (List.not_mem_nil c)
    · rw [if_neg hcap, if_neg hcap]
      by_cases hupd : vnorm (updV conf) < minupd
      · rw [if_pos hupd, if_pos hupd]
        refine ⟨List.mem_cons_self _ _, ?_⟩
        intro c hc
        rcases List.mem_cons.mp hc with hc | hc
        · rw [hc]
        · exact absurd hc (List.not_mem_nil c)
      · rw [if_neg hupd, if_neg hupd]
        have hspec := ikLoop_some_spec n errN updV vnorm prec minupd lr cap
          (cap - (i + 1)) (i + 1) (fun k => conf k + lr * updV conf k) conf
          (errN conf) (le_refl _)
        rcases hspec with ⟨hmem, hle, hmin⟩ | ⟨heq, hge⟩
        · refine ⟨List.mem_cons_of_mem _ hmem, ?_⟩
          intro c hc
          rcases List.mem_cons.mp hc with hc | hc
          · rw [hc]; exact hle
          · exact hmin c hc
        · rw [heq]
          refine ⟨List.mem_cons_self _ _, ?_⟩
          intro c hc
          rcases List.mem_cons.mp hc with hc | hc
          · rw [hc]
          · exact hge c hc

/-- **C7.** The damped-least-squares IK loop of
`compute_inverse_kinematics_jac` keeps a best-seen configuration: on every
pass it evaluates the current iterate's pose error, records the iterate as
`best_conf` exactly when its error improves on the best error seen so far
(initially `torch.inf`, so the first iterate is always recorded), and on any
of the three exits (error below `precision`, iteration cap reached, update
norm below `min_update_norm`) returns `best_conf` — hence the returned
configuration is one of the evaluated iterates and its error is minimal
among all of them. In the batch loop each sample's row starts from the
previous sample's returned configuration (row 0 from `init_confs`) and
enjoys the same best-seen guarantee. -/
theorem claim_C7_ik_best_seen (n : ℕ) {G : Type} (errNg : G → (Fin n → ℚ) → ℚ)
    (updVg : G → (Fin n → ℚ) → Fin n → ℚ) (vnorm : (Fin n → ℚ) → ℚ)
    (prec minupd lr : ℚ) (cap : ℕ) :
    (∀ (g : G) (start : Fin n → ℚ),
        ikLoop n (errNg g) (updVg g) vnorm prec minupd lr cap 0 start start none
          ∈ ikEvals n (errNg g) (updVg g) vnorm prec minupd lr cap 0 start
        ∧ ∀ c ∈ ikEvals n (errNg g) (updVg g) vnorm prec minupd lr cap 0 start,
            errNg g
                (ikLoop n (errNg g) (updVg g) vnorm prec minupd lr cap 0 start
                  start none)
              ≤ errNg g c)
    ∧ ∀ (g : G) (rest : List G) (init : Fin n → ℚ),
        ikJacBatch n errNg updVg vnorm prec minupd lr cap (g :: rest) init
          = ikLoop n (errNg g) (updVg g) vnorm prec minupd lr cap 0 init init none
            :: ikJacBatch n errNg updVg vnorm prec minupd lr cap rest
                (ikLoop n (errNg g) (updVg g) vnorm prec minupd lr cap 0 init
                  init none) := by
  exact ⟨fun g start =>
      ikLoop_entry_best n (errNg g) (updVg g) vnorm prec minupd lr cap 0 start,
    fun g rest init => rfl⟩

/-! ### Shape checks: which arguments are validated -/

theorem spatialMat_robotW :
    SpatialRigidBodyInertia.get_spatial_mat ⟨1, 0, 1⟩ = b66 1 0 0 1 := by
  unfold SpatialRigidBodyInertia.get_spatial_mat
  simp only [smul_zero, skew_zero, Matrix.transpose_zero, Matrix.mul_zero, add_zero,
    one_smul]

theorem abaD_robotW (C : AbaCtx robotW) : abaD robotW C 1 = 1 := by
  unfold abaD abaU6 abaIA
  rw [abaIP_leaf robotW C 1 (by decide) (by decide)]
  rw [show robotW.inertia 1 = ⟨1, 0, 1⟩ from rfl, spatialMat_robotW]
  rw [show (robotW.S6 1).get_vector = v6 (e3 2) 0 from rfl]
  rw [b66_mulVec]
  simp only [Matrix.one_mulVec, Matrix.zero_mulVec, add_zero, zero_add]
  rw [v6_dotProduct]
  norm_num [Matrix.dotProduct, e3, Fin.sum_univ_three]

theorem fd_isSome_robotW (q qd f : Fin robotW.nDofs → ℚ) (g : Bool) :
    (robotW.compute_forward_dynamics q qd f g false).isSome = true := by
  unfold RobotModel.compute_forward_dynamics
  rw [fd_eps_characterization, if_pos]
  · rfl
  refine ⟨by decide, fun i hi => ?_⟩
  fin_cases i
  · exact absurd hi (by decide)
  · show abaD robotW (robotW.abaCtxOf (1 / 10 ^ 37) q qd f false) 1 ≠ 0
    rw [abaD_robotW]
    exact one_ne_zero

theorem getD_take (l : List ℚ) (n j : ℕ) (h : j < n) :
    (l.take n).getD j 0 = l.getD j 0 := by
  induction l generalizing n j with
  | nil => rw [List.take_nil]
  | cons a t ih =>
    match n, h with
    | m + 1, h =>
      match j with
      | 0 => rfl
      | k + 1 =>
        show (t.take m).getD k 0 = t.getD k 0
        exact ih m k (by omega)

/-- C8 counterexample: `compute_forward_dynamics` never checks the per-row
dimensionality of the applied-force tensor `f` (its asserts cover only `q`
and `qd`).  On the one-dof robot `robotW`, a call whose `f` row has two
entries instead of `n_dofs = 1` does not fail: with `use_damping = False` it
runs the full articulated-body algorithm and returns accelerations, so the
claimed immediate failure with no partial computation does not happen. -/
theorem claim_C8_counterexample :
    ((robotW.compute_forward_dynamics_list [0] [0] [0, 5] false false).1).isSome
      = true := by
  unfold RobotModel.compute_forward_dynamics_list
  rw [if_pos (by decide : ([(0 : ℚ)].length = robotW.nDofs
    ∧ [(0 : ℚ)].length = robotW.nDofs))]
  simp only []
  rw [if_neg (by decide : ¬ ((false : Bool) = true
    ∧ ¬ ([(0 : ℚ), 5].length = robotW.nDofs ∨ robotW.nDofs = 1)))]
  rw [if_pos (by decide : robotW.nDofs ≤ [(0 : ℚ), 5].length)]
  show ((robotW.compute_forward_dynamics (fun j => [(0 : ℚ)].getD j.1 0)
    (fun j => [(0 : ℚ)].getD j.1 0) (fun j => [(0 : ℚ), 5].getD j.1 0)
    false false).map List.ofFn).isSome = true
  obtain ⟨v, hv⟩ := Option.isSome_iff_exists.mp
    (fd_isSome_robotW (fun j => [(0 : ℚ)].getD j.1 0)
      (fun j => [(0 : ℚ)].getD j.1 0) (fun j => [(0 : ℚ), 5].getD j.1 0) false)
  rw [hv]
  rfl

/-- C8 amended: batch-size disagreement between jointly-supplied tensors is
caught by the `tensor_check` decorator before the wrapped method runs, and
the per-row dimensionality of `q`, `qd` (and `qdd_des` in inverse dynamics)
is asserted against `n_dofs` before anything is computed or modified; but
`compute_forward_dynamics` never checks the per-row width of `f`.  Without
damping, a too-wide `f` runs to completion with the extra entries ignored,
while a too-narrow `f` raises IndexError only mid-backward-sweep at
`f[:, joint_idx]`.  With damping, the in-place `f -= damping·qd`
broadcasts: whenever `n_dofs = 1` it succeeds and rewrites every entry of
the caller's `f`, whatever its width; only with `n_dofs ≠ 1` and differing
widths does it raise before writing. -/
theorem claim_C8_amended_shape_checks (M : RobotModel) :
    (∀ (g : List (List (List ℚ)) → Option (List (List ℚ))) (a : Tens)
        (rest : List Tens),
        rest.all (fun b => decide (tshape b = tshape a)) = false →
        tensor_check_call g (a :: rest) = none)
    ∧ (∀ (q qd qdd : List ℚ) (ig ud : Bool),
        ¬(q.length = M.nDofs ∧ qd.length = M.nDofs ∧ qdd.length = M.nDofs) →
        M.compute_inverse_dynamics_list q qd qdd ig ud = none)
    ∧ (∀ (q qd f : List ℚ) (ig ud : Bool),
        ¬(q.length = M.nDofs ∧ qd.length = M.nDofs) →
        M.compute_forward_dynamics_list q qd f ig ud = (none, f))
    ∧ (∀ (q qd f : List ℚ) (ig : Bool),
        q.length = M.nDofs → qd.length = M.nDofs → M.nDofs ≤ f.length →
        (M.compute_forward_dynamics_list q qd f ig false).1
          = (M.compute_forward_dynamics_list q qd (f.take M.nDofs) ig false).1)
    ∧ (∀ (q qd f : List ℚ) (ig : Bool),
        q.length = M.nDofs → qd.length = M.nDofs → f.length < M.nDofs →
        M.compute_forward_dynamics_list q qd f ig false = (none, f))
    ∧ (∀ (q qd f : List ℚ) (ig : Bool),
        q.length = M.nDofs → qd.length = M.nDofs →
        ¬(f.length = M.nDofs ∨ M.nDofs = 1) →
        M.compute_forward_dynamics_list q qd f ig true = (none, f))
    ∧ (∀ (q qd f : List ℚ) (ig : Bool),
        q.length = M.nDofs → qd.length = M.nDofs → M.nDofs = 1 →
        ¬ f.length = 1 →
        (M.compute_forward_dynamics_list q qd f ig true).2
          = f.map (fun a => a - (List.zipWith (fun c e => c * e)
              (List.ofFn M.dampingConst) qd).headD 0)) := by
  refine ⟨?_, ?_, ?_, ?_, ?_, ?_, ?_⟩
  · intro g a rest hall
    simp only [tensor_check_call, hall, Bool.false_eq_true, if_false]
  · intro q qd qdd ig ud h
    unfold RobotModel.compute_inverse_dynamics_list
    rw [if_neg h]
  · intro q qd f ig ud h
    unfold RobotModel.compute_forward_dynamics_list
    rw [if_neg h]
  · intro q qd f ig hq hqd hf
    have hqq : q.length = M.nDofs ∧ qd.length = M.nDofs := ⟨hq, hqd⟩
    have hA : ¬ ((false : Bool) = true
        ∧ ¬(f.length = M.nDofs ∨ M.nDofs = 1)) :=
      fun hcc => Bool.false_ne_true hcc.1
    have hA2 : ¬ ((false : Bool) = true
        ∧ ¬((f.take M.nDofs).length = M.nDofs ∨ M.nDofs = 1)) :=
      fun hcc => Bool.false_ne_true hcc.1
    have hf2 : M.nDofs ≤ (f.take M.nDofs).length := by
      rw [List.length_take]
      exact le_min (le_refl _) hf
    unfold RobotModel.compute_forward_dynamics_list
    rw [if_pos hqq, if_pos hqq]
    simp only []
    rw [if_neg hA, if_neg hA2, if_pos hf, if_pos hf2]
    show ((M.compute_forward_dynamics (fun j => q.getD j.1 0) (fun j => qd.getD j.1 0)
        (fun j => f.getD j.1 0) ig false).map List.ofFn)
      = ((M.compute_forward_dynamics (fun j => q.getD j.1 0) (fun j => qd.getD j.1 0)
        (fun j => (f.take M.nDofs).getD j.1 0) ig false).map List.ofFn)
    rw [show (fun j : Fin M.nDofs => (f.take M.nDofs).getD j.1 0)
      = (fun j : Fin M.nDofs => f.getD j.1 0) from
        funext fun j => getD_take f M.nDofs j.1 j.2]
  · intro q qd f ig hq hqd hlt
    have hqq : q.length = M.nDofs ∧ qd.length = M.nDofs := ⟨hq, hqd⟩
    have hA : ¬ ((false : Bool) = true
        ∧ ¬(f.length = M.nDofs ∨ M.nDofs = 1)) :=
      fun hcc => Bool.false_ne_true hcc.1
    have hFf : ¬ ((false : Bool) = true) := Bool.false_ne_true
    unfold RobotModel.compute_forward_dynamics_list
    rw [if_pos hqq]
    simp only []
    rw [if_neg hA, if_neg (not_le.mpr hlt), if_neg hFf]
  · intro q qd f ig hq hqd hw
    have hqq : q.length = M.nDofs ∧ qd.length = M.nDofs := ⟨hq, hqd⟩
    have hB : (True ∧ ¬(f.length = M.nDofs ∨ M.nDofs = 1)) := ⟨trivial, hw⟩
    unfold RobotModel.compute_forward_dynamics_list
    rw [if_pos hqq]
    simp only []
    rw [if_pos hB]
  · intro q qd f ig hq hqd h1 hne
    have hqq : q.length = M.nDofs ∧ qd.length = M.nDofs := ⟨hq, hqd⟩
    have hB : ¬ (True ∧ ¬(f.length = M.nDofs ∨ M.nDofs = 1)) :=
      fun hcc => hcc.2 (Or.inr h1)
    have hfne : ¬ f.length = M.nDofs := fun he => hne (he.trans h1)
    unfold RobotModel.compute_forward_dynamics_list
    rw [if_pos hqq]
    simp only []
    rw [if_neg hB]
    by_cases hlen : M.nDofs ≤ f.length
    · rw [if_pos hlen, if_pos trivial, if_neg hfne, if_pos h1]
    · rw [if_neg hlen, if_pos trivial, if_neg hfne, if_pos h1]

/-- Witness for the amended C8: a batched/unbatched batch-shape mismatch is
rejected before the wrapped function runs; wrong-width `q` is rejected by
both dynamics entry points with the caller's `f` untouched; without damping
a too-wide `f` row runs with the extra entry ignored and a too-narrow one
fails; with damping a width mismatch on the one-dof robot broadcasts and
rewrites the caller's `f`, while on the two-dof robot it fails with `f`
unwritten. -/
theorem claim_C8_amended_shape_checks_witness :
    tensor_check_call (fun _ => some []) [Tens.d1 [0], Tens.d2 [[0], [0]]]
        = none
    ∧ robotW.compute_inverse_dynamics_list [0, 0] [0] [0] true false = none
    ∧ robotW.compute_forward_dynamics_list [0, 0] [0] [0] true false = (none, [0])
    ∧ (robotW.compute_forward_dynamics_list [0] [0] [0, 5] false false).1
        = (robotW.compute_forward_dynamics_list [0] [0]
            ([0, 5].take robotW.nDofs) false false).1
    ∧ robotW.compute_forward_dynamics_list [0] [0] [] false false = (none, [])
    ∧ robotSerial2.compute_forward_dynamics_list [0, 0] [0, 0] [3] false true
        = (none, [3])
    ∧ (robotW.compute_forward_dynamics_list [0] [2] [0, 5] false true).2
        = [0, 5].map (fun a => a - (List.zipWith (fun c e => c * e)
            (List.ofFn robotW.dampingConst) [2]).headD 0) :=
  ⟨(claim_C8_amended_shape_checks robotW).1 (fun _ => some []) (Tens.d1 [0])
      [Tens.d2 [[0], [0]]] (by decide),
   (claim_C8_amended_shape_checks robotW).2.1 [0, 0] [0] [0] true false (by decide),
   (claim_C8_amended_shape_checks robotW).2.2.1 [0, 0] [0] [0] true false (by decide),
   (claim_C8_amended_shape_checks robotW).2.2.2.1 [0] [0] [0, 5] false
     (by decide) (by decide) (by decide),
   (claim_C8_amended_shape_checks robotW).2.2.2.2.1 [0] [0] [] false
     (by decide) (by decide) (by decide),
   (claim_C8_amended_shape_checks robotSerial2).2.2.2.2.2.1 [0, 0] [0, 0] [3] false
     (by decide) (by decide) (by decide),
   (claim_C8_amended_shape_checks robotW).2.2.2.2.2.2 [0] [2] [0, 5] false
     (by decide) (by decide) (by decide) (by decide)⟩

/-! ### Unbatched convenience inputs -/

/-- C9 counterexample: `compute_inverse_kinematics_jac` is not decorated
with `tensor_check`; its own entry assert `trans.ndim == 2` rejects a
1-dimensional (single-row) target translation outright instead of treating
it as a batch of one, so the claimed unbatched convenience input raises. -/
theorem claim_C9_counterexample :
    ikJacEntryCheck robotW.nDofs (Tens.d1 [0, 0, 0]) (Tens.d2 [[1, 0, 0, 0]]) [0]
      = false := rfl

/-- C9 amended: entry points decorated with `tensor_check` do accept a
1-dimensional tensor argument, unsqueeze it to a batch of one, and strip the
batch dimension from the result, which equals row 0 of the corresponding
batched (one-row) call; but `compute_inverse_kinematics_jac` is not
decorated and its `assert trans.ndim == 2` rejects 1-dimensional input. -/
theorem claim_C9_amended_unbatched_row (nd : ℕ) :
    (∀ (g : List (List (List ℚ)) → Option (List (List ℚ))) (v : List ℚ)
        (rest : List Tens) (r : List ℚ) (out : List (List ℚ)),
        (∀ b ∈ rest, ∃ w, b = Tens.d1 w) →
        g ((Tens.d1 v :: rest).map unbatch1) = some (r :: out) →
        tensor_check_call g (Tens.d1 v :: rest) = some (Tens.d1 r)
          ∧ tensor_check_call g
              ((Tens.d1 v :: rest).map (fun t => Tens.d2 (unbatch1 t)))
            = some (Tens.d2 (r :: out)))
    ∧ ∀ (trans rot : Tens) (init : List ℚ) (v : List ℚ),
        trans = Tens.d1 v → ikJacEntryCheck nd trans rot init = false := by
  constructor
  · intro g v rest r out hrest hg
    have hall : (rest.all fun b => decide (tshape b = tshape (Tens.d1 v))) = true := by
      rw [List.all_eq_true]
      intro b hb
      obtain ⟨w, hw⟩ := hrest b hb
      rw [hw]
      exact decide_eq_true rfl
    have hco : List.map unbatch1
        ((Tens.d1 v :: rest).map (fun t => Tens.d2 (unbatch1 t)))
        = List.map unbatch1 (Tens.d1 v :: rest) := by
      rw [List.map_map]
      rfl
    have hall2 : ((rest.map (fun t => Tens.d2 (unbatch1 t))).all
        (fun b => decide (tshape b = tshape (Tens.d2 (unbatch1 (Tens.d1 v)))))) = true := by
      rw [List.all_eq_true]
      intro b hb
      obtain ⟨t, ht, hbt⟩ := List.mem_map.mp hb
      obtain ⟨w, hw⟩ := hrest t ht
      rw [← hbt, hw]
      exact decide_eq_true rfl
    constructor
    · simp only [tensor_check_call, hall, if_true, hg]
    · have hg2 : g (List.map unbatch1 (Tens.d2 (unbatch1 (Tens.d1 v))
          :: rest.map (fun t => Tens.d2 (unbatch1 t)))) = some (r :: out) := by
        have hcons : (Tens.d2 (unbatch1 (Tens.d1 v))
            :: rest.map (fun t => Tens.d2 (unbatch1 t)))
            = (Tens.d1 v :: rest).map (fun t => Tens.d2 (unbatch1 t)) := by
          rw [List.map_cons]
        rw [hcons, hco, hg]
      rw [show (Tens.d1 v :: rest).map (fun t => Tens.d2 (unbatch1 t))
        = Tens.d2 (unbatch1 (Tens.d1 v))
          :: rest.map (fun t => Tens.d2 (unbatch1 t)) from List.map_cons _ _ _]
      simp only [tensor_check_call, hall2, if_true, hg2]
  · intro trans rot init v htr
    rw [htr]
    rfl

/-- Witness for the amended C9: a concrete one-argument call with a 1-dim
tensor is unbatched and equals row 0 of the batched call, while the IK entry
check rejects the 1-dim tensor. -/
theorem claim_C9_amended_unbatched_row_witness :
    tensor_check_call (fun _ => some [[7]]) [Tens.d1 [5]] = some (Tens.d1 [7])
    ∧ tensor_check_call (fun _ => some [[7]])
        ([Tens.d1 [5]].map (fun t => Tens.d2 (unbatch1 t))) = some (Tens.d2 [[7]])
    ∧ ikJacEntryCheck 1 (Tens.d1 [0]) (Tens.d2 [[1, 0, 0, 0]]) [0] = false :=
  ⟨((claim_C9_amended_unbatched_row 1).1 (fun _ => some [[7]]) [5] [] [7] []
      (fun b hb => absurd hb (List.not_mem_nil b)) rfl).1,
   ((claim_C9_amended_unbatched_row 1).1 (fun _ => some [[7]]) [5] [] [7] []
      (fun b hb => absurd hb (List.not_mem_nil b)) rfl).2,
   (claim_C9_amended_unbatched_row 1).2 (Tens.d1 [0]) (Tens.d2 [[1, 0, 0, 0]])
     [0] [0] rfl⟩

/-! ### The in-place damping of the applied forces -/

/-- **C10.** On a shape-correct call, `compute_forward_dynamics` with
`use_damping = True` executes `f -= damping_const·qd` in place, so after the
call the caller's force tensor holds the damped forces
`f - damping_const·qd` (entrywise, with each controlled joint's damping
constant); with `use_damping = False` (the default) the caller's `f` is left
unchanged by every call, whatever its shapes. -/
theorem claim_C10_f_frame_effect (M : RobotModel) (q qd f : List ℚ) (ig : Bool)
    (hq : q.length = M.nDofs) (hqd : qd.length = M.nDofs)
    (hf : f.length = M.nDofs) :
    (M.compute_forward_dynamics_list q qd f ig true).2
      = List.zipWith (fun a b => a - b) f
          (List.zipWith (fun c e => c * e) (List.ofFn M.dampingConst) qd)
    ∧ ∀ q2 qd2 f2 : List ℚ,
        (M.compute_forward_dynamics_list q2 qd2 f2 ig false).2 = f2 := by
  constructor
  · have hqq : q.length = M.nDofs ∧ qd.length = M.nDofs := ⟨hq, hqd⟩
    have hB : ¬ (True ∧ ¬(f.length = M.nDofs ∨ M.nDofs = 1)) :=
      fun hcc => hcc.2 (Or.inl hf)
    unfold RobotModel.compute_forward_dynamics_list
    rw [if_pos hqq]
    simp only []
    rw [if_neg hB, if_pos (le_of_eq hf.symm), if_pos trivial, if_pos hf]
  · intro q2 qd2 f2
    unfold RobotModel.compute_forward_dynamics_list
    by_cases h : q2.length = M.nDofs ∧ qd2.length = M.nDofs
    · have hA : ¬ ((false : Bool) = true
          ∧ ¬(f2.length = M.nDofs ∨ M.nDofs = 1)) :=
        fun hcc => Bool.false_ne_true hcc.1
      have hFf : ¬ ((false : Bool) = true) := Bool.false_ne_true
      rw [if_pos h]
      simp only []
      rw [if_neg hA]
      by_cases hlen : M.nDofs ≤ f2.length
      · rw [if_pos hlen, if_neg hFf]
      · rw [if_neg hlen, if_neg hFf]
    · rw [if_neg h]

/-- Witness for C10 on the one-dof robot `robotW`. -/
theorem claim_C10_f_frame_effect_witness :
    (robotW.compute_forward_dynamics_list [0] [2] [3] false true).2
      = List.zipWith (fun a b => a - b) [3]
          (List.zipWith (fun c e => c * e) (List.ofFn robotW.dampingConst) [2])
    ∧ ∀ q2 qd2 f2 : List ℚ,
        (robotW.compute_forward_dynamics_list q2 qd2 f2 false false).2 = f2 :=
  claim_C10_f_frame_effect robotW [0] [2] [3] false (by decide) (by decide)
    (by decide)

/-! ### The two forward-kinematics strategies agree -/

theorem anc_self (M : RobotModel) (i : M.Idx) : M.anc i i = true := by
  rw [RobotModel.anc, if_pos rfl]

theorem anc_step (M : RobotModel) (x j : M.Idx) (hj : 0 < j.1)
    (h : M.anc x (M.parent j) = true) : M.anc x j = true := by
  rw [RobotModel.anc]
  by_cases hxj : x = j
  · rw [if_pos hxj]
  · rw [if_neg hxj, dif_pos hj]
    exact h

theorem anc_root (M : RobotModel) : ∀ j : M.Idx, M.anc 0 j = true := by
  apply idx_strong_induction
  intro j IH
  by_cases h0 : (0 : M.Idx) = j
  · rw [RobotModel.anc, if_pos h0]
  · have hj : 0 < j.1 := by
      rcases Nat.eq_zero_or_pos j.1 with h | h
      · exact absurd (by apply Fin.ext; simp only [Fin.val_zero]; omega) h0
      · exact h
    rw [RobotModel.anc, if_neg h0, dif_pos hj]
    exact IH (M.parent j) (M.hparent j hj)

theorem anc_parent (M : RobotModel) (c : M.Idx) (hc : 0 < c.1) :
    ∀ j : M.Idx, M.anc c j = true → M.anc (M.parent c) j = true := by
  apply idx_strong_induction
    (P := fun j => M.anc c j = true → M.anc (M.parent c) j = true)
  intro j IH h
  by_cases hcj : c = j
  · rw [← hcj]
    exact anc_step M (M.parent c) c hc (anc_self M (M.parent c))
  · rw [RobotModel.anc, if_neg hcj] at h
    by_cases hj : 0 < j.1
    · rw [dif_pos hj] at h
      exact anc_step M (M.parent c) j hj (IH (M.parent j) (M.hparent j hj) h)
    · rw [dif_neg hj] at h
      exact absurd h Bool.false_ne_true

theorem anc_children_iff (M : RobotModel) (i : M.Idx) :
    ∀ j : M.Idx, ¬ j = i →
      (M.anc i j = true ↔ ∃ c ∈ M.childrenL i, M.anc c j = true) := by
  apply idx_strong_induction
    (P := fun j => ¬ j = i →
      (M.anc i j = true ↔ ∃ c ∈ M.childrenL i, M.anc c j = true))
  intro j IH hji
  constructor
  · intro h
    rw [RobotModel.anc, if_neg (fun he => hji he.symm)] at h
    by_cases hj : 0 < j.1
    · rw [dif_pos hj] at h
      by_cases hpj : M.parent j = i
      · refine ⟨j, (mem_childrenL M i j).mpr ⟨hpj, ?_⟩, anc_self M j⟩
        have hpar := M.hparent j hj
        rw [hpj] at hpar
        exact hpar
      · obtain ⟨c, hc, hanc⟩ := (IH (M.parent j) (M.hparent j hj) hpj).mp h
        exact ⟨c, hc, anc_step M c j hj hanc⟩
    · rw [dif_neg hj] at h
      exact absurd h Bool.false_ne_true
  · rintro ⟨c, hc, hanc⟩
    obtain ⟨hpc, hlt⟩ := (mem_childrenL M i c).mp hc
    have hres := anc_parent M c (by omega) j hanc
    rw [hpc] at hres
    exact hres

theorem lookup_cons_self {n : ℕ} {β : Type} (k : Fin n) (b : β)
    (es : List (Fin n × β)) : List.lookup k ((k, b) :: es) = some b := by
  simp [List.lookup]

theorem lookup_cons_ne {n : ℕ} {β : Type} (j k : Fin n) (h : ¬ j = k) (b : β)
    (es : List (Fin n × β)) :
    List.lookup j ((k, b) :: es) = List.lookup j es := by
  simp [List.lookup, beq_eq_false_iff_ne.mpr h]

theorem lookup_append {n : ℕ} {β : Type} (j : Fin n)
    (l1 l2 : List (Fin n × β)) :
    List.lookup j (l1 ++ l2) = (List.lookup j l1).or (List.lookup j l2) := by
  induction l1 with
  | nil => rfl
  | cons p t ih =>
    rcases p with ⟨k, b⟩
    by_cases hj : j = k
    · rw [hj, List.cons_append, lookup_cons_self, lookup_cons_self]
      rfl
    · rw [List.cons_append, lookup_cons_ne j k hj, lookup_cons_ne j k hj, ih]

theorem join_cons_eq {α : Type} (a : List α) (l : List (List α)) :
    (a :: l).join = a ++ l.join := rfl

theorem recFKAux_eq (M : RobotModel) (q : Fin M.nDofs → ℚ) (i : M.Idx)
    (acc : CoordinateTransform) :
    M.recFKAux q i acc = (i, acc) ::
      ((M.childrenL i).map
        (fun c => M.recFKAux q c (acc.multiply_transform (M.X q c)))).join := by
  rw [RobotModel.recFKAux]
  congr 1
  show ((M.childrenL i).attach.map
      (fun c => M.recFKAux q c.1 (acc.multiply_transform (M.X q c.1)))).join = _
  rw [attach_map_eq (M.childrenL i)
    (fun c => M.recFKAux q c (acc.multiply_transform (M.X q c)))]

theorem recFKAux_lookup (M : RobotModel) (q : Fin M.nDofs → ℚ) :
    ∀ i : M.Idx, ∀ j : M.Idx,
      (M.recFKAux q i (M.poseOf q i)).lookup j
        = if M.anc i j then some (M.poseOf q j) else none := by
  apply idx_strong_induction_rev
    (P := fun i => ∀ j : M.Idx,
      (M.recFKAux q i (M.poseOf q i)).lookup j
        = if M.anc i j then some (M.poseOf q j) else none)
  intro i IH j
  rw [recFKAux_eq]
  by_cases hj : j = i
  · rw [hj, lookup_cons_self, if_pos (anc_self M i)]
  · rw [lookup_cons_ne j i hj]
    have hblocks : ∀ cs : List M.Idx,
        (∀ c ∈ cs, M.parent c = i ∧ i.1 < c.1) →
        List.lookup j ((cs.map (fun c => M.recFKAux q c
            ((M.poseOf q i).multiply_transform (M.X q c)))).join)
          = if cs.any (fun c => M.anc c j) then some (M.poseOf q j) else none := by
      intro cs
      induction cs with
      | nil => intro _; rfl
      | cons c cs' ihc =>
        intro hcs
        have hc := hcs c (List.mem_cons_self c cs')
        rw [List.map_cons, join_cons_eq, lookup_append]
        have hpc : (M.poseOf q i).multiply_transform (M.X q c) = M.poseOf q c := by
          rw [poseOf_pos M q c (by omega), hc.1]
        rw [hpc, IH c hc.2 j,
          ihc (fun d hd => hcs d (List.mem_cons_of_mem c hd))]
        by_cases h1 : M.anc c j = true
        · rw [if_pos h1]
          rw [show ((c :: cs').any (fun c => M.anc c j)) = true from by
            rw [List.any_cons, h1, Bool.true_or]]
          rw [if_pos rfl]
          rfl
        · rw [if_neg h1, List.any_cons,
            show M.anc c j = false from Bool.eq_false_iff.mpr h1,
            Bool.false_or]
          rfl
    rw [hblocks (M.childrenL i) (fun c hcm => (mem_childrenL M i c).mp hcm)]
    by_cases ha : M.anc i j = true
    · obtain ⟨c, hc, hanc⟩ := (anc_children_iff M i j hj).mp ha
      have hany : ((M.childrenL i).any (fun c => M.anc c j)) = true :=
        List.any_eq_true.mpr ⟨c, hc, hanc⟩
      rw [if_pos hany, if_pos ha]
    · rw [if_neg (fun hany => ha ((anc_children_iff M i j hj).mpr
        (List.any_eq_true.mp hany))), if_neg ha]

theorem recPoses_eq (M : RobotModel) (q : Fin M.nDofs → ℚ) (j : M.Idx) :
    M.recPoses q j = some (M.poseOf q j) := by
  unfold RobotModel.recPoses
  rw [show (ctIdentity : CoordinateTransform) = M.poseOf q 0 from
    (poseOf_base M q).symm]
  rw [recFKAux_lookup M q 0 j, if_pos (anc_root M j)]

/-- **C4.** For every configuration, the ordered index sweep
(`recursive=False`, via `update_kinematic_state`) and the name-keyed
recursive strategy (`recursive=True`, a root-to-leaves traversal composing
each child's joint pose) return the same pose — translation and rotation —
for every link, namely the parent-chain product `poseOf`; and the
single-link `compute_forward_kinematics` query agrees with the all-links
entry for either flag value (its `recursive=True` branch delegates to
`compute_forward_kinematics_all_links` with that function's default
`recursive=False`).  A robot with at least one controlled joint is required,
since `update_kinematic_state` indexes `self._controlled_joints[0]`. -/
theorem claim_C4_fk_strategies_agree (M : RobotModel) (q : Fin M.nDofs → ℚ)
    (hnd : 0 < M.nDofs) :
    (∀ link : M.Idx,
        M.compute_forward_kinematics_all_links q true link
          = M.compute_forward_kinematics_all_links q false link
        ∧ M.compute_forward_kinematics_all_links q false link
            = some (M.poseOf q link))
    ∧ ∀ (link : M.Idx) (r : Bool),
        M.compute_forward_kinematics q link r
          = M.compute_forward_kinematics_all_links q false link := by
  have hup : M.update_kinematic_state q 0
      = some (M.sweepPoses q, M.sweepVels q 0) := by
    unfold RobotModel.update_kinematic_state
    rw [if_neg (by omega)]
  constructor
  · intro link
    have hfalse : M.compute_forward_kinematics_all_links q false link
        = some (M.poseOf q link) := by
      show (M.update_kinematic_state q 0).map (fun st => st.1 link)
        = some (M.poseOf q link)
      rw [hup, Option.map_some']
      show some (M.sweepPoses q link) = some (M.poseOf q link)
      rw [sweepPoses_eq]
    have htrue : M.compute_forward_kinematics_all_links q true link
        = some (M.poseOf q link) := by
      show M.recPoses q link = some (M.poseOf q link)
      exact recPoses_eq M q link
    exact ⟨htrue.trans hfalse.symm, hfalse⟩
  · intro link r
    cases r <;> rfl

/-- Witness for C4 on the one-joint robot `robotW` at `q = 0`. -/
theorem claim_C4_fk_strategies_agree_witness :
    (∀ link : robotW.Idx,
        robotW.compute_forward_kinematics_all_links 0 true link
          = robotW.compute_forward_kinematics_all_links 0 false link
        ∧ robotW.compute_forward_kinematics_all_links 0 false link
            = some (robotW.poseOf 0 link))
    ∧ ∀ (link : robotW.Idx) (r : Bool),
        robotW.compute_forward_kinematics 0 link r
          = robotW.compute_forward_kinematics_all_links 0 false link :=
  claim_C4_fk_strategies_agree robotW 0 (by decide)

/-! ### Jacobians: single-link versus all-links -/

theorem jacCol_mem (M : RobotModel) (P : M.Idx → CoordinateTransform) (pE : V3)
    (J : (Fin M.nDofs → V3) × (Fin M.nDofs → V3)) (i : M.Idx)
    (hc : i ∈ M.controlledList) :
    M.jacCol P pE J i =
      (Function.update J.1 ⟨M.dofIdx i, List.indexOf_lt_length.mpr hc⟩
          (cross3 ((P i).rot.mulVec (M.joint_axis i)) (pE - (P i).trans)),
       Function.update J.2 ⟨M.dofIdx i, List.indexOf_lt_length.mpr hc⟩
          ((P i).rot.mulVec (M.joint_axis i))) := by
  rw [RobotModel.jacCol, dif_pos hc]

theorem jacCol_not_mem (M : RobotModel) (P : M.Idx → CoordinateTransform)
    (pE : V3) (J : (Fin M.nDofs → V3) × (Fin M.nDofs → V3)) (i : M.Idx)
    (hc : ¬ i ∈ M.controlledList) : M.jacCol P pE J i = J := by
  rw [RobotModel.jacCol, dif_neg hc]

theorem dof_col_eq_iff (M : RobotModel) (c : M.Idx) (hc : c ∈ M.controlledList)
    (j : Fin M.nDofs) :
    (⟨M.dofIdx c, List.indexOf_lt_length.mpr hc⟩ : Fin M.nDofs) = j ↔ M.cj j = c := by
  constructor
  · intro he
    rw [← he, cj_dofIdx M c hc]
  · intro he
    apply Fin.ext
    show M.dofIdx c = j.1
    rw [← he, dofIdx_cj]

theorem jacCol_fold_apply (M : RobotModel) (P : M.Idx → CoordinateTransform)
    (pE : V3) :
    ∀ (cs : List M.Idx) (J0 : (Fin M.nDofs → V3) × (Fin M.nDofs → V3))
      (j : Fin M.nDofs),
      ((cs.foldl (M.jacCol P pE) J0).1 j
        = if M.cj j ∈ cs
          then cross3 ((P (M.cj j)).rot.mulVec (M.joint_axis (M.cj j)))
            (pE - (P (M.cj j)).trans)
          else J0.1 j)
      ∧ ((cs.foldl (M.jacCol P pE) J0).2 j
        = if M.cj j ∈ cs
          then (P (M.cj j)).rot.mulVec (M.joint_axis (M.cj j))
          else J0.2 j) := by
  intro cs
  induction cs with
  | nil =>
    intro J0 j
    constructor <;> rw [List.foldl_nil, if_neg (List.not_mem_nil (M.cj j))]
  | cons c cs' ih =>
    intro J0 j
    rw [List.foldl_cons]
    obtain ⟨ih1, ih2⟩ := ih (M.jacCol P pE J0 c) j
    by_cases hmem : M.cj j ∈ cs'
    · constructor
      · rw [ih1, if_pos hmem, if_pos (List.mem_cons_of_mem c hmem)]
      · rw [ih2, if_pos hmem, if_pos (List.mem_cons_of_mem c hmem)]
    · by_cases hc : c ∈ M.controlledList
      · by_cases hcj : M.cj j = c
        · have hjc : (⟨M.dofIdx c, List.indexOf_lt_length.mpr hc⟩ : Fin M.nDofs)
              = j := (dof_col_eq_iff M c hc j).mpr hcj
        
          constructor
          · rw [ih1, if_neg hmem, jacCol_mem M P pE J0 c hc]
            show Function.update J0.1 _ _ j = _
            rw [Function.update_apply, if_pos hjc.symm, hcj,
              if_pos (List.mem_cons_self c cs')]
          · rw [ih2, if_neg hmem, jacCol_mem M P pE J0 c hc]
            show Function.update J0.2 _ _ j = _
            rw [Function.update_apply, if_pos hjc.symm, hcj,
              if_pos (List.mem_cons_self c cs')]
        · have hjc : ¬ (⟨M.dofIdx c, List.indexOf_lt_length.mpr hc⟩ : Fin M.nDofs)
              = j := fun he => hcj ((dof_col_eq_iff M c hc j).mp he)
          have hnc : ¬ M.cj j ∈ c :: cs' := by
            rw [List.mem_cons]
            rintro (h | h)
            · exact hcj h
            · exact hmem h
          constructor
          · rw [ih1, if_neg hmem, jacCol_mem M P pE J0 c hc]
            show Function.update J0.1 _ _ j = _
            rw [Function.update_apply, if_neg (fun he => hjc he.symm), if_neg hnc]
          · rw [ih2, if_neg hmem, jacCol_mem M P pE J0 c hc]
            show Function.update J0.2 _ _ j = _
            rw [Function.update_apply, if_neg (fun he => hjc he.symm), if_neg hnc]
      · have hnc : ¬ M.cj j ∈ c :: cs' := by
          rw [List.mem_cons]
          rintro (h | h)
          · exact hc (h ▸ cj_mem M j)
          · exact hmem h
        constructor
        · rw [ih1, if_neg hmem, jacCol_not_mem M P pE J0 c hc, if_neg hnc]
        · rw [ih2, if_neg hmem, jacCol_not_mem M P pE J0 c hc, if_neg hnc]

theorem jacAllCol_mem (M : RobotModel) (P : M.Idx → CoordinateTransform)
    (J : (M.Idx → Fin M.nDofs → V3) × (M.Idx → Fin M.nDofs → V3)) (i : M.Idx)
    (hc : i ∈ M.controlledList) :
    M.jacAllCol P J i =
      (fun l j => if j = (⟨M.dofIdx i, List.indexOf_lt_length.mpr hc⟩ : Fin M.nDofs)
            ∧ i.1 + 1 ≤ l.1
          then cross3 ((P i).rot.mulVec (M.joint_axis i)) ((P l).trans - (P i).trans)
          else J.1 l j,
       fun l j => if j = (⟨M.dofIdx i, List.indexOf_lt_length.mpr hc⟩ : Fin M.nDofs)
            ∧ i.1 ≤ l.1
          then (P i).rot.mulVec (M.joint_axis i) else J.2 l j) := by
  rw [RobotModel.jacAllCol, dif_pos hc]

theorem jacAllCol_not_mem (M : RobotModel) (P : M.Idx → CoordinateTransform)
    (J : (M.Idx → Fin M.nDofs → V3) × (M.Idx → Fin M.nDofs → V3)) (i : M.Idx)
    (hc : ¬ i ∈ M.controlledList) : M.jacAllCol P J i = J := by
  rw [RobotModel.jacAllCol, dif_neg hc]


theorem jacAllCol_written1 (M : RobotModel) (P : M.Idx → CoordinateTransform)
    (J0 : (M.Idx → Fin M.nDofs → V3) × (M.Idx → Fin M.nDofs → V3))
    (c l : M.Idx) (j : Fin M.nDofs) (hcj : M.cj j = c) (hrow : c.1 + 1 ≤ l.1) :
    (M.jacAllCol P J0 c).1 l j
      = cross3 ((P c).rot.mulVec (M.joint_axis c)) ((P l).trans - (P c).trans) := by
  have hcc : c ∈ M.controlledList := hcj ▸ cj_mem M j
  rw [jacAllCol_mem M P J0 c hcc]
  simp only []
  rw [if_pos ⟨((dof_col_eq_iff M c hcc j).mpr hcj).symm, hrow⟩]

theorem jacAllCol_written2 (M : RobotModel) (P : M.Idx → CoordinateTransform)
    (J0 : (M.Idx → Fin M.nDofs → V3) × (M.Idx → Fin M.nDofs → V3))
    (c l : M.Idx) (j : Fin M.nDofs) (hcj : M.cj j = c) (hrow : c.1 ≤ l.1) :
    (M.jacAllCol P J0 c).2 l j = (P c).rot.mulVec (M.joint_axis c) := by
  have hcc : c ∈ M.controlledList := hcj ▸ cj_mem M j
  rw [jacAllCol_mem M P J0 c hcc]
  simp only []
  rw [if_pos ⟨((dof_col_eq_iff M c hcc j).mpr hcj).symm, hrow⟩]

theorem jacAllCol_untouched1 (M : RobotModel) (P : M.Idx → CoordinateTransform)
    (J0 : (M.Idx → Fin M.nDofs → V3) × (M.Idx → Fin M.nDofs → V3))
    (c l : M.Idx) (j : Fin M.nDofs) (h : ¬ (M.cj j = c ∧ c.1 + 1 ≤ l.1)) :
    (M.jacAllCol P J0 c).1 l j = J0.1 l j := by
  by_cases hcc : c ∈ M.controlledList
  · rw [jacAllCol_mem M P J0 c hcc]
    simp only []
    rw [if_neg]
    rintro ⟨hje, hr⟩
    exact h ⟨(dof_col_eq_iff M c hcc j).mp hje.symm, hr⟩
  · rw [jacAllCol_not_mem M P J0 c hcc]

theorem jacAllCol_untouched2 (M : RobotModel) (P : M.Idx → CoordinateTransform)
    (J0 : (M.Idx → Fin M.nDofs → V3) × (M.Idx → Fin M.nDofs → V3))
    (c l : M.Idx) (j : Fin M.nDofs) (h : ¬ (M.cj j = c ∧ c.1 ≤ l.1)) :
    (M.jacAllCol P J0 c).2 l j = J0.2 l j := by
  by_cases hcc : c ∈ M.controlledList
  · rw [jacAllCol_mem M P J0 c hcc]
    simp only []
    rw [if_neg]
    rintro ⟨hje, hr⟩
    exact h ⟨(dof_col_eq_iff M c hcc j).mp hje.symm, hr⟩
  · rw [jacAllCol_not_mem M P J0 c hcc]

theorem jacAllCol_fold_apply (M : RobotModel) (P : M.Idx → CoordinateTransform) :
    ∀ (cs : List M.Idx)
      (J0 : (M.Idx → Fin M.nDofs → V3) × (M.Idx → Fin M.nDofs → V3))
      (l : M.Idx) (j : Fin M.nDofs),
      ((cs.foldl (M.jacAllCol P) J0).1 l j
        = if M.cj j ∈ cs ∧ (M.cj j).1 + 1 ≤ l.1
          then cross3 ((P (M.cj j)).rot.mulVec (M.joint_axis (M.cj j)))
            ((P l).trans - (P (M.cj j)).trans)
          else J0.1 l j)
      ∧ ((cs.foldl (M.jacAllCol P) J0).2 l j
        = if M.cj j ∈ cs ∧ (M.cj j).1 ≤ l.1
          then (P (M.cj j)).rot.mulVec (M.joint_axis (M.cj j))
          else J0.2 l j) := by
  intro cs
  induction cs with
  | nil =>
    intro J0 l j
    constructor <;>
      rw [List.foldl_nil, if_neg (fun hx => List.not_mem_nil (M.cj j) hx.1)]
  | cons c cs' ih =>
    intro J0 l j
    rw [List.foldl_cons]
    obtain ⟨ih1, ih2⟩ := ih (M.jacAllCol P J0 c) l j
    constructor
    · rw [ih1]
      by_cases hcond : M.cj j ∈ c :: cs' ∧ (M.cj j).1 + 1 ≤ l.1
      · rw [if_pos hcond]
        by_cases hmem : M.cj j ∈ cs'
        · rw [if_pos ⟨hmem, hcond.2⟩]
        · have hcj : M.cj j = c := by
            rcases List.mem_cons.mp hcond.1 with h | h
            · exact h
            · exact absurd h hmem
          rw [if_neg (show ¬ (M.cj j ∈ cs' ∧ (M.cj j).1 + 1 ≤ l.1) from
            fun hx => hmem hx.1)]
          rw [jacAllCol_written1 M P J0 c l j hcj (by rw [← hcj]; exact hcond.2),
            hcj]
      · rw [if_neg hcond,
          if_neg (show ¬ (M.cj j ∈ cs' ∧ (M.cj j).1 + 1 ≤ l.1) from
            fun hx => hcond ⟨List.mem_cons_of_mem c hx.1, hx.2⟩)]
        apply jacAllCol_untouched1
        rintro ⟨hcj, hr⟩
        exact hcond ⟨List.mem_cons.mpr (Or.inl hcj), by rw [hcj]; exact hr⟩
    · rw [ih2]
      by_cases hcond : M.cj j ∈ c :: cs' ∧ (M.cj j).1 ≤ l.1
      · rw [if_pos hcond]
        by_cases hmem : M.cj j ∈ cs'
        · rw [if_pos ⟨hmem, hcond.2⟩]
        · have hcj : M.cj j = c := by
            rcases List.mem_cons.mp hcond.1 with h | h
            · exact h
            · exact absurd h hmem
          rw [if_neg (show ¬ (M.cj j ∈ cs' ∧ (M.cj j).1 ≤ l.1) from
            fun hx => hmem hx.1)]
          rw [jacAllCol_written2 M P J0 c l j hcj (by rw [← hcj]; exact hcond.2),
            hcj]
      · rw [if_neg hcond,
          if_neg (show ¬ (M.cj j ∈ cs' ∧ (M.cj j).1 ≤ l.1) from
            fun hx => hcond ⟨List.mem_cons_of_mem c hx.1, hx.2⟩)]
        apply jacAllCol_untouched2
        rintro ⟨hcj, hr⟩
        exact hcond ⟨List.mem_cons.mpr (Or.inl hcj), by rw [hcj]; exact hr⟩

theorem jacobian_single_eq (M : RobotModel) (q : Fin M.nDofs → ℚ)
    (hnd : 0 < M.nDofs) (link : M.Idx) :
    M.compute_endeffector_jacobian q link
      = some ((M.chain link).foldl
          (M.jacCol (M.sweepPoses q) ((M.sweepPoses q link).trans))
          (fun _ => 0, fun _ => 0)) := by
  have hup : M.update_kinematic_state q 0
      = some (M.sweepPoses q, M.sweepVels q 0) := by
    unfold RobotModel.update_kinematic_state
    rw [if_neg (by omega)]
  simp only [RobotModel.compute_endeffector_jacobian, hup]

theorem jacobian_all_links_eq (M : RobotModel) (q : Fin M.nDofs → ℚ)
    (hnd : 0 < M.nDofs) :
    M.compute_endeffector_jacobian_all_links q
      = some ((M.chain (Fin.last M.nb)).foldl (M.jacAllCol (M.sweepPoses q))
          (fun _ _ => 0, fun _ _ => 0)) := by
  have hup : M.update_kinematic_state q 0
      = some (M.sweepPoses q, M.sweepVels q 0) := by
    unfold RobotModel.update_kinematic_state
    rw [if_neg (by omega)]
  simp only [RobotModel.compute_endeffector_jacobian_all_links, hup]

theorem cj_pos (M : RobotModel) (j : Fin M.nDofs) : 0 < (M.cj j).1 := by
  rcases Nat.eq_zero_or_pos (M.cj j).1 with h | h
  · have h0 : M.cj j = 0 := by
      apply Fin.ext
      simp only [Fin.val_zero]
      omega
    have hct := controlled_cj M j
    rw [h0, M.hbase] at hct
    exact absurd hct Bool.false_ne_true
  · exact h

theorem chain_serial_mem (M : RobotModel)
    (hser : ∀ i : M.Idx, 0 < i.1 → (M.parent i).1 = i.1 - 1) :
    ∀ l c : M.Idx, c ∈ M.chain l ↔ (0 < c.1 ∧ c.1 ≤ l.1) := by
  apply idx_strong_induction
    (P := fun l => ∀ c : M.Idx, c ∈ M.chain l ↔ (0 < c.1 ∧ c.1 ≤ l.1))
  intro l IH c
  by_cases hl : 0 < l.1
  · rw [RobotModel.chain, dif_pos hl, List.mem_cons,
      IH (M.parent l) (M.hparent l hl) c]
    have hpl := hser l hl
    constructor
    · rintro (h | ⟨h1, h2⟩)
      · exact ⟨by rw [h]; exact hl, by rw [h]⟩
      · exact ⟨h1, by omega⟩
    · rintro ⟨h1, h2⟩
      by_cases hcl : c = l
      · exact Or.inl hcl
      · refine Or.inr ⟨h1, ?_⟩
        have hne : c.1 ≠ l.1 := fun he => hcl (Fin.ext he)
        omega
  · rw [RobotModel.chain, dif_neg hl]
    constructor
    · intro h
      exact absurd h (List.not_mem_nil c)
    · rintro ⟨h1, h2⟩
      exfalso
      omega

/-- C5 amended: on a serial chain (every link's parent is its predecessor —
the shape for which the vectorized routine was written), the all-links
Jacobian agrees with the single-link Jacobian at every (link, joint) pair:
off-chain joints give zero columns and on-chain joints the same `z`,
`z × (p_e - p_i)` columns.  (For branched trees the routines disagree, since
`compute_endeffector_jacobian_all_links` only walks the parent chain of the
last link.) -/
theorem claim_C5_amended_serial_agree (M : RobotModel) (q : Fin M.nDofs → ℚ)
    (hnd : 0 < M.nDofs)
    (hser : ∀ i : M.Idx, 0 < i.1 → (M.parent i).1 = i.1 - 1) :
    ∃ JA, M.compute_endeffector_jacobian_all_links q = some JA
      ∧ ∀ link : M.Idx, ∃ Jl,
          M.compute_endeffector_jacobian q link = some Jl
          ∧ ∀ j : Fin M.nDofs, JA.1 link j = Jl.1 j ∧ JA.2 link j = Jl.2 j := by
  refine ⟨_, jacobian_all_links_eq M q hnd, ?_⟩
  intro link
  refine ⟨_, jacobian_single_eq M q hnd link, ?_⟩
  intro j
  obtain ⟨hA1, hA2⟩ := jacAllCol_fold_apply M (M.sweepPoses q)
    (M.chain (Fin.last M.nb)) (fun _ _ => 0, fun _ _ => 0) link j
  obtain ⟨h11, h12⟩ := jacCol_fold_apply M (M.sweepPoses q)
    ((M.sweepPoses q link).trans) (M.chain link) (fun _ => 0, fun _ => 0) j
  have hma : M.cj j ∈ M.chain (Fin.last M.nb) := by
    rw [chain_serial_mem M hser]
    have hub := (M.cj j).2
    refine ⟨cj_pos M j, ?_⟩
    rw [Fin.val_last]
    omega
  have hml : M.cj j ∈ M.chain link ↔ (0 < (M.cj j).1 ∧ (M.cj j).1 ≤ link.1) :=
    chain_serial_mem M hser link (M.cj j)
  constructor
  · rw [hA1, h11]
    by_cases h1 : (M.cj j).1 + 1 ≤ link.1
    · rw [if_pos ⟨hma, h1⟩, if_pos (hml.mpr ⟨cj_pos M j, by omega⟩)]
    · rw [if_neg (fun hx => h1 hx.2)]
      by_cases hm : M.cj j ∈ M.chain link
      · rw [if_pos hm]
        have hle := (hml.mp hm).2
        have hceq : M.cj j = link := Fin.ext (by omega)
        rw [hceq, sub_self, cross3_zero_right]
      · rw [if_neg hm]
  · rw [hA2, h12]
    by_cases h1 : (M.cj j).1 ≤ link.1
    · rw [if_pos ⟨hma, h1⟩, if_pos (hml.mpr ⟨cj_pos M j, h1⟩)]
    · rw [if_neg (fun hx => h1 hx.2), if_neg (fun hx => h1 (hml.mp hx).2)]

/-- Witness for the amended C5 on the serial two-joint chain `robotSerial2`. -/
theorem claim_C5_amended_serial_agree_witness :
    ∃ JA, robotSerial2.compute_endeffector_jacobian_all_links 0 = some JA
      ∧ ∀ link : robotSerial2.Idx, ∃ Jl,
          robotSerial2.compute_endeffector_jacobian 0 link = some Jl
          ∧ ∀ j : Fin robotSerial2.nDofs,
              JA.1 link j = Jl.1 j ∧ JA.2 link j = Jl.2 j :=
  claim_C5_amended_serial_agree robotSerial2 0 (by decide) (by decide)

theorem chainL_robotY :
    robotY.chain (Fin.last robotY.nb) = [Fin.last robotY.nb] := by
  rw [RobotModel.chain, dif_pos (by decide : 0 < (Fin.last robotY.nb).1)]
  rw [show robotY.parent (Fin.last robotY.nb) = (0 : robotY.Idx) from rfl]
  rw [RobotModel.chain, dif_neg (by decide : ¬ 0 < (0 : robotY.Idx).1)]

theorem chain1_robotY : robotY.chain 1 = [(1 : robotY.Idx)] := by
  rw [RobotModel.chain, dif_pos (by decide : 0 < (1 : robotY.Idx).1)]
  rw [show robotY.parent 1 = (0 : robotY.Idx) from rfl]
  rw [RobotModel.chain, dif_neg (by decide : ¬ 0 < (0 : robotY.Idx).1)]

theorem rot1_robotY : (robotY.sweepPoses 0 1).rot = 1 := by
  rw [sweepPoses_eq, poseOf_pos robotY 0 1 (by decide),
    show robotY.parent 1 = (0 : robotY.Idx) from rfl, poseOf_base]
  show ctIdentity.rot * (robotY.X 0 1).rot = 1
  rw [show (robotY.X 0 1).rot = 1 from rfl,
    show ctIdentity.rot = (1 : M33) from rfl, Matrix.one_mul]

/-- C5 counterexample: on the branched robot `robotY` (two controlled links,
both children of the base), `compute_endeffector_jacobian_all_links` walks
only the parent chain of the **last** link, so joint 1 — which is off that
chain — never fills its column: the angular entry of link 1's Jacobian at
dof 0 is `0` in the all-links result but `z = R·axis = e_z` (third component
`1`) in the single-link result for link 1. -/
theorem claim_C5_counterexample :
    ∃ JA, robotY.compute_endeffector_jacobian_all_links 0 = some JA
      ∧ ∃ J1, robotY.compute_endeffector_jacobian 0 1 = some J1
        ∧ JA.2 1 ⟨0, by decide⟩ 2 = 0 ∧ J1.2 ⟨0, by decide⟩ 2 = 1 := by
  refine ⟨_, jacobian_all_links_eq robotY 0 (by decide), _,
    jacobian_single_eq robotY 0 (by decide) 1, ?_, ?_⟩
  · have h := (jacAllCol_fold_apply robotY (robotY.sweepPoses 0)
      (robotY.chain (Fin.last robotY.nb)) (fun _ _ => 0, fun _ _ => 0) 1
      ⟨0, by decide⟩).2
    have hncond : ¬ (robotY.cj ⟨0, by decide⟩ ∈ robotY.chain (Fin.last robotY.nb)
        ∧ (robotY.cj ⟨0, by decide⟩).1 ≤ (1 : robotY.Idx).1) := by
      rintro ⟨hmem, _⟩
      rw [chainL_robotY, show robotY.cj ⟨0, by decide⟩ = (1 : robotY.Idx)
        from by decide] at hmem
      exact absurd hmem (by decide)
    rw [h, if_neg hncond]
    rfl
  · have h := (jacCol_fold_apply robotY (robotY.sweepPoses 0)
      ((robotY.sweepPoses 0 1).trans) (robotY.chain 1) (fun _ => 0, fun _ => 0)
      ⟨0, by decide⟩).2
    have hcond : robotY.cj ⟨0, by decide⟩ ∈ robotY.chain 1 := by
      rw [chain1_robotY, show robotY.cj ⟨0, by decide⟩ = (1 : robotY.Idx)
        from by decide]
      exact List.mem_cons_self _ _
    rw [h, if_pos hcond,
      show robotY.cj ⟨0, by decide⟩ = (1 : robotY.Idx) from by decide,
      rot1_robotY, Matrix.one_mulVec]
    show robotY.joint_axis 1 2 = 1
    rw [show robotY.joint_axis 1 = e3 2 from rfl]
    simp [e3]

/-! ### The round trip: forward dynamics inverts inverse dynamics -/

theorem vecMulVec_mulVec6 (u v x : V6) :
    (Matrix.vecMulVec u v).mulVec x = Matrix.dotProduct v x • u := by
  funext i
  simp only [Matrix.vecMulVec, Matrix.mulVec, Matrix.dotProduct, Matrix.of_apply,
    Pi.smul_apply, smul_eq_mul]
  rw [Finset.sum_mul]
  apply Finset.sum_congr rfl
  intro k _
  ring

theorem vecMulVec_transpose6 (u v : V6) :
    (Matrix.vecMulVec u v).transpose = Matrix.vecMulVec v u := by
  funext i j
  simp only [Matrix.vecMulVec, Matrix.transpose_apply, Matrix.of_apply]
  ring

theorem vecMulVec_zero_left6 (v : V6) :
    Matrix.vecMulVec (0 : V6) v = 0 := by
  funext i j
  simp [Matrix.vecMulVec]

theorem list_sum_transpose (l : List M66) :
    l.sum.transpose = (l.map Matrix.transpose).sum := by
  induction l with
  | nil => simp
  | cons a t ih =>
    rw [List.sum_cons, List.map_cons, List.sum_cons, Matrix.transpose_add, ih]

theorem schur_child (IA : M66) (hsym : IA.transpose = IA) (Svec w : V6)
    (qddc : ℚ) (pA F A : V6) (hA : A = w + qddc • Svec)
    (hF : F = IA.mulVec A + pA) (U : V6) (hU : U = IA.mulVec Svec) (dd : ℚ)
    (hdd : dd = Matrix.dotProduct Svec U)
    (u : ℚ) (hu : u = Matrix.dotProduct F Svec - Matrix.dotProduct pA Svec)
    (hcase : dd ≠ 0 ∨ (Svec = 0 ∧ qddc = 0)) :
    (IA - Matrix.vecMulVec U (dd⁻¹ • U)).mulVec w + ((u / dd) • U + pA) = F := by
  have hu2 : u = Matrix.dotProduct U w + qddc * dd := by
    rw [hu, hF, Matrix.add_dotProduct, add_sub_cancel_right, dot_mulVec_left,
      hsym, ← hU, hA, Matrix.add_dotProduct, Matrix.smul_dotProduct, ← hdd]
    rw [Matrix.dotProduct_comm U w, smul_eq_mul]
  rcases hcase with hdd0 | ⟨hS0, hq0⟩
  · have hdiv : u / dd = dd⁻¹ * Matrix.dotProduct U w + qddc := by
      rw [hu2, add_div, mul_div_assoc, div_self hdd0, mul_one, div_eq_inv_mul]
    rw [Matrix.sub_mulVec, vecMulVec_mulVec6, Matrix.smul_dotProduct, hdiv, hF,
      hA, Matrix.mulVec_add, Matrix.mulVec_smul, ← hU]
    rw [add_smul]
    simp only [smul_eq_mul]
    abel
  · have hU0 : U = 0 := by rw [hU, hS0, Matrix.mulVec_zero]
    rw [hU0, smul_zero, vecMulVec_zero_left6, sub_zero, smul_zero, zero_add,
      hF, hA, hq0, zero_smul, add_zero]

theorem abaIP_pos (M : RobotModel) (C : AbaCtx M) (i : M.Idx) (h0 : ¬ i.1 = 0) :
    abaIP M C i =
      ((M.inertia i).get_spatial_mat
        + ((M.childrenL i).map (fun c =>
            (C.X c).to_matrix.transpose
              * (abaIA M C c - Matrix.vecMulVec (abaU6 M C c)
                  ((abaD M C c + C.eps)⁻¹ • abaU6 M C c))
              * (C.X c).to_matrix)).sum,
       (C.pA0 i).add_force_vec (sfvSum ((M.childrenL i).map (fun c =>
         (((abaPA M C c).add_force_vec (sfvOfVec
             ((abaIA M C c - Matrix.vecMulVec (abaU6 M C c)
                 ((abaD M C c + C.eps)⁻¹ • abaU6 M C c)).mulVec
               (C.cb c).get_vector))).add_force_vec
           ((sfvOfVec (abaU6 M C c)).multiply
             (abaSmallU M C c / (abaD M C c + C.eps)))).transform (C.X c))))) := by
  rw [abaIP, if_neg h0]
  simp only []
  congr 1
  · congr 1
    congr 1
    rw [List.map_map]
    exact attach_map_eq (M.childrenL i) (fun c =>
      (C.X c).to_matrix.transpose
        * (abaIA M C c - Matrix.vecMulVec (abaU6 M C c)
            ((abaD M C c + C.eps)⁻¹ • abaU6 M C c))
        * (C.X c).to_matrix)
  · congr 1
    congr 1
    rw [List.map_map]
    exact attach_map_eq (M.childrenL i) (fun c =>
      (((abaPA M C c).add_force_vec (sfvOfVec
          ((abaIA M C c - Matrix.vecMulVec (abaU6 M C c)
              ((abaD M C c + C.eps)⁻¹ • abaU6 M C c)).mulVec
            (C.cb c).get_vector))).add_force_vec
        ((sfvOfVec (abaU6 M C c)).multiply
          (abaSmallU M C c / (abaD M C c + C.eps)))).transform (C.X c))

theorem abaIA_pos (M : RobotModel) (C : AbaCtx M) (i : M.Idx) (h0 : ¬ i.1 = 0) :
    abaIA M C i = (M.inertia i).get_spatial_mat
      + ((M.childrenL i).map (fun c =>
          (C.X c).to_matrix.transpose
            * (abaIA M C c - Matrix.vecMulVec (abaU6 M C c)
                ((abaD M C c + C.eps)⁻¹ • abaU6 M C c))
            * (C.X c).to_matrix)).sum := by
  rw [abaIA, abaIP_pos M C i h0]

theorem abaPA_pos (M : RobotModel) (C : AbaCtx M) (i : M.Idx) (h0 : ¬ i.1 = 0) :
    abaPA M C i = (C.pA0 i).add_force_vec (sfvSum ((M.childrenL i).map (fun c =>
      (((abaPA M C c).add_force_vec (sfvOfVec
          ((abaIA M C c - Matrix.vecMulVec (abaU6 M C c)
              ((abaD M C c + C.eps)⁻¹ • abaU6 M C c)).mulVec
            (C.cb c).get_vector))).add_force_vec
        ((sfvOfVec (abaU6 M C c)).multiply
          (abaSmallU M C c / (abaD M C c + C.eps)))).transform (C.X c)))) := by
  rw [abaPA, abaIP_pos M C i h0]

theorem vecMulVec_smul_comm6 (u v : V6) (a : ℚ) :
    Matrix.vecMulVec (a • u) v = Matrix.vecMulVec u (a • v) := by
  funext i j
  simp only [Matrix.vecMulVec, Matrix.of_apply, Pi.smul_apply, smul_eq_mul]
  ring

theorem sfvSum_vec (l : List SpatialForceVec) :
    (sfvSum l).get_vector = (l.map SpatialForceVec.get_vector).sum := by
  induction l with
  | nil => exact sfvZero_vec
  | cons a t ih =>
    rw [sfvSum_cons, sfv_add_vec, ih, List.map_cons, List.sum_cons]

theorem list_sum_mulVec6 (l : List M66) (x : V6) :
    l.sum.mulVec x = (l.map (fun A => A.mulVec x)).sum := by
  induction l with
  | nil =>
    rw [List.sum_nil, List.map_nil, List.sum_nil, Matrix.zero_mulVec]
  | cons a t ih =>
    rw [List.sum_cons, Matrix.add_mulVec, ih, List.map_cons, List.sum_cons]

theorem list_sum_map_add6 {α : Type} (l : List α) (f g : α → V6) :
    (l.map (fun c => f c + g c)).sum = (l.map f).sum + (l.map g).sum := by
  induction l with
  | nil => simp
  | cons a t ih =>
    rw [List.map_cons, List.sum_cons, List.map_cons, List.sum_cons, List.map_cons,
      List.sum_cons, ih]
    abel

theorem schur_IA2_symm (IA : M66) (hsym : IA.transpose = IA) (U : V6) (a : ℚ) :
    (IA - Matrix.vecMulVec U (a • U)).transpose
      = IA - Matrix.vecMulVec U (a • U) := by
  rw [Matrix.transpose_sub, hsym, vecMulVec_transpose6, vecMulVec_smul_comm6]

theorem child_contrib_eq (T : CoordinateTransform) (hrot : IsRot T.rot)
    (IA : M66) (hsym : IA.transpose = IA) (Sv xp cbv : V6) (qddc : ℚ)
    (pAv Fv Av : V6)
    (hA : Av = ((motionMat T.inverse).mulVec xp + cbv) + qddc • Sv)
    (hF : Fv = IA.mulVec Av + pAv)
    (U : V6) (hU : U = IA.mulVec Sv) (dd : ℚ)
    (hdd : dd = Matrix.dotProduct Sv U)
    (u : ℚ) (hu : u = Matrix.dotProduct Fv Sv - Matrix.dotProduct pAv Sv)
    (hcase : dd ≠ 0 ∨ (Sv = 0 ∧ qddc = 0)) :
    (T.to_matrix.transpose * (IA - Matrix.vecMulVec U (dd⁻¹ • U))
        * T.to_matrix).mulVec xp
      + (forceMat T).mulVec ((pAv + (IA - Matrix.vecMulVec U (dd⁻¹ • U)).mulVec cbv)
          + (u / dd) • U)
      = (forceMat T).mulVec Fv := by
  have hFm : T.to_matrix.transpose = forceMat T := by
    rw [to_matrix_eq_motionMat_inverse hrot, ← forceMat_transpose_eq hrot,
      Matrix.transpose_transpose]
  rw [hFm, to_matrix_eq_motionMat_inverse hrot]
  rw [show (forceMat T * (IA - Matrix.vecMulVec U (dd⁻¹ • U))
        * motionMat T.inverse).mulVec xp
      = (forceMat T).mulVec ((IA - Matrix.vecMulVec U (dd⁻¹ • U)).mulVec
          ((motionMat T.inverse).mulVec xp)) from by
    rw [Matrix.mulVec_mulVec, Matrix.mulVec_mulVec]]
  rw [← Matrix.mulVec_add]
  rw [show (IA - Matrix.vecMulVec U (dd⁻¹ • U)).mulVec
        ((motionMat T.inverse).mulVec xp)
        + ((pAv + (IA - Matrix.vecMulVec U (dd⁻¹ • U)).mulVec cbv) + (u / dd) • U)
      = (IA - Matrix.vecMulVec U (dd⁻¹ • U)).mulVec
          ((motionMat T.inverse).mulVec xp + cbv) + ((u / dd) • U + pAv) from by
    rw [Matrix.mulVec_add]
    abel]
  rw [schur_child IA hsym Sv ((motionMat T.inverse).mulVec xp + cbv) qddc pAv
    Fv Av hA hF U hU dd hdd u hu hcase]

theorem map_map_sum_eq {α : Type} (l : List α) (G : α → SpatialForceVec)
    (H : α → V6) (h : ∀ c ∈ l, (G c).get_vector = H c) :
    ((l.map G).map SpatialForceVec.get_vector).sum = (l.map H).sum := by
  induction l with
  | nil => rfl
  | cons a t ih =>
    simp only [List.map_cons, List.sum_cons]
    rw [h a (List.mem_cons_self a t),
      ih (fun c hc => h c (List.mem_cons_of_mem a hc))]

theorem map_map_sum_add {α : Type} (l : List α) (F : α → M66) (x : V6)
    (G : α → SpatialForceVec) (H : α → V6)
    (h : ∀ c ∈ l, (F c).mulVec x + (G c).get_vector = H c) :
    ((l.map F).map (fun A => A.mulVec x)).sum
      + ((l.map G).map SpatialForceVec.get_vector).sum = (l.map H).sum := by
  induction l with
  | nil => simp
  | cons a t ih =>
    simp only [List.map_cons, List.sum_cons]
    rw [← ih (fun c hc => h c (List.mem_cons_of_mem a hc)),
      ← h a (List.mem_cons_self a t)]
    abel

theorem aba_backward_invariant (M : RobotModel) (q qd qdd : Fin M.nDofs → ℚ)
    (g : Bool)
    (hfix : ∀ k : M.Idx, M.controlled k = false → M.joint_axis k = 0)
    (hrot : ∀ k : M.Idx, IsRot (M.X q k).rot)
    (hinert : ∀ k : M.Idx,
      (M.inertia k).inertia_mat.transpose = (M.inertia k).inertia_mat)
    (hd : ∀ k : M.Idx, M.controlled k = true →
      abaD M (M.idCtx q qd qdd g) k ≠ 0) :
    ∀ i : M.Idx,
      (abaIA M (M.idCtx q qd qdd g) i).transpose
          = abaIA M (M.idCtx q qd qdd g) i
      ∧ (0 < i.1 →
        (M.neForceOf q qd qdd g i).get_vector
          = (abaIA M (M.idCtx q qd qdd g) i).mulVec
              (M.neAccOf q qd qdd g i).get_vector
            + (abaPA M (M.idCtx q qd qdd g) i).get_vector) := by
  apply idx_strong_induction_rev
  intro i IH
  by_cases h0 : i.1 = 0
  · constructor
    · rw [show abaIA M (M.idCtx q qd qdd g) i = (M.inertia i).get_spatial_mat from
        by rw [abaIA, abaIP, if_pos h0]]
      exact spatialMat_transpose _ (hinert i)
    · intro hpos
      omega
  · -- per-child facts, shared by both conjuncts
    have hchild : ∀ c ∈ M.childrenL i,
        (M.controlled c = true ∧ abaD M (M.idCtx q qd qdd g) c ≠ 0)
        ∨ ((M.S6 c).get_vector = 0 ∧ M.jointVal qdd c = 0
            ∧ M.controlled c = false) := by
      intro c _
      by_cases hctrl : M.controlled c = true
      · exact Or.inl ⟨hctrl, hd c hctrl⟩
      · have hfalse : M.controlled c = false := Bool.eq_false_iff.mpr hctrl
        have hSv : (M.S6 c).get_vector = 0 := by
          show v6 (M.joint_axis c) 0 = 0
          rw [hfix c hfalse, v6_zero]
        exact Or.inr ⟨hSv, jointVal_uncontrolled M qdd c hfalse, hfalse⟩
    constructor
    · -- symmetry of the articulated inertia
      rw [abaIA_pos M (M.idCtx q qd qdd g) i h0]
      rw [Matrix.transpose_add, spatialMat_transpose _ (hinert i),
        list_sum_transpose, List.map_map]
      congr 1
      congr 1
      apply List.map_congr_left
      intro c hc
      have hgt := ((mem_childrenL M i c).mp hc).2
      show (((M.idCtx q qd qdd g).X c).to_matrix.transpose
          * (abaIA M (M.idCtx q qd qdd g) c
              - Matrix.vecMulVec (abaU6 M (M.idCtx q qd qdd g) c)
                ((abaD M (M.idCtx q qd qdd g) c
                    + (M.idCtx q qd qdd g).eps)⁻¹
                  • abaU6 M (M.idCtx q qd qdd g) c))
          * ((M.idCtx q qd qdd g).X c).to_matrix).transpose = _
      rw [Matrix.transpose_mul, Matrix.transpose_mul, Matrix.transpose_transpose,
        schur_IA2_symm _ (IH c hgt).1, ← mul_assoc]
    · -- the force identity
      intro _
      rw [show M.neForceOf q qd qdd g i
          = neForce M (M.X q) (M.sweepVels q qd) (M.neAccOf q qd qdd g) i from rfl]
      rw [neForce_eq]
      rw [sfv_add_vec, sfv_add_vec, sfv_add_vec, sfvZero_vec, inertia_mmv_vec,
        sfvSum_vec]
      rw [abaIA_pos M (M.idCtx q qd qdd g) i h0,
        abaPA_pos M (M.idCtx q qd qdd g) i h0]
      simp only [show (M.idCtx q qd qdd g).eps = 0 from rfl, add_zero]
      rw [Matrix.add_mulVec, list_sum_mulVec6, sfv_add_vec, sfvSum_vec]
      rw [map_map_sum_eq (M.childrenL i)
        (fun c => (neForce M (M.X q) (M.sweepVels q qd)
            (M.neAccOf q qd qdd g) c).transform (M.X q c))
        (fun c =>
          (((M.idCtx q qd qdd g).X c).to_matrix.transpose
              * (abaIA M (M.idCtx q qd qdd g) c
                  - Matrix.vecMulVec (abaU6 M (M.idCtx q qd qdd g) c)
                    ((abaD M (M.idCtx q qd qdd g) c)⁻¹
                      • abaU6 M (M.idCtx q qd qdd g) c))
              * ((M.idCtx q qd qdd g).X c).to_matrix).mulVec
            (M.neAccOf q qd qdd g i).get_vector
          + ((((abaPA M (M.idCtx q qd qdd g) c).add_force_vec (sfvOfVec
                ((abaIA M (M.idCtx q qd qdd g) c
                    - Matrix.vecMulVec (abaU6 M (M.idCtx q qd qdd g) c)
                      ((abaD M (M.idCtx q qd qdd g) c)⁻¹
                        • abaU6 M (M.idCtx q qd qdd g) c)).mulVec
                  ((M.idCtx q qd qdd g).cb c).get_vector))).add_force_vec
              ((sfvOfVec (abaU6 M (M.idCtx q qd qdd g) c)).multiply
                (abaSmallU M (M.idCtx q qd qdd g) c
                  / abaD M (M.idCtx q qd qdd g) c))).transform
              ((M.idCtx q qd qdd g).X c)).get_vector) ?hper]
      rw [← map_map_sum_add (M.childrenL i)
        (fun c =>
          ((M.idCtx q qd qdd g).X c).to_matrix.transpose
            * (abaIA M (M.idCtx q qd qdd g) c
                - Matrix.vecMulVec (abaU6 M (M.idCtx q qd qdd g) c)
                  ((abaD M (M.idCtx q qd qdd g) c)⁻¹
                    • abaU6 M (M.idCtx q qd qdd g) c))
            * ((M.idCtx q qd qdd g).X c).to_matrix)
        (M.neAccOf q qd qdd g i).get_vector
        (fun c =>
          (((abaPA M (M.idCtx q qd qdd g) c).add_force_vec (sfvOfVec
              ((abaIA M (M.idCtx q qd qdd g) c
                  - Matrix.vecMulVec (abaU6 M (M.idCtx q qd qdd g) c)
                    ((abaD M (M.idCtx q qd qdd g) c)⁻¹
                      • abaU6 M (M.idCtx q qd qdd g) c)).mulVec
                ((M.idCtx q qd qdd g).cb c).get_vector))).add_force_vec
            ((sfvOfVec (abaU6 M (M.idCtx q qd qdd g) c)).multiply
              (abaSmallU M (M.idCtx q qd qdd g) c
                / abaD M (M.idCtx q qd qdd g) c))).transform
            ((M.idCtx q qd qdd g).X c))
        _ (fun c hc => rfl)]
      rw [show (M.idCtx q qd qdd g).pA0 i
          = (M.sweepVels q qd i).cross_force_vec
              ((M.inertia i).multiply_motion_vec (M.sweepVels q qd i)) from rfl]
      abel
      case hper =>
        intro c hc
        obtain ⟨hpc, hgt⟩ := (mem_childrenL M i c).mp hc
        have hc0 : 0 < c.1 := by omega
        have hA : (M.neAccOf q qd qdd g c).get_vector
            = ((motionMat (M.X q c).inverse).mulVec
                  (M.neAccOf q qd qdd g i).get_vector
                + ((M.idCtx q qd qdd g).cb c).get_vector)
              + M.jointVal qdd c • (M.S6 c).get_vector := by
          have hstep : M.neAccOf q qd qdd g c
              = (((M.neAccOf q qd qdd g i).transform
                    (M.X q c).inverse).add_motion_vec
                  (M.joint_acc_of qdd c)).add_motion_vec
                ((M.sweepVels q qd c).cross_motion_vec (M.joint_vel_of qd c)) := by
            show neAcc M (M.X q) (M.joint_acc_of qdd) _ _ c = _
            rw [neAcc_pos M (M.X q) (M.joint_acc_of qdd) _ _ c hc0, hpc]
            rfl
          rw [hstep, smv_add_vec, smv_add_vec, smv_transform_vec,
            joint_acc_of_eq M qdd c, smv_multiply_vec]
          rw [show ((M.idCtx q qd qdd g).cb c).get_vector
              = ((M.sweepVels q qd c).cross_motion_vec
                  (M.joint_vel_of qd c)).get_vector from rfl]
          abel
        have hu : abaSmallU M (M.idCtx q qd qdd g) c
            = Matrix.dotProduct (M.neForceOf q qd qdd g c).get_vector
                (M.S6 c).get_vector
              - Matrix.dotProduct (abaPA M (M.idCtx q qd qdd g) c).get_vector
                  (M.S6 c).get_vector := by
          rw [show abaSmallU M (M.idCtx q qd qdd g) c
              = (M.idCtx q qd qdd g).fB c
                - SpatialForceVec.dot (abaPA M (M.idCtx q qd qdd g) c) (M.S6 c)
              from rfl]
          rw [sfv_dot_vec]
          congr 1
          rcases hchild c hc with ⟨hctrl, _⟩ | ⟨hSv, _, hfalse⟩
          · have hmem : c ∈ M.controlledList := (mem_controlledList M c).mpr hctrl
            rw [show (M.idCtx q qd qdd g).fB c
                = M.jointVal (fun j => (M.neForceOf q qd qdd g (M.cj j)).dot
                    (M.S6 (M.cj j))) c from rfl]
            rw [RobotModel.jointVal, dif_pos hmem]
            rw [cj_dofIdx M c hmem, sfv_dot_vec]
          · rw [show (M.idCtx q qd qdd g).fB c
                = M.jointVal (fun j => (M.neForceOf q qd qdd g (M.cj j)).dot
                    (M.S6 (M.cj j))) c from rfl]
            rw [jointVal_uncontrolled M _ c hfalse, hSv, Matrix.dotProduct_zero]
        have hcs : abaD M (M.idCtx q qd qdd g) c ≠ 0
            ∨ ((M.S6 c).get_vector = 0 ∧ M.jointVal qdd c = 0) := by
          rcases hchild c hc with ⟨_, hne⟩ | ⟨hSv, hq0, _⟩
          · exact Or.inl hne
          · exact Or.inr ⟨hSv, hq0⟩
        show ((M.neForceOf q qd qdd g c).transform (M.X q c)).get_vector = _
        rw [sfv_transform_vec]
        simp only []
        rw [sfv_transform_vec, sfv_add_vec, sfv_add_vec, sfvOfVec_get_vector,
          sfv_multiply_vec, sfvOfVec_get_vector]
        exact (child_contrib_eq (M.X q c) (hrot c)
          (abaIA M (M.idCtx q qd qdd g) c) (IH c hgt).1
          (M.S6 c).get_vector (M.neAccOf q qd qdd g i).get_vector
          ((M.idCtx q qd qdd g).cb c).get_vector (M.jointVal qdd c)
          (abaPA M (M.idCtx q qd qdd g) c).get_vector
          (M.neForceOf q qd qdd g c).get_vector
          (M.neAccOf q qd qdd g c).get_vector hA ((IH c hgt).2 hc0)
          (abaU6 M (M.idCtx q qd qdd g) c) rfl
          (abaD M (M.idCtx q qd qdd g) c) rfl
          (abaSmallU M (M.idCtx q qd qdd g) c) hu hcs).symm

theorem qdd_solve_eq (M : RobotModel) (q qd qdd : Fin M.nDofs → ℚ) (g : Bool)
    (hfix : ∀ k : M.Idx, M.controlled k = false → M.joint_axis k = 0)
    (hrot : ∀ k : M.Idx, IsRot (M.X q k).rot)
    (hinert : ∀ k : M.Idx,
      (M.inertia k).inertia_mat.transpose = (M.inertia k).inertia_mat)
    (hd : ∀ k : M.Idx, M.controlled k = true →
      abaD M (M.idCtx q qd qdd g) k ≠ 0)
    (i : M.Idx) (hctrl : M.controlled i = true) (hi0 : 0 < i.1)
    (hpar : abaAcc M (M.idCtx q qd qdd g) (baseAccOf g) (M.parent i)
      = M.neAccOf q qd qdd g (M.parent i)) :
    (1 / abaD M (M.idCtx q qd qdd g) i) * (abaSmallU M (M.idCtx q qd qdd g) i
      - SpatialForceVec.dot (sfvOfVec (abaU6 M (M.idCtx q qd qdd g) i))
          (((abaAcc M (M.idCtx q qd qdd g) (baseAccOf g)
              (M.parent i)).transform
              ((M.idCtx q qd qdd g).X i).inverse).add_motion_vec
            ((M.idCtx q qd qdd g).cb i)))
      = M.jointVal qdd i := by
  have hdne := hd i hctrl
  rw [hpar, sfv_dot_vec, sfvOfVec_get_vector, smv_add_vec, smv_transform_vec,
    show (M.idCtx q qd qdd g).X i = M.X q i from rfl]
  have hback := (aba_backward_invariant M q qd qdd g hfix hrot hinert hd i).2 hi0
  have hsymi := (aba_backward_invariant M q qd qdd g hfix hrot hinert hd i).1
  have hA : (M.neAccOf q qd qdd g i).get_vector
      = ((motionMat (M.X q i).inverse).mulVec
            (M.neAccOf q qd qdd g (M.parent i)).get_vector
          + ((M.idCtx q qd qdd g).cb i).get_vector)
        + M.jointVal qdd i • (M.S6 i).get_vector := by
    have hstep : M.neAccOf q qd qdd g i
        = (((M.neAccOf q qd qdd g (M.parent i)).transform
              (M.X q i).inverse).add_motion_vec
            (M.joint_acc_of qdd i)).add_motion_vec
          ((M.sweepVels q qd i).cross_motion_vec (M.joint_vel_of qd i)) := by
      show neAcc M (M.X q) (M.joint_acc_of qdd) _ _ i = _
      rw [neAcc_pos M (M.X q) (M.joint_acc_of qdd) _ _ i hi0]
      rfl
    rw [hstep, smv_add_vec, smv_add_vec, smv_transform_vec,
      joint_acc_of_eq M qdd i, smv_multiply_vec]
    rw [show ((M.idCtx q qd qdd g).cb i).get_vector
        = ((M.sweepVels q qd i).cross_motion_vec
            (M.joint_vel_of qd i)).get_vector from rfl]
    abel
  have hmem : i ∈ M.controlledList := (mem_controlledList M i).mpr hctrl
  have hu : abaSmallU M (M.idCtx q qd qdd g) i
      = Matrix.dotProduct (M.neForceOf q qd qdd g i).get_vector
          (M.S6 i).get_vector
        - Matrix.dotProduct (abaPA M (M.idCtx q qd qdd g) i).get_vector
            (M.S6 i).get_vector := by
    rw [show abaSmallU M (M.idCtx q qd qdd g) i
        = (M.idCtx q qd qdd g).fB i
          - SpatialForceVec.dot (abaPA M (M.idCtx q qd qdd g) i) (M.S6 i)
        from rfl]
    rw [sfv_dot_vec]
    congr 1
    rw [show (M.idCtx q qd qdd g).fB i
        = M.jointVal (fun j => (M.neForceOf q qd qdd g (M.cj j)).dot
            (M.S6 (M.cj j))) i from rfl]
    rw [RobotModel.jointVal, dif_pos hmem]
    rw [cj_dofIdx M i hmem, sfv_dot_vec]
  have hOne : abaSmallU M (M.idCtx q qd qdd g) i
      - Matrix.dotProduct (abaU6 M (M.idCtx q qd qdd g) i)
          ((motionMat (M.X q i).inverse).mulVec
              (M.neAccOf q qd qdd g (M.parent i)).get_vector
            + ((M.idCtx q qd qdd g).cb i).get_vector)
      = M.jointVal qdd i * abaD M (M.idCtx q qd qdd g) i := by
    rw [hu, hback, Matrix.add_dotProduct, add_sub_cancel_right, dot_mulVec_left,
      hsymi,
      show (abaIA M (M.idCtx q qd qdd g) i).mulVec (M.S6 i).get_vector
        = abaU6 M (M.idCtx q qd qdd g) i from rfl,
      hA, Matrix.add_dotProduct, Matrix.smul_dotProduct,
      show Matrix.dotProduct (M.S6 i).get_vector
          (abaU6 M (M.idCtx q qd qdd g) i)
        = abaD M (M.idCtx q qd qdd g) i from rfl,
      Matrix.dotProduct_comm (abaU6 M (M.idCtx q qd qdd g) i)
        ((motionMat (M.X q i).inverse).mulVec
            (M.neAccOf q qd qdd g (M.parent i)).get_vector
          + ((M.idCtx q qd qdd g).cb i).get_vector),
      smul_eq_mul]
    ring
  rw [hOne, one_div, mul_comm (M.jointVal qdd i)
    (abaD M (M.idCtx q qd qdd g) i), ← mul_assoc, inv_mul_cancel₀ hdne, one_mul]

theorem aba_forward_invariant (M : RobotModel) (q qd qdd : Fin M.nDofs → ℚ)
    (g : Bool)
    (hfix : ∀ k : M.Idx, M.controlled k = false → M.joint_axis k = 0)
    (hrot : ∀ k : M.Idx, IsRot (M.X q k).rot)
    (hinert : ∀ k : M.Idx,
      (M.inertia k).inertia_mat.transpose = (M.inertia k).inertia_mat)
    (hd : ∀ k : M.Idx, M.controlled k = true →
      abaD M (M.idCtx q qd qdd g) k ≠ 0) :
    ∀ i : M.Idx,
      abaAcc M (M.idCtx q qd qdd g) (baseAccOf g) i = M.neAccOf q qd qdd g i := by
  apply idx_strong_induction
  intro i IH
  by_cases h0 : 0 < i.1
  · have hpar := IH (M.parent i) (M.hparent i h0)
    have hne : M.neAccOf q qd qdd g i
        = (((M.neAccOf q qd qdd g (M.parent i)).transform
              (M.X q i).inverse).add_motion_vec
            (M.joint_acc_of qdd i)).add_motion_vec
          ((M.sweepVels q qd i).cross_motion_vec (M.joint_vel_of qd i)) := by
      show neAcc M (M.X q) (M.joint_acc_of qdd) _ _ i = _
      rw [neAcc_pos M (M.X q) (M.joint_acc_of qdd) _ _ i h0]
      rfl
    by_cases hctrl : M.controlled i = true
    · rw [abaAcc_pos_controlled M _ _ i h0 hctrl,
        qdd_solve_eq M q qd qdd g hfix hrot hinert hd i hctrl h0 hpar, hpar, hne,
        joint_acc_of_eq M qdd i,
        show (M.idCtx q qd qdd g).X i = M.X q i from rfl,
        show (M.idCtx q qd qdd g).cb i
          = (M.sweepVels q qd i).cross_motion_vec (M.joint_vel_of qd i) from rfl]
      apply smv_ext <;>
        simp only [SpatialMotionVec.add_motion_vec] <;> abel
    · have hfalse : M.controlled i = false := Bool.eq_false_iff.mpr hctrl
      rw [abaAcc_pos_fixed M _ _ i h0 hfalse, hpar, hne,
        joint_acc_of_eq M qdd i, jointVal_uncontrolled M qdd i hfalse,
        smv_multiply_zero_scalar, smv_add_zero,
        show (M.idCtx q qd qdd g).X i = M.X q i from rfl,
        show (M.idCtx q qd qdd g).cb i
          = (M.sweepVels q qd i).cross_motion_vec (M.joint_vel_of qd i) from rfl]
  · rw [abaAcc_base M _ _ i h0,
      show M.neAccOf q qd qdd g i = baseAccOf g from
        neAcc_base M (M.X q) (M.joint_acc_of qdd) _ _ i h0]

/-- **C1.** The round trip `forward_dynamics(q, qd, inverse_dynamics(q, qd,
qdd_des, g, d), g, d) = qdd_des`, holding the gravity and damping flags
consistent, in exact arithmetic (the backward-sweep smoothing constant set
to zero; the source's `1e-37` makes the identity hold up to float
tolerance).  The damping torque `+damping·qd` added by inverse dynamics is
subtracted again in place by forward dynamics, and the remaining applied
force of every joint is the Newton-Euler force projection, which the
articulated-body sweeps invert exactly.  Hypotheses: at least one controlled
joint (both entry points raise otherwise), coordinate-aligned unit axes on
controlled joints (required for the torque extraction of inverse dynamics to
return at all), zero axes on fixed joints, proper-rotation joint poses,
symmetric rotational inertias, and nonzero articulated effective inertias
`d` on controlled joints (a zero `d` is a division by zero in the forward
sweep — claim C2). -/
theorem claim_C1_round_trip (M : RobotModel) (q qd qdd : Fin M.nDofs → ℚ)
    (g d : Bool) (hnd : 0 < M.nDofs)
    (haxis : ∀ i : M.Idx, M.controlled i = true →
      ∃ k : Fin 3, M.joint_axis i = e3 k ∨ M.joint_axis i = -e3 k)
    (hfix : ∀ i : M.Idx, M.controlled i = false → M.joint_axis i = 0)
    (hrot : ∀ i : M.Idx, IsRot (M.X q i).rot)
    (hinert : ∀ i : M.Idx,
      (M.inertia i).inertia_mat.transpose = (M.inertia i).inertia_mat)
    (hd : ∀ i : M.Idx, M.controlled i = true →
      abaD M (M.idCtx q qd qdd g) i ≠ 0) :
    ∃ τ : Fin M.nDofs → ℚ,
      M.compute_inverse_dynamics q qd qdd g d = some τ
        ∧ M.compute_forward_dynamics_eps 0 q qd τ g d = some qdd := by
  have hQ : ∀ j : Fin M.nDofs,
      abaQdd M (M.idCtx q qd qdd g) (baseAccOf g) (M.cj j) = qdd j := by
    intro j
    exact (qdd_solve_eq M q qd qdd g hfix hrot hinert hd (M.cj j)
      (controlled_cj M j) (cj_pos M j)
      (aba_forward_invariant M q qd qdd g hfix hrot hinert hd
        (M.parent (M.cj j)))).trans (jointVal_cj M qdd j)
  cases d
  · refine ⟨fun j => (M.neForceOf q qd qdd g (M.cj j)).dot (M.S6 (M.cj j))
      + (if (false : Bool) = true then M.dampingConst j * qd j else 0),
      ID_eq M q qd qdd g false hnd haxis, ?_⟩
    have hf : (if (false : Bool) = true
        then (fun j => ((fun j' => (M.neForceOf q qd qdd g (M.cj j')).dot
              (M.S6 (M.cj j'))
            + (if (false : Bool) = true then M.dampingConst j' * qd j' else 0)) j
          - M.dampingConst j * qd j))
        else (fun j' => (M.neForceOf q qd qdd g (M.cj j')).dot (M.S6 (M.cj j'))
          + (if (false : Bool) = true then M.dampingConst j' * qd j' else 0)))
        = fun j => (M.neForceOf q qd qdd g (M.cj j)).dot (M.S6 (M.cj j)) := by
      rw [if_neg (by decide : ¬ ((false : Bool) = true))]
      funext j
      rw [if_neg (by decide : ¬ ((false : Bool) = true)), add_zero]
    have hctx : M.abaCtxOf 0 q qd
        (fun j => (M.neForceOf q qd qdd g (M.cj j)).dot (M.S6 (M.cj j))
          + (if (false : Bool) = true then M.dampingConst j * qd j else 0)) false
        = M.idCtx q qd qdd g := by
      unfold RobotModel.abaCtxOf RobotModel.idCtx
      rw [hf]
    rw [fd_eps_characterization, hctx, if_pos ⟨hnd, hd⟩]
    congr 1
    funext j
    exact hQ j
  · refine ⟨fun j => (M.neForceOf q qd qdd g (M.cj j)).dot (M.S6 (M.cj j))
      + (if (true : Bool) = true then M.dampingConst j * qd j else 0),
      ID_eq M q qd qdd g true hnd haxis, ?_⟩
    have hf : (if (true : Bool) = true
        then (fun j => ((fun j' => (M.neForceOf q qd qdd g (M.cj j')).dot
              (M.S6 (M.cj j'))
            + (if (true : Bool) = true then M.dampingConst j' * qd j' else 0)) j
          - M.dampingConst j * qd j))
        else (fun j' => (M.neForceOf q qd qdd g (M.cj j')).dot (M.S6 (M.cj j'))
          + (if (true : Bool) = true then M.dampingConst j' * qd j' else 0)))
        = fun j => (M.neForceOf q qd qdd g (M.cj j)).dot (M.S6 (M.cj j)) := by
      rw [if_pos rfl]
      funext j
      show ((M.neForceOf q qd qdd g (M.cj j)).dot (M.S6 (M.cj j))
        + (if (true : Bool) = true then M.dampingConst j * qd j else 0))
        - M.dampingConst j * qd j = _
      rw [if_pos rfl, add_sub_cancel_right]
    have hctx : M.abaCtxOf 0 q qd
        (fun j => (M.neForceOf q qd qdd g (M.cj j)).dot (M.S6 (M.cj j))
          + (if (true : Bool) = true then M.dampingConst j * qd j else 0)) true
        = M.idCtx q qd qdd g := by
      unfold RobotModel.abaCtxOf RobotModel.idCtx
      rw [hf]
    rw [fd_eps_characterization, hctx, if_pos ⟨hnd, hd⟩]
    congr 1
    funext j
    exact hQ j

/-- Witness for C1: the one-revolute-joint robot `robotW` at rest, desired
acceleration `1`, gravity off, damping off. -/
theorem claim_C1_round_trip_witness :
    ∃ τ : Fin robotW.nDofs → ℚ,
      robotW.compute_inverse_dynamics 0 0 (fun _ => 1) false false = some τ
        ∧ robotW.compute_forward_dynamics_eps 0 0 0 τ false false
            = some (fun _ => 1) :=
  claim_C1_round_trip robotW 0 0 (fun _ => 1) false false (by decide) (by decide)
    (by decide)
    (fun i => ⟨by rw [show (robotW.X 0 i).rot = 1 from rfl, Matrix.transpose_one,
        Matrix.one_mul],
      by rw [show (robotW.X 0 i).rot = 1 from rfl, Matrix.det_one]⟩)
    (fun i => by rw [show (robotW.inertia i).inertia_mat = 1 from rfl,
      Matrix.transpose_one])
    (fun i hi => by
      fin_cases i
      · exact absurd hi (by decide)
      · show abaD robotW (robotW.idCtx 0 0 (fun _ => 1) false) 1 ≠ 0
        rw [abaD_robotW]
        exact one_ne_zero)
